import Mathlib

/-!
# Mark-and-sweep collector of `gc1.c`: embedding and verification

The C program keeps every allocated `Object` in an intrusive singly linked
list (`firstObject`, `next`), uses the VM stack as root set, and reclaims
unreachable objects with a recursive `mark` followed by `sweep`.

Modelling decisions.

* Pointers are natural numbers, `0` is `NULL`.  Process memory is a finite
  map `Heap` from addresses to `Object` records: an association list that is
  read with `Heap.get` (first cell with the address), written with `Heap.set`
  (that same cell) and released with `Heap.free` (every cell with the
  address).  Dereferencing an address that is not allocated is the error
  `Err.segfault`.
* `malloc` returns an address that is non-null and not currently allocated
  (`Heap.fresh`, one past the largest allocated address, so a freed address
  can be handed out again); the fields `newObject` does not initialise are
  zero.
* The anonymous union `value` / `head`,`tail` is modelled by three separate
  fields: the source only reads the member that matches the tag.
* The `int` counters `numObjects` and `maxObjects` are 32 bits wide.  The
  product `numObjects * 2` in `gc` is reduced to that width (`wrapInt`, two's
  complement): it leaves the range of `int` as soon as `2^30` objects survive
  a collection, which a client with 64-bit pointers can arrange
  (`overflowOps`).  The steps `numObjects++` and `numObjects--` are not
  reduced: in a run from `newVM` the counter is the length of the object list
  (`callReachable_countInv`) and cannot come near `2^31` before that product
  has overflowed.  `stackSize` only moves inside `0 .. STACK_MAX` and is a
  `Nat`.
* `assert` failing ends the process: the operation returns `Except.error`.
* The two `printf` lines of `gc` are recorded in the field `out`.
* `mark` recurses on the heap graph and `sweep` loops over the list; both are
  given a budget computed from the heap size, and running out of it is the
  distinct error `Err.fuel`.  The theorems show that operations return
  `Except.ok`, so the budget is never the reason for a result.
* `Op`, `Reachable` describe a client that uses the facade (`pushInt`,
  `pushPair`, `pop`, `gc`); `Call`, `CallReachable` describe a client that
  also calls `push` directly, with any pointer.
* `worklistAux`, `markAllWorklist` are not code of the program: they are the
  work-list form of the mark phase that the design notes describe, and the
  recursive `markAll` is compared with them.
-/

namespace GC

/-- Capacity of the VM stack (`#define STACK_MAX 256`). -/
def STACK_MAX : Nat := 256

/-- Initial and fallback collection threshold (`#define GC_THRESHOLD 10`). -/
def GC_THRESHOLD : Int := 10

/-- The two kinds of heap object. -/
inductive ObjectType where
  | OBJ_INT
  | OBJ_PAIR
deriving DecidableEq, Repr

/-- Addresses; `0` is the null pointer. -/
abbrev Ptr := Nat

/-- The null pointer. -/
def NULL : Ptr := 0

/-- The record `struct sObject`. -/
structure Object where
  marked : Nat
  type : ObjectType
  next : Ptr
  value : Int
  head : Ptr
  tail : Ptr
deriving DecidableEq, Repr

/-- Process memory holding the allocated objects. -/
abbrev Heap := List (Ptr × Object)

/-- Ways an operation can stop the process. -/
inductive Err where
  | stackOverflow
  | stackUnderflow
  | segfault
  | fuel
deriving DecidableEq, Repr

/-- One line printed by `gc`. -/
inductive Output where
  | collected (n : Int)
  | remaining (n : Int)
deriving DecidableEq, Repr

/-- The record `VM`, together with the memory its pointers refer to and the
text printed so far. -/
structure VM where
  stack : Nat → Ptr
  stackSize : Nat
  firstObject : Ptr
  numObjects : Int
  maxObjects : Int
  heap : Heap
  out : List Output

/-- Read the object stored at an address, if the address is allocated. -/
def Heap.get : Heap → Ptr → Option Object
  | [], _ => none
  | (a, o) :: h, p => if a = p then some o else Heap.get h p

/-- Overwrite the object stored at an address (the cell `Heap.get` reads). -/
def Heap.set : Heap → Ptr → Object → Heap
  | [], _, _ => []
  | (a, o) :: h, p, v => if a = p then (a, v) :: h else (a, o) :: Heap.set h p v

/-- Release an address (`free`). -/
def Heap.free : Heap → Ptr → Heap
  | [], _ => []
  | (a, o) :: h, p => if a = p then Heap.free h p else (a, o) :: Heap.free h p

/-- One more than every allocated address. -/
def Heap.fresh : Heap → Ptr
  | [] => 1
  | (a, _) :: h => max (a + 1) (Heap.fresh h)

/-- Write through a pointer: `p->field = ...`. -/
def Heap.modify (h : Heap) (p : Ptr) (f : Object → Object) : Except Err Heap :=
  match h.get p with
  | none => .error .segfault
  | some o => .ok (h.set p (f o))

/-- Code of `newVM`. -/
def newVM : VM :=
  { stack := fun _ => NULL
    stackSize := 0
    firstObject := NULL
    numObjects := 0
    maxObjects := GC_THRESHOLD
    heap := []
    out := [] }

/-- Code of `push`. -/
def push (vm : VM) (value : Ptr) : Except Err VM :=
  if vm.stackSize < STACK_MAX then
    .ok { vm with
      stack := fun i => if i = vm.stackSize then value else vm.stack i
      stackSize := vm.stackSize + 1 }
  else .error .stackOverflow

/-- Code of `pop`: the new state and the returned pointer. -/
def pop (vm : VM) : Except Err (VM × Ptr) :=
  if vm.stackSize > 0 then
    .ok ({ vm with stackSize := vm.stackSize - 1 }, vm.stack (vm.stackSize - 1))
  else .error .stackUnderflow

/-- Body of `mark` with a bound on the recursion depth. -/
def markAux : Nat → Heap → Ptr → Except Err Heap
  | 0, _, _ => .error .fuel
  | fuel + 1, h, object =>
    match h.get object with
    | none => .error .segfault
    | some o =>
      if o.marked ≠ 0 then .ok h
      else
        let h1 := h.set object { o with marked := 1 }
        match h1.get object with
        | none => .error .segfault
        | some o1 =>
          if o1.type = .OBJ_PAIR then
            match markAux fuel h1 o1.head with
            | .error e => .error e
            | .ok h2 =>
              match h2.get object with
              | none => .error .segfault
              | some o2 => markAux fuel h2 o2.tail
          else .ok h1

/-- Code of `mark`. -/
def mark (h : Heap) (object : Ptr) : Except Err Heap :=
  markAux (h.length + 1) h object

/-- The loop of `markAll` over a list of stack slots. -/
def markList : List Ptr → Heap → Except Err Heap
  | [], h => .ok h
  | p :: ps, h =>
    match mark h p with
    | .error e => .error e
    | .ok h1 => markList ps h1

/-- The stack entries `stack[0], ..., stack[stackSize-1]`. -/
def roots (vm : VM) : List Ptr :=
  (List.range vm.stackSize).map vm.stack

/-- Code of `markAll`. -/
def markAll (vm : VM) : Except Err VM :=
  match markList (roots vm) vm.heap with
  | .error e => .error e
  | .ok h => .ok { vm with heap := h }

/-- What the variable `Object** object` of `sweep` points at: the field
`vm->firstObject` or the field `next` of an object. -/
inductive Loc where
  | first
  | next (a : Ptr)
deriving DecidableEq, Repr

/-- Read `*object`. -/
def readLoc (vm : VM) : Loc → Option Ptr
  | .first => some vm.firstObject
  | .next a => (vm.heap.get a).map Object.next

/-- Write `*object = p`. -/
def writeLoc (vm : VM) (l : Loc) (p : Ptr) : Except Err VM :=
  match l with
  | .first => .ok { vm with firstObject := p }
  | .next a =>
    match vm.heap.modify a (fun o => { o with next := p }) with
    | .error e => .error e
    | .ok h => .ok { vm with heap := h }

/-- The loop of `sweep` with a bound on the number of iterations. -/
def sweepLoop : Nat → VM → Loc → Except Err VM
  | 0, _, _ => .error .fuel
  | fuel + 1, vm, object =>
    match readLoc vm object with
    | none => .error .segfault
    | some p =>
      if p = NULL then .ok vm
      else
        match vm.heap.get p with
        | none => .error .segfault
        | some o =>
          if o.marked = 0 then
            match writeLoc vm object o.next with
            | .error e => .error e
            | .ok vm1 =>
              sweepLoop fuel
                { vm1 with heap := vm1.heap.free p, numObjects := vm1.numObjects - 1 } object
          else
            sweepLoop fuel { vm with heap := vm.heap.set p { o with marked := 0 } } (.next p)

/-- Code of `sweep`. -/
def sweep (vm : VM) : Except Err VM :=
  sweepLoop (2 * vm.heap.length + 1) vm .first

/-- The value of an `int` expression whose mathematical result is `x`: the
representative of `x` modulo `2^32` in `-2^31 .. 2^31 - 1`.  (The C standard
leaves signed overflow undefined; this is the two's-complement result.) -/
def wrapInt (x : Int) : Int :=
  (x + 2147483648) % 4294967296 - 2147483648

/-- Code of `gc`. -/
def gc (vm : VM) : Except Err VM :=
  let numObjects := vm.numObjects
  match markAll vm with
  | .error e => .error e
  | .ok vm1 =>
    match sweep vm1 with
    | .error e => .error e
    | .ok vm2 =>
      let vm3 := { vm2 with
        maxObjects :=
          if vm2.numObjects = 0 then GC_THRESHOLD else wrapInt (vm2.numObjects * 2) }
      .ok { vm3 with
        out := vm3.out ++
          [Output.collected (numObjects - vm3.numObjects), Output.remaining vm3.numObjects] }

/-- Code of `newObject`: the new state and the returned pointer. -/
def newObject (vm : VM) (type : ObjectType) : Except Err (VM × Ptr) :=
  match (if vm.numObjects = vm.maxObjects then gc vm else .ok vm) with
  | .error e => .error e
  | .ok vm1 =>
    let object := vm1.heap.fresh
    let o : Object :=
      { marked := 0, type := type, next := vm1.firstObject, value := 0, head := NULL, tail := NULL }
    .ok ({ vm1 with
            heap := (object, o) :: vm1.heap
            firstObject := object
            numObjects := vm1.numObjects + 1 }, object)

/-- Code of `pushInt`. -/
def pushInt (vm : VM) (intValue : Int) : Except Err VM :=
  match newObject vm .OBJ_INT with
  | .error e => .error e
  | .ok (vm1, object) =>
    match vm1.heap.modify object (fun o => { o with value := intValue }) with
    | .error e => .error e
    | .ok h => push { vm1 with heap := h } object

/-- Code of `pushPair`: the new state and the returned pointer. -/
def pushPair (vm : VM) : Except Err (VM × Ptr) :=
  match newObject vm .OBJ_PAIR with
  | .error e => .error e
  | .ok (vm1, object) =>
    match pop vm1 with
    | .error e => .error e
    | .ok (vm2, t) =>
      match vm2.heap.modify object (fun o => { o with tail := t }) with
      | .error e => .error e
      | .ok h3 =>
        match pop { vm2 with heap := h3 } with
        | .error e => .error e
        | .ok (vm4, hd) =>
          match vm4.heap.modify object (fun o => { o with head := hd }) with
          | .error e => .error e
          | .ok h5 =>
            match push { vm4 with heap := h5 } object with
            | .error e => .error e
            | .ok vm6 => .ok (vm6, object)

/-- Code of `freeVM` up to the final `free(vm)`: the state the VM is in when
its own storage is released. -/
def freeVM (vm : VM) : Except Err VM :=
  gc { vm with stackSize := 0 }

/-! ## Specification vocabulary -/

/-- Relation `Chain h p L`: following `next` links in `h` from `p` visits exactly the
addresses `L`, each allocated and non-null, and then reaches `NULL`. -/
def Chain (h : Heap) : Ptr → List Ptr → Prop
  | p, [] => p = NULL
  | p, a :: L => p = a ∧ a ≠ NULL ∧ ∃ o, h.get a = some o ∧ Chain h o.next L

/-- Relation `Registry vm L`: the linked list anchored at `firstObject` is `L`. -/
def Registry (vm : VM) (L : List Ptr) : Prop :=
  Chain vm.heap vm.firstObject L

/-- Relation `Reach h p q`: `q` is reached from `p` by zero or more `head`/`tail`
edges out of pair objects of `h`. -/
inductive Reach (h : Heap) : Ptr → Ptr → Prop where
  | refl (p : Ptr) : Reach h p p
  | head {p q : Ptr} {o : Object} :
      Reach h p q → h.get q = some o → o.type = .OBJ_PAIR → Reach h p o.head
  | tail {p q : Ptr} {o : Object} :
      Reach h p q → h.get q = some o → o.type = .OBJ_PAIR → Reach h p o.tail

/-- Relation `StackReach vm p`: `p` is reachable from one of `stack[0..stackSize)`. -/
def StackReach (vm : VM) (p : Ptr) : Prop :=
  ∃ i, i < vm.stackSize ∧ Reach vm.heap (vm.stack i) p

/-- Two objects agree on everything but the mark bit and the list link. -/
def SameData (o o' : Object) : Prop :=
  o'.type = o.type ∧ o'.value = o.value ∧ o'.head = o.head ∧ o'.tail = o.tail

/-- A well-formed state with registry list `L`: the list is a proper chain,
every registered object is unmarked, the counter is the length of the list,
and every object reachable from the stack is registered. -/
structure WellFormed (vm : VM) (L : List Ptr) : Prop where
  registry : Registry vm L
  unmarked : ∀ a ∈ L, ∀ o, vm.heap.get a = some o → o.marked = 0
  count : vm.numObjects = (L.length : Int)
  rooted : ∀ p, StackReach vm p → p ∈ L

/-- The calls a client makes on a VM. -/
inductive Op where
  | pushInt (v : Int)
  | pushPair
  | pop
  | gc
deriving DecidableEq, Repr

/-- Run one client call, keeping the state. -/
def step (vm : VM) : Op → Except Err VM
  | .pushInt v => pushInt vm v
  | .pushPair => (pushPair vm).map Prod.fst
  | .pop => (pop vm).map Prod.fst
  | .gc => gc vm

/-- States the program can be in: `newVM` followed by calls that returned. -/
inductive Reachable : VM → Prop where
  | init : Reachable newVM
  | step {vm vm' : VM} (op : Op) : Reachable vm → step vm op = .ok vm' → Reachable vm'

/-- Run a sequence of client calls. -/
def run : VM → List Op → Except Err VM
  | vm, [] => .ok vm
  | vm, op :: ops =>
    match step vm op with
    | .error e => .error e
    | .ok vm1 => run vm1 ops

/-! ## Auxiliary notions used in the proofs -/

/-- The object at `a` exists and has its mark bit set. -/
def Marked (h : Heap) (a : Ptr) : Prop :=
  ∃ o, h.get a = some o ∧ o.marked ≠ 0

/-- Test of the mark bit at an address, as `sweep` performs it. -/
def isMarked (h : Heap) (a : Ptr) : Bool :=
  match h.get a with
  | some o => decide (o.marked ≠ 0)
  | none => false

/-- Number of memory cells whose mark bit is clear. -/
def unmarkedCount : Heap → Nat
  | [] => 0
  | (_, o) :: h => (if o.marked = 0 then 1 else 0) + unmarkedCount h

/-- Relation `MarkRel h k`: `k` is `h` with the mark bit of some unmarked cells set
to `1` and nothing else changed. -/
def MarkRel : Heap → Heap → Prop
  | [], [] => True
  | (a, o) :: h, (a', o') :: h' =>
    a' = a ∧ (o' = o ∨ (o.marked = 0 ∧ o' = { o with marked := 1 })) ∧ MarkRel h h'
  | _, _ => False

/-- What the loop of `sweep`, started at `loc` with the list `L` ahead of it,
has done when it stops in state `vm'`. -/
structure SweepPost (vm : VM) (loc : Loc) (L : List Ptr) (vm' : VM) : Prop where
  chain : ∃ p', readLoc vm' loc = some p' ∧
    Chain vm'.heap p' (L.filter (isMarked vm.heap))
  freed : ∀ a ∈ L, isMarked vm.heap a = false → vm'.heap.get a = none
  kept : ∀ a ∈ L, ∀ o, vm.heap.get a = some o → o.marked ≠ 0 →
    ∃ o', vm'.heap.get a = some o' ∧ o'.marked = 0 ∧ SameData o o'
  other : ∀ a, a ∉ L → loc ≠ .next a → vm'.heap.get a = vm.heap.get a
  owner : ∀ b, loc = .next b → ∀ o, vm.heap.get b = some o →
    ∃ o', vm'.heap.get b = some o' ∧ o'.marked = o.marked ∧ SameData o o'
  count : vm'.numObjects =
    vm.numObjects - ((L.length : Int) - ((L.filter (isMarked vm.heap)).length : Int))
  stack : vm'.stack = vm.stack
  stackSize : vm'.stackSize = vm.stackSize
  maxObjects : vm'.maxObjects = vm.maxObjects
  out : vm'.out = vm.out
  first : loc ≠ .first → vm'.firstObject = vm.firstObject

/-- What `gc` has done to a state `vm` with registry `L` when it returns
`vm'` with registry `K`. -/
structure GcPost (vm : VM) (L K : List Ptr) (vm' : VM) : Prop where
  registry : Registry vm' K
  sub : K.Sublist L
  mem : ∀ a, a ∈ K ↔ StackReach vm a
  kept : ∀ a ∈ K, ∀ o, vm.heap.get a = some o →
    ∃ o', vm'.heap.get a = some o' ∧ o'.marked = 0 ∧ SameData o o'
  freed : ∀ a ∈ L, a ∉ K → vm'.heap.get a = none
  other : ∀ a, a ∉ L → vm'.heap.get a = vm.heap.get a
  count : vm'.numObjects = vm.numObjects - ((L.length : Int) - (K.length : Int))
  maxObjects : vm'.maxObjects =
    if vm'.numObjects = 0 then GC_THRESHOLD else wrapInt (vm'.numObjects * 2)
  stack : vm'.stack = vm.stack
  stackSize : vm'.stackSize = vm.stackSize
  out : vm'.out = vm.out ++
    [Output.collected (vm.numObjects - vm'.numObjects), Output.remaining vm'.numObjects]

/-- The first statement of `newObject`: collect when the threshold is met. -/
def collectIfFull (vm : VM) : Except Err VM :=
  if vm.numObjects = vm.maxObjects then gc vm else .ok vm

/-- The rest of `newObject`: allocate, initialise and link the object. -/
def allocate (vm : VM) (type : ObjectType) : VM × Ptr :=
  ({ vm with
      heap := (vm.heap.fresh,
        { marked := 0, type := type, next := vm.firstObject, value := 0,
          head := NULL, tail := NULL }) :: vm.heap
      firstObject := vm.heap.fresh
      numObjects := vm.numObjects + 1 }, vm.heap.fresh)

/-- The invariant of the reachable states, for registry list `L`. -/
structure Inv (vm : VM) (L : List Ptr) : Prop where
  registry : Registry vm L
  unmarked : ∀ a ∈ L, ∀ o, vm.heap.get a = some o → o.marked = 0
  count : vm.numObjects = (L.length : Int)
  stackOk : ∀ i, i < vm.stackSize → vm.stack i ∈ L
  closed : ∀ a ∈ L, ∀ o, vm.heap.get a = some o → o.type = .OBJ_PAIR →
    o.head ∈ L ∧ o.tail ∈ L

/-- The stack holds integer objects with the values `ws`, bottom first, and
the registry consists of exactly these objects, newest first. -/
structure IntStack (vm : VM) (ws : List Int) : Prop where
  inv : Inv vm (roots vm).reverse
  size : vm.stackSize = ws.length
  vals : ∀ i v, ws[i]? = some v →
    ∃ o, vm.heap.get (vm.stack i) = some o ∧ o.type = .OBJ_INT ∧ o.value = v

/-! ## The whole interface, `push` included -/

/-- The calls of the whole interface: besides the facade, a client may call
`push` with any pointer it likes. -/
inductive Call where
  | push (r : Ptr)
  | pop
  | pushInt (v : Int)
  | pushPair
  | gc
deriving DecidableEq, Repr

/-- Run one call of the whole interface, keeping the state. -/
def call (vm : VM) : Call → Except Err VM
  | .push r => push vm r
  | .pop => (pop vm).map Prod.fst
  | .pushInt v => pushInt vm v
  | .pushPair => (pushPair vm).map Prod.fst
  | .gc => gc vm

/-- States the program can be in when `push` is called directly as well:
`newVM` followed by calls that returned. -/
inductive CallReachable : VM → Prop where
  | init : CallReachable newVM
  | step {vm vm' : VM} (c : Call) : CallReachable vm → call vm c = .ok vm' → CallReachable vm'

/-- Run a sequence of calls of the whole interface. -/
def runCalls : VM → List Call → Except Err VM
  | vm, [] => .ok vm
  | vm, c :: cs =>
    match call vm c with
    | .error e => .error e
    | .ok vm1 => runCalls vm1 cs

/-- The state after running calls of the whole interface from `newVM`
(`newVM` itself if the sequence stops the process). -/
def stateAfterCalls (cs : List Call) : VM :=
  match runCalls newVM cs with
  | .ok vm => vm
  | .error _ => newVM

/-- The invariant of the states reachable through the whole interface, for
registry list `L`. -/
structure CountInv (vm : VM) (L : List Ptr) : Prop where
  registry : Registry vm L
  count : vm.numObjects = (L.length : Int)
  stackBound : vm.stackSize ≤ STACK_MAX

/-- Every registered object of the state is reachable from the stack. -/
structure AllLive (vm : VM) (L : List Ptr) : Prop where
  inv : Inv vm L
  live : ∀ a ∈ L, StackReach vm a

/-- In the list `L` the head and the tail of every pair come after the pair. -/
def Older (h : Heap) : List Ptr → Prop
  | [] => True
  | a :: L =>
    (∀ o, h.get a = some o → o.type = .OBJ_PAIR → o.head ∈ L ∧ o.tail ∈ L) ∧ Older h L

/-! ## The work-list variant of the mark phase -/

/-- Marking with an explicit work list in place of the recursion, the variant
the design notes describe: take a pointer off the list; if its object is
already marked go on with the rest; otherwise mark it and, for a pair, put
`head` and `tail` on the list. -/
def worklistAux : Nat → List Ptr → Heap → Except Err Heap
  | 0, _, _ => .error .fuel
  | _ + 1, [], h => .ok h
  | fuel + 1, p :: wl, h =>
    match h.get p with
    | none => .error .segfault
    | some o =>
      if o.marked ≠ 0 then worklistAux fuel wl h
      else if o.type = .OBJ_PAIR then
        worklistAux fuel (o.head :: o.tail :: wl) (h.set p { o with marked := 1 })
      else worklistAux fuel wl (h.set p { o with marked := 1 })

/-- The work-list variant of `markAll`: the work list starts as the stack
entries. -/
def markAllWorklist (vm : VM) : Except Err VM :=
  match worklistAux (2 * vm.heap.length + vm.stackSize + 1) (roots vm) vm.heap with
  | .error e => .error e
  | .ok h => .ok { vm with heap := h }

/-! ## Example states -/

/-- The state after running a call sequence from `newVM` (`newVM` itself if
the sequence stops the process). -/
def stateAfter (ops : List Op) : VM :=
  match run newVM ops with
  | .ok vm => vm
  | .error _ => newVM

/-- Eight integers pushed and popped, then two pushed: the counter has
reached the initial threshold with two live objects on the stack. -/
def fullOps : List Op :=
  [.pushInt 1, .pushInt 2, .pushInt 3, .pushInt 4, .pushInt 5, .pushInt 6, .pushInt 7,
   .pushInt 8, .pop, .pop, .pop, .pop, .pop, .pop, .pop, .pop, .pushInt 100, .pushInt 101]

/-- The calls that leave a balanced tree of pairs of depth `d`, with `2 ^ d`
integer leaves, on top of the stack: `2 ^ (d + 1) - 1` objects, built with at
most `d + 1` stack slots. -/
def treeOps : Nat → List Op
  | 0 => [.pushInt 0]
  | d + 1 => treeOps d ++ treeOps d ++ [.pushPair]

/-- A tree of depth 29 and one more integer: `2 ^ 30` objects, all of them
reachable from the two stack slots in use. -/
def overflowOps : List Op :=
  treeOps 29 ++ [.pushInt 0]

/-- A hand-built state between the mark and the sweep phase: of the
registered objects `4, 3, 2, 1` the objects `4` and `2` are marked. -/
def markedVM : VM :=
  { stack := fun _ => 4
    stackSize := 1
    firstObject := 4
    numObjects := 4
    maxObjects := 10
    heap :=
      [(4, { marked := 1, type := .OBJ_PAIR, next := 3, value := 0, head := 2, tail := 2 }),
       (3, { marked := 0, type := .OBJ_INT, next := 2, value := 30, head := 0, tail := 0 }),
       (2, { marked := 1, type := .OBJ_INT, next := 1, value := 20, head := 0, tail := 0 }),
       (1, { marked := 0, type := .OBJ_INT, next := 0, value := 10, head := 0, tail := 0 })]
    out := [] }

/-- A hand-built state: the integer `1` is on the stack; the pairs `2` and
`3` point at each other and at themselves and are not reachable. -/
def cyclicVM : VM :=
  { stack := fun _ => 1
    stackSize := 1
    firstObject := 3
    numObjects := 3
    maxObjects := 10
    heap :=
      [(3, { marked := 0, type := .OBJ_PAIR, next := 2, value := 0, head := 2, tail := 3 }),
       (2, { marked := 0, type := .OBJ_PAIR, next := 1, value := 0, head := 3, tail := 1 }),
       (1, { marked := 0, type := .OBJ_INT, next := NULL, value := 7, head := NULL, tail := NULL })]
    out := [] }

/-! ## Memory lemmas -/

theorem Heap.get_cons (a : Ptr) (o : Object) (h : Heap) (p : Ptr) :
    Heap.get ((a, o) :: h) p = if a = p then some o else Heap.get h p := rfl

theorem Heap.get_set (h : Heap) (p q : Ptr) (v : Object) :
    (h.set p v).get q = if q = p then (h.get q).map (fun _ => v) else h.get q := by
  induction h with
  | nil => simp [Heap.set, Heap.get]
  | cons e h ih =>
    obtain ⟨a, o⟩ := e
    by_cases hap : a = p
    · subst hap
      by_cases hq : q = a
      · subst hq; simp [Heap.set, Heap.get]
      · have hq' : a ≠ q := fun h => hq h.symm
        simp [Heap.set, Heap.get, hq, hq']
    · by_cases haq : a = q
      · subst haq
        simp [Heap.set, Heap.get, hap]
      · simp [Heap.set, Heap.get, hap, haq, ih]

theorem Heap.get_set_self {h : Heap} {p : Ptr} {o : Object} (v : Object)
    (hp : h.get p = some o) : (h.set p v).get p = some v := by
  simp [Heap.get_set, hp]

theorem Heap.get_set_ne (h : Heap) {p q : Ptr} (v : Object) (hq : q ≠ p) :
    (h.set p v).get q = h.get q := by
  simp [Heap.get_set, hq]

theorem Heap.length_set (h : Heap) (p : Ptr) (v : Object) :
    (h.set p v).length = h.length := by
  induction h with
  | nil => rfl
  | cons e h ih =>
    obtain ⟨a, o⟩ := e
    by_cases hap : a = p <;> simp [Heap.set, hap, ih]

theorem Heap.get_free (h : Heap) (p q : Ptr) :
    (h.free p).get q = if q = p then none else h.get q := by
  induction h with
  | nil => simp [Heap.free, Heap.get]
  | cons e h ih =>
    obtain ⟨a, o⟩ := e
    by_cases hap : a = p
    · subst hap
      by_cases hq : q = a
      · subst hq; simp [Heap.free, Heap.get, ih]
      · have hq' : a ≠ q := fun h => hq h.symm
        simp [Heap.free, Heap.get, ih, hq, hq']
    · by_cases haq : a = q
      · subst haq
        simp [Heap.free, Heap.get, hap]
      · simp [Heap.free, Heap.get, hap, haq, ih]

theorem Heap.length_free_le (h : Heap) (p : Ptr) : (h.free p).length ≤ h.length := by
  induction h with
  | nil => simp [Heap.free]
  | cons e h ih =>
    obtain ⟨a, o⟩ := e
    by_cases hap : a = p <;> simp [Heap.free, hap] <;> omega

theorem Heap.lt_fresh {h : Heap} {p : Ptr} {o : Object} (hp : h.get p = some o) :
    p < h.fresh := by
  induction h with
  | nil => simp [Heap.get] at hp
  | cons e h ih =>
    obtain ⟨a, o'⟩ := e
    by_cases hap : a = p
    · subst hap; simp [Heap.fresh]
    · simp [Heap.get, hap] at hp
      have := ih hp
      simp only [Heap.fresh]
      exact lt_of_lt_of_le this (le_max_right _ _)

theorem Heap.fresh_pos (h : Heap) : 0 < h.fresh := by
  cases h with
  | nil => simp [Heap.fresh]
  | cons e h => obtain ⟨a, o⟩ := e; simp [Heap.fresh]

theorem Heap.fresh_ne_null (h : Heap) : h.fresh ≠ NULL := by
  exact Nat.pos_iff_ne_zero.mp (Heap.fresh_pos h)

theorem Heap.get_fresh (h : Heap) : h.get h.fresh = none := by
  cases hg : h.get h.fresh with
  | none => rfl
  | some o => exact absurd (Heap.lt_fresh hg) (lt_irrefl _)

theorem Heap.get_mem {h : Heap} {p : Ptr} {o : Object} (hp : h.get p = some o) :
    p ∈ h.map Prod.fst := by
  induction h with
  | nil => simp [Heap.get] at hp
  | cons e h ih =>
    obtain ⟨a, o'⟩ := e
    by_cases hap : a = p
    · simp [hap]
    · simp [Heap.get, hap] at hp
      simp [ih hp]

/-! ## Marking only sets mark bits -/

theorem MarkRel.markRefl (h : Heap) : MarkRel h h := by
  induction h with
  | nil => trivial
  | cons e h ih => obtain ⟨a, o⟩ := e; exact ⟨rfl, Or.inl rfl, ih⟩

theorem MarkRel.markTrans {h1 h2 h3 : Heap} (h12 : MarkRel h1 h2) (h23 : MarkRel h2 h3) :
    MarkRel h1 h3 := by
  induction h1 generalizing h2 h3 with
  | nil =>
    cases h2 with
    | nil => exact h23
    | cons e2 h2 => exact absurd h12 (by simp [MarkRel])
  | cons e1 h1 ih =>
    obtain ⟨a1, o1⟩ := e1
    cases h2 with
    | nil => exact absurd h12 (by simp [MarkRel])
    | cons e2 h2 =>
      obtain ⟨a2, o2⟩ := e2
      cases h3 with
      | nil => exact absurd h23 (by simp [MarkRel])
      | cons e3 h3 =>
        obtain ⟨a3, o3⟩ := e3
        obtain ⟨ha, ho, hr⟩ := h12
        obtain ⟨ha', ho', hr'⟩ := h23
        refine ⟨by rw [ha', ha], ?_, ih hr hr'⟩
        rcases ho with rfl | ⟨hm, rfl⟩
        · exact ho'
        · rcases ho' with rfl | ⟨hm', _⟩
          · exact Or.inr ⟨hm, rfl⟩
          · simp at hm'

theorem MarkRel.length_eq {h h' : Heap} (hr : MarkRel h h') : h'.length = h.length := by
  induction h generalizing h' with
  | nil =>
    cases h' with
    | nil => rfl
    | cons e h' => exact absurd hr (by simp [MarkRel])
  | cons e h ih =>
    obtain ⟨a, o⟩ := e
    cases h' with
    | nil => exact absurd hr (by simp [MarkRel])
    | cons e' h' =>
      obtain ⟨a', o'⟩ := e'
      simp [ih hr.2.2]

theorem MarkRel.get {h h' : Heap} (hr : MarkRel h h') (p : Ptr) :
    h'.get p = h.get p ∨
      ∃ o, h.get p = some o ∧ o.marked = 0 ∧ h'.get p = some { o with marked := 1 } := by
  induction h generalizing h' with
  | nil =>
    cases h' with
    | nil => exact Or.inl rfl
    | cons e h' => exact absurd hr (by simp [MarkRel])
  | cons e h ih =>
    obtain ⟨a, o⟩ := e
    cases h' with
    | nil => exact absurd hr (by simp [MarkRel])
    | cons e' h' =>
      obtain ⟨a', o'⟩ := e'
      obtain ⟨ha, ho, hr'⟩ := hr
      subst ha
      by_cases hap : a' = p
      · subst hap
        rcases ho with rfl | ⟨hm, rfl⟩
        · left; simp [Heap.get]
        · right; exact ⟨o, by simp [Heap.get], hm, by simp [Heap.get]⟩
      · simpa [Heap.get, hap] using ih hr'

theorem MarkRel.unmarkedCount_le {h h' : Heap} (hr : MarkRel h h') :
    unmarkedCount h' ≤ unmarkedCount h := by
  induction h generalizing h' with
  | nil =>
    cases h' with
    | nil => exact le_refl _
    | cons e h' => exact absurd hr (by simp [MarkRel])
  | cons e h ih =>
    obtain ⟨a, o⟩ := e
    cases h' with
    | nil => exact absurd hr (by simp [MarkRel])
    | cons e' h' =>
      obtain ⟨a', o'⟩ := e'
      obtain ⟨_, ho, hr'⟩ := hr
      have := ih hr'
      rcases ho with rfl | ⟨hm, rfl⟩
      · simp only [unmarkedCount]; omega
      · simp only [unmarkedCount, hm]; simp; omega

theorem MarkRel.set_marked {h : Heap} {p : Ptr} {o : Object} (hp : h.get p = some o)
    (hm : o.marked = 0) :
    MarkRel h (h.set p { o with marked := 1 }) ∧
      unmarkedCount (h.set p { o with marked := 1 }) < unmarkedCount h := by
  induction h with
  | nil => simp [Heap.get] at hp
  | cons e h ih =>
    obtain ⟨a, o'⟩ := e
    by_cases hap : a = p
    · subst hap
      simp [Heap.get] at hp
      subst hp
      refine ⟨?_, ?_⟩
      · simp only [Heap.set, if_true]
        exact ⟨rfl, Or.inr ⟨hm, rfl⟩, MarkRel.markRefl h⟩
      · simp [Heap.set, unmarkedCount, hm]
    · simp [Heap.get, hap] at hp
      obtain ⟨h1, h2⟩ := ih hp
      refine ⟨?_, ?_⟩
      · simp only [Heap.set, hap, if_false]
        exact ⟨rfl, Or.inl rfl, h1⟩
      · simp only [Heap.set, hap, if_false, unmarkedCount]; omega

theorem unmarkedCount_le_length (h : Heap) : unmarkedCount h ≤ h.length := by
  induction h with
  | nil => simp [unmarkedCount]
  | cons e h ih =>
    obtain ⟨a, o⟩ := e
    simp only [unmarkedCount, List.length_cons]
    split <;> omega

/-- Consequences of `MarkRel` for a single address. -/
theorem MarkRel.get_some {h h' : Heap} (hr : MarkRel h h') {p : Ptr} {o : Object}
    (hp : h.get p = some o) :
    ∃ o', h'.get p = some o' ∧ o'.type = o.type ∧ o'.next = o.next ∧ o'.value = o.value ∧
      o'.head = o.head ∧ o'.tail = o.tail ∧ (o.marked ≠ 0 → o' = o) ∧
      (o'.marked = 0 → o' = o) := by
  rcases hr.get p with h1 | ⟨o1, h1, hm, h2⟩
  · exact ⟨o, by rw [h1, hp], rfl, rfl, rfl, rfl, rfl, fun _ => rfl, fun _ => rfl⟩
  · rw [hp] at h1; cases h1
    exact ⟨_, h2, rfl, rfl, rfl, rfl, rfl, fun h => absurd hm h, fun h => by simp at h⟩

theorem MarkRel.get_some_inv {h h' : Heap} (hr : MarkRel h h') {p : Ptr} {o' : Object}
    (hp : h'.get p = some o') :
    ∃ o, h.get p = some o ∧ o'.type = o.type ∧ o'.next = o.next ∧ o'.value = o.value ∧
      o'.head = o.head ∧ o'.tail = o.tail ∧ (o' = o ∨ (o.marked = 0 ∧ o'.marked = 1)) := by
  rcases hr.get p with h1 | ⟨o1, h1, hm, h2⟩
  · exact ⟨o', by rw [← h1, hp], rfl, rfl, rfl, rfl, rfl, Or.inl rfl⟩
  · rw [hp] at h2; cases h2
    exact ⟨o1, h1, rfl, rfl, rfl, rfl, rfl, Or.inr ⟨hm, rfl⟩⟩

theorem MarkRel.get_none {h h' : Heap} (hr : MarkRel h h') {p : Ptr}
    (hp : h.get p = none) : h'.get p = none := by
  rcases hr.get p with h1 | ⟨o1, h1, _, _⟩
  · rw [h1, hp]
  · rw [hp] at h1; cases h1

theorem MarkRel.marked_mono {h h' : Heap} (hr : MarkRel h h') {p : Ptr}
    (hp : Marked h p) : Marked h' p := by
  obtain ⟨o, ho, hm⟩ := hp
  obtain ⟨o', ho', _, _, _, _, _, he, _⟩ := hr.get_some ho
  exact ⟨o', ho', by rw [he hm]; exact hm⟩

theorem MarkRel.reachBefore {h h' : Heap} (hr : MarkRel h h') {p q : Ptr} (hpq : Reach h' p q) :
    Reach h p q := by
  induction hpq with
  | refl => exact Reach.refl _
  | head _ hg ht ih =>
    obtain ⟨o, ho, h1, _, _, h4, _, _⟩ := hr.get_some_inv hg
    rw [h4]; exact Reach.head ih ho (by rw [← h1]; exact ht)
  | tail _ hg ht ih =>
    obtain ⟨o, ho, h1, _, _, _, h5, _⟩ := hr.get_some_inv hg
    rw [h5]; exact Reach.tail ih ho (by rw [← h1]; exact ht)

theorem MarkRel.reachAfter {h h' : Heap} (hr : MarkRel h h') {p q : Ptr} (hpq : Reach h p q) :
    Reach h' p q := by
  induction hpq with
  | refl => exact Reach.refl _
  | head _ hg ht ih =>
    obtain ⟨o', ho, h1, _, _, h4, _, _⟩ := hr.get_some hg
    rw [← h4]; exact Reach.head ih ho (by rw [h1]; exact ht)
  | tail _ hg ht ih =>
    obtain ⟨o', ho, h1, _, _, _, h5, _⟩ := hr.get_some hg
    rw [← h5]; exact Reach.tail ih ho (by rw [h1]; exact ht)

theorem Reach.append {h : Heap} {p q r : Ptr} (hpq : Reach h p q) (hqr : Reach h q r) :
    Reach h p r := by
  induction hqr with
  | refl => exact hpq
  | head _ hg ht ih => exact Reach.head ih hg ht
  | tail _ hg ht ih => exact Reach.tail ih hg ht

/-! ## The mark phase -/

/-- Unfolding of one call of `mark` on an unmarked object. -/
theorem markAux_succ_unmarked {fuel : Nat} {h : Heap} {p : Ptr} {o : Object}
    (hg : h.get p = some o) (hm : o.marked = 0) :
    markAux (fuel + 1) h p =
      if o.type = .OBJ_PAIR then
        match markAux fuel (h.set p { o with marked := 1 }) o.head with
        | .error e => .error e
        | .ok h2 =>
          match h2.get p with
          | none => .error .segfault
          | some o2 => markAux fuel h2 o2.tail
      else .ok (h.set p { o with marked := 1 }) := by
  rw [markAux]
  simp only [hg, hm, ne_eq, not_true_eq_false, if_false]
  rw [Heap.get_set_self _ hg]
  try rfl

theorem markAux_succ_marked {fuel : Nat} {h : Heap} {p : Ptr} {o : Object}
    (hg : h.get p = some o) (hm : o.marked ≠ 0) :
    markAux (fuel + 1) h p = .ok h := by
  rw [markAux]
  simp only [hg, hm, ne_eq, not_false_eq_true, if_true]

theorem markAux_succ_none {fuel : Nat} {h : Heap} {p : Ptr}
    (hg : h.get p = none) :
    markAux (fuel + 1) h p = .error .segfault := by
  rw [markAux]
  simp only [hg]

/-- Children of a marked pair stay marked when more objects are marked. -/
theorem childrenMarked_mono {h h' : Heap} (hr : MarkRel h h') {a : Ptr}
    (hc : ∀ o, h.get a = some o → o.type = .OBJ_PAIR → Marked h o.head ∧ Marked h o.tail) :
    ∀ o, h'.get a = some o → o.type = .OBJ_PAIR → Marked h' o.head ∧ Marked h' o.tail := by
  intro o' ho' ht
  obtain ⟨o, ho, h1, _, _, h4, h5, _⟩ := hr.get_some_inv ho'
  obtain ⟨c1, c2⟩ := hc o ho (by rw [← h1]; exact ht)
  rw [h4, h5]
  exact ⟨hr.marked_mono c1, hr.marked_mono c2⟩

theorem markAux_spec (fuel : Nat) : ∀ (h : Heap) (p : Ptr) (h' : Heap),
    markAux fuel h p = .ok h' →
    MarkRel h h' ∧ Marked h' p ∧
      ∀ a, Marked h' a → ¬ Marked h a →
        Reach h p a ∧
          ∀ o, h'.get a = some o → o.type = .OBJ_PAIR → Marked h' o.head ∧ Marked h' o.tail := by
  induction fuel with
  | zero => intro h p h' hm; simp [markAux] at hm
  | succ fuel ih =>
    intro h p h' hmk
    cases hg : h.get p with
    | none => rw [markAux_succ_none hg] at hmk; cases hmk
    | some o =>
      by_cases hm : o.marked = 0
      · rw [markAux_succ_unmarked hg hm] at hmk
        obtain ⟨hr1, hlt⟩ := MarkRel.set_marked hg hm
        have hg1 : (h.set p { o with marked := 1 }).get p = some { o with marked := 1 } :=
          Heap.get_set_self _ hg
        have hM1 : Marked (h.set p { o with marked := 1 }) p := ⟨_, hg1, by simp⟩
        have hother : ∀ a, a ≠ p → Marked (h.set p { o with marked := 1 }) a → Marked h a := by
          intro a ha ⟨oa, hoa, hma⟩
          rw [Heap.get_set_ne _ _ ha] at hoa
          exact ⟨oa, hoa, hma⟩
        by_cases ht : o.type = .OBJ_PAIR
        · rw [if_pos ht] at hmk
          cases hk1 : markAux fuel (h.set p { o with marked := 1 }) o.head with
          | error e => rw [hk1] at hmk; cases hmk
          | ok h2 =>
            rw [hk1] at hmk
            simp only at hmk
            obtain ⟨hr2, hMh, hnew2⟩ := ih _ _ _ hk1
            obtain ⟨o2, hg2, t2, _, _, hd2, tl2, _, _⟩ := hr2.get_some hg1
            rw [hg2] at hmk
            simp only at hmk
            rw [tl2] at hmk
            obtain ⟨hr3, hMt, hnew3⟩ := ih _ _ _ hmk
            have hr : MarkRel h h' := (hr1.markTrans hr2).markTrans hr3
            refine ⟨hr, hr3.marked_mono (hr2.marked_mono hM1), ?_⟩
            intro a hMa hnMa
            by_cases hap : a = p
            · subst hap
              refine ⟨Reach.refl _, ?_⟩
              intro o' ho' _
              obtain ⟨o0, ho0, _, _, _, h4, h5, _⟩ := hr.get_some_inv ho'
              rw [hg] at ho0; cases ho0
              rw [h4, h5]
              exact ⟨hr3.marked_mono hMh, hMt⟩
            · have hn1 : ¬ Marked (h.set p { o with marked := 1 }) a :=
                fun hx => hnMa (hother a hap hx)
              by_cases hM2 : Marked h2 a
              · obtain ⟨hre, hc⟩ := hnew2 a hM2 hn1
                refine ⟨?_, childrenMarked_mono hr3 hc⟩
                exact (Reach.head (Reach.refl p) hg ht).append (hr1.reachBefore hre)
              · obtain ⟨hre, hc⟩ := hnew3 a hMa hM2
                refine ⟨?_, hc⟩
                exact (Reach.tail (Reach.refl p) hg ht).append ((hr1.markTrans hr2).reachBefore hre)
        · rw [if_neg ht] at hmk
          cases hmk
          refine ⟨hr1, hM1, ?_⟩
          intro a hMa hnMa
          by_cases hap : a = p
          · subst hap
            refine ⟨Reach.refl _, ?_⟩
            intro o' ho' ht'
            rw [hg1] at ho'; cases ho'
            exact absurd ht' ht
          · exact absurd (hother a hap hMa) hnMa
      · rw [markAux_succ_marked hg hm] at hmk
        cases hmk
        exact ⟨MarkRel.markRefl h, ⟨o, hg, hm⟩, fun a hMa hnMa => absurd hMa hnMa⟩

/-- With a budget above the number of unmarked cells, and every object
reachable from `p` allocated, `mark` returns. -/
theorem markAux_ok (fuel : Nat) : ∀ (h : Heap) (p : Ptr),
    unmarkedCount h < fuel → (∀ a, Reach h p a → h.get a ≠ none) →
    ∃ h', markAux fuel h p = .ok h' := by
  induction fuel with
  | zero => intro h p hlt; omega
  | succ fuel ih =>
    intro h p hlt hall
    cases hg : h.get p with
    | none => exact absurd hg (hall p (Reach.refl p))
    | some o =>
      by_cases hm : o.marked = 0
      · rw [markAux_succ_unmarked hg hm]
        obtain ⟨hr1, hlt1⟩ := MarkRel.set_marked hg hm
        have hg1 : (h.set p { o with marked := 1 }).get p = some { o with marked := 1 } :=
          Heap.get_set_self _ hg
        by_cases ht : o.type = .OBJ_PAIR
        · rw [if_pos ht]
          have hne : ∀ {h2 : Heap}, MarkRel h h2 → ∀ a, Reach h p a → h2.get a ≠ none := by
            intro h2 hr a hre hn
            cases hga : h.get a with
            | none => exact hall a hre hga
            | some oa =>
              obtain ⟨o', ho', _⟩ := hr.get_some hga
              rw [hn] at ho'; cases ho'
          obtain ⟨h2, hk1⟩ := ih (h.set p { o with marked := 1 }) o.head (by omega)
            (fun a hre => hne hr1 a ((Reach.head (Reach.refl p) hg ht).append (hr1.reachBefore hre)))
          rw [hk1]
          simp only
          obtain ⟨hr2, _, _⟩ := markAux_spec fuel _ _ _ hk1
          obtain ⟨o2, hg2, t2, _, _, hd2, tl2, _, _⟩ := hr2.get_some hg1
          rw [hg2]
          simp only
          rw [tl2]
          have hle := hr2.unmarkedCount_le
          exact ih h2 o.tail (by omega)
            (fun a hre => hne (hr1.markTrans hr2) a
              ((Reach.tail (Reach.refl p) hg ht).append ((hr1.markTrans hr2).reachBefore hre)))
        · rw [if_neg ht]
          exact ⟨_, rfl⟩
      · rw [markAux_succ_marked hg hm]
        exact ⟨_, rfl⟩

/-- The recursion budget never runs out, on any heap. -/
theorem markAux_no_fuel (fuel : Nat) : ∀ (h : Heap) (p : Ptr),
    unmarkedCount h < fuel → markAux fuel h p ≠ .error .fuel := by
  induction fuel with
  | zero => intro h p hlt; omega
  | succ fuel ih =>
    intro h p hlt
    cases hg : h.get p with
    | none => rw [markAux_succ_none hg]; simp
    | some o =>
      by_cases hm : o.marked = 0
      · rw [markAux_succ_unmarked hg hm]
        obtain ⟨hr1, hlt1⟩ := MarkRel.set_marked hg hm
        have hg1 : (h.set p { o with marked := 1 }).get p = some { o with marked := 1 } :=
          Heap.get_set_self _ hg
        by_cases ht : o.type = .OBJ_PAIR
        · rw [if_pos ht]
          cases hk1 : markAux fuel (h.set p { o with marked := 1 }) o.head with
          | error e =>
            simp only
            intro he
            cases he
            exact ih _ _ (by omega) hk1
          | ok h2 =>
            simp only
            obtain ⟨hr2, _, _⟩ := markAux_spec fuel _ _ _ hk1
            obtain ⟨o2, hg2, _⟩ := hr2.get_some hg1
            rw [hg2]
            simp only
            have hle := hr2.unmarkedCount_le
            exact ih h2 _ (by omega)
        · rw [if_neg ht]
          simp
      · rw [markAux_succ_marked hg hm]
        simp

theorem mark_spec {h : Heap} {p : Ptr} {h' : Heap} (hk : mark h p = .ok h') :
    MarkRel h h' ∧ Marked h' p ∧
      ∀ a, Marked h' a → ¬ Marked h a →
        Reach h p a ∧
          ∀ o, h'.get a = some o → o.type = .OBJ_PAIR → Marked h' o.head ∧ Marked h' o.tail :=
  markAux_spec _ h p h' hk

theorem mark_ok {h : Heap} {p : Ptr} (hall : ∀ a, Reach h p a → h.get a ≠ none) :
    ∃ h', mark h p = .ok h' :=
  markAux_ok _ h p (Nat.lt_succ_of_le (unmarkedCount_le_length h)) hall

theorem mark_no_fuel (h : Heap) (p : Ptr) : mark h p ≠ .error .fuel :=
  markAux_no_fuel _ h p (Nat.lt_succ_of_le (unmarkedCount_le_length h))

theorem markList_spec : ∀ (ps : List Ptr) (h h' : Heap), markList ps h = .ok h' →
    MarkRel h h' ∧ (∀ r ∈ ps, Marked h' r) ∧
      ∀ a, Marked h' a → ¬ Marked h a →
        (∃ r ∈ ps, Reach h r a) ∧
          ∀ o, h'.get a = some o → o.type = .OBJ_PAIR → Marked h' o.head ∧ Marked h' o.tail := by
  intro ps
  induction ps with
  | nil =>
    intro h h' hk
    simp only [markList] at hk
    cases hk
    exact ⟨MarkRel.markRefl h, by simp, fun a hMa hn => absurd hMa hn⟩
  | cons p ps ih =>
    intro h h' hk
    simp only [markList] at hk
    cases hk1 : mark h p with
    | error e => rw [hk1] at hk; cases hk
    | ok h1 =>
      rw [hk1] at hk
      simp only at hk
      obtain ⟨hr1, hM1, hnew1⟩ := mark_spec hk1
      obtain ⟨hr2, hM2, hnew2⟩ := ih h1 h' hk
      refine ⟨hr1.markTrans hr2, ?_, ?_⟩
      · intro r hr
        rcases List.mem_cons.mp hr with rfl | hr
        · exact hr2.marked_mono hM1
        · exact hM2 r hr
      · intro a hMa hnMa
        by_cases hM : Marked h1 a
        · obtain ⟨hre, hc⟩ := hnew1 a hM hnMa
          exact ⟨⟨p, List.mem_cons_self _ _, hre⟩, childrenMarked_mono hr2 hc⟩
        · obtain ⟨⟨r, hr, hre⟩, hc⟩ := hnew2 a hMa hM
          exact ⟨⟨r, List.mem_cons_of_mem _ hr, hr1.reachBefore hre⟩, hc⟩

theorem markList_ok : ∀ (ps : List Ptr) (h : Heap),
    (∀ r ∈ ps, ∀ a, Reach h r a → h.get a ≠ none) → ∃ h', markList ps h = .ok h' := by
  intro ps
  induction ps with
  | nil => intro h _; exact ⟨h, rfl⟩
  | cons p ps ih =>
    intro h hall
    obtain ⟨h1, hk1⟩ := mark_ok (hall p (List.mem_cons_self _ _))
    obtain ⟨hr1, _, _⟩ := mark_spec hk1
    have hall1 : ∀ r ∈ ps, ∀ a, Reach h1 r a → h1.get a ≠ none := by
      intro r hr a hre hn
      have hre' := hr1.reachBefore hre
      cases hga : h.get a with
      | none => exact hall r (List.mem_cons_of_mem _ hr) a hre' hga
      | some oa =>
        obtain ⟨o', ho', _⟩ := hr1.get_some hga
        rw [hn] at ho'; cases ho'
    obtain ⟨h', hk⟩ := ih h1 hall1
    exact ⟨h', by simp only [markList, hk1, hk]⟩

theorem markList_no_fuel : ∀ (ps : List Ptr) (h : Heap), markList ps h ≠ .error .fuel := by
  intro ps
  induction ps with
  | nil => intro h; simp [markList]
  | cons p ps ih =>
    intro h
    simp only [markList]
    cases hk1 : mark h p with
    | error e =>
      simp only
      intro he
      cases he
      exact mark_no_fuel h p hk1
    | ok h1 => exact ih h1

/-- When nothing reachable from the roots is marked beforehand, marking
marks every object reachable from the roots. -/
theorem markList_complete {ps : List Ptr} {h h' : Heap} (hk : markList ps h = .ok h')
    (hun : ∀ r ∈ ps, ∀ a, Reach h r a → ¬ Marked h a) :
    ∀ r ∈ ps, ∀ a, Reach h r a → Marked h' a := by
  obtain ⟨hr, hroots, hnew⟩ := markList_spec ps h h' hk
  intro r hrm a hre
  induction hre with
  | refl => exact hroots r hrm
  | @head q o hq hg ht ih =>
    obtain ⟨o', ho', _, _, _, h4, _, _⟩ := hr.get_some hg
    obtain ⟨_, hc⟩ := hnew q ih (hun r hrm q hq)
    have := (hc o' ho' (by
      obtain ⟨_, ho'', t, _⟩ := hr.get_some hg
      rw [ho'] at ho''; cases ho''; rw [t]; exact ht)).1
    rw [h4] at this; exact this
  | @tail q o hq hg ht ih =>
    obtain ⟨o', ho', _, _, _, _, h5, _⟩ := hr.get_some hg
    obtain ⟨_, hc⟩ := hnew q ih (hun r hrm q hq)
    have := (hc o' ho' (by
      obtain ⟨_, ho'', t, _⟩ := hr.get_some hg
      rw [ho'] at ho''; cases ho''; rw [t]; exact ht)).2
    rw [h5] at this; exact this

theorem mem_roots {vm : VM} {r : Ptr} :
    r ∈ roots vm ↔ ∃ i, i < vm.stackSize ∧ vm.stack i = r := by
  simp [roots]

theorem stackReach_iff {vm : VM} {a : Ptr} :
    StackReach vm a ↔ ∃ r ∈ roots vm, Reach vm.heap r a := by
  constructor
  · rintro ⟨i, hi, hre⟩
    exact ⟨vm.stack i, mem_roots.mpr ⟨i, hi, rfl⟩, hre⟩
  · rintro ⟨r, hr, hre⟩
    obtain ⟨i, hi, rfl⟩ := mem_roots.mp hr
    exact ⟨i, hi, hre⟩

/-- What `markAll` does to a state in which nothing reachable from the stack
is marked and everything reachable from the stack is allocated. -/
theorem markAll_spec {vm : VM}
    (halloc : ∀ a, StackReach vm a → vm.heap.get a ≠ none)
    (hun : ∀ a, StackReach vm a → ¬ Marked vm.heap a) :
    ∃ h', markAll vm = .ok { vm with heap := h' } ∧ MarkRel vm.heap h' ∧
      (∀ a, StackReach vm a → Marked h' a) ∧
      (∀ a, Marked h' a → Marked vm.heap a ∨ StackReach vm a) := by
  obtain ⟨h', hk⟩ := markList_ok (roots vm) vm.heap
    (fun r hr a hre => halloc a (stackReach_iff.mpr ⟨r, hr, hre⟩))
  obtain ⟨hr, _, hnew⟩ := markList_spec _ _ _ hk
  refine ⟨h', by simp only [markAll, hk], hr, ?_, ?_⟩
  · intro a ha
    obtain ⟨r, hrm, hre⟩ := stackReach_iff.mp ha
    exact markList_complete hk
      (fun r hr a hre => hun a (stackReach_iff.mpr ⟨r, hr, hre⟩)) r hrm a hre
  · intro a hMa
    by_cases hM : Marked vm.heap a
    · exact Or.inl hM
    · exact Or.inr (stackReach_iff.mpr (hnew a hMa hM).1)

/-! ## The registry list -/

theorem Chain.functional {h : Heap} : ∀ {L L' : List Ptr} {p : Ptr},
    Chain h p L → Chain h p L' → L = L' := by
  intro L
  induction L with
  | nil =>
    intro L' p h1 h2
    cases L' with
    | nil => rfl
    | cons a L' =>
      simp only [Chain] at h1 h2
      exact absurd (h2.1 ▸ h1) h2.2.1
  | cons a L ih =>
    intro L' p h1 h2
    cases L' with
    | nil =>
      simp only [Chain] at h1 h2
      exact absurd (h1.1 ▸ h2) h1.2.1
    | cons a' L' =>
      simp only [Chain] at h1 h2
      obtain ⟨e1, _, o1, g1, c1⟩ := h1
      obtain ⟨e2, _, o2, g2, c2⟩ := h2
      have : a = a' := by rw [← e1, ← e2]
      subst this
      rw [g1] at g2; cases g2
      rw [ih c1 c2]

theorem Chain.alloc {h : Heap} : ∀ {L : List Ptr} {p : Ptr}, Chain h p L →
    ∀ a ∈ L, a ≠ NULL ∧ ∃ o, h.get a = some o := by
  intro L
  induction L with
  | nil => intro p _ a ha; simp at ha
  | cons b L ih =>
    intro p hc a ha
    simp only [Chain] at hc
    obtain ⟨_, hb, o, hg, hc'⟩ := hc
    rcases List.mem_cons.mp ha with rfl | ha
    · exact ⟨hb, o, hg⟩
    · exact ih hc' a ha

/-- The rest of a chain, starting from one of its members. -/
theorem Chain.suffix {h : Heap} : ∀ {L : List Ptr} {p : Ptr}, Chain h p L →
    ∀ a ∈ L, ∃ L1 L2, L = L1 ++ a :: L2 ∧ Chain h a (a :: L2) ∧ a ∉ L1 := by
  intro L
  induction L with
  | nil => intro p _ a ha; simp at ha
  | cons b L ih =>
    intro p hc a ha
    by_cases hab : a = b
    · subst hab
      refine ⟨[], L, rfl, ?_, by simp⟩
      simp only [Chain] at hc ⊢
      exact ⟨trivial, hc.2⟩
    · have ha' : a ∈ L := by
        rcases List.mem_cons.mp ha with h1 | h1
        · exact absurd h1 hab
        · exact h1
      have hc0 := hc
      simp only [Chain] at hc
      obtain ⟨_, _, o, _, hc'⟩ := hc
      obtain ⟨L1, L2, e, hca, hn⟩ := ih hc' a ha'
      refine ⟨b :: L1, L2, by rw [e]; rfl, hca, ?_⟩
      intro hm
      rcases List.mem_cons.mp hm with h1 | h1
      · exact hab h1
      · exact hn h1

theorem Chain.nodup {h : Heap} : ∀ {L : List Ptr} {p : Ptr}, Chain h p L → L.Nodup := by
  intro L
  induction L with
  | nil => intro p _; exact List.nodup_nil
  | cons b L ih =>
    intro p hc
    have hc0 := hc
    simp only [Chain] at hc
    obtain ⟨_, hb, o, hg, hc'⟩ := hc
    refine List.nodup_cons.mpr ⟨?_, ih hc'⟩
    intro hmem
    obtain ⟨L1, L2, e, hcb, _⟩ := Chain.suffix hc' b hmem
    have hcb' : Chain h b (b :: L) := by
      simp only [Chain]; exact ⟨trivial, hb, o, hg, hc'⟩
    have := Chain.functional hcb hcb'
    have hlen : (b :: L2).length = (b :: L).length := by rw [this]
    rw [e] at hlen
    simp at hlen
    omega

theorem Chain.congr {h h' : Heap} : ∀ {L : List Ptr} {p : Ptr}, Chain h p L →
    (∀ a ∈ L, ∀ o, h.get a = some o → ∃ o', h'.get a = some o' ∧ o'.next = o.next) →
    Chain h' p L := by
  intro L
  induction L with
  | nil => intro p hc _; exact hc
  | cons b L ih =>
    intro p hc hsame
    simp only [Chain] at hc ⊢
    obtain ⟨e, hb, o, hg, hc'⟩ := hc
    obtain ⟨o', hg', hn⟩ := hsame b (List.mem_cons_self _ _) o hg
    refine ⟨e, hb, o', hg', ?_⟩
    rw [hn]
    exact ih hc' (fun a ha => hsame a (List.mem_cons_of_mem _ ha))

theorem Chain.length_le {h : Heap} {L : List Ptr} {p : Ptr} (hc : Chain h p L) :
    L.length ≤ h.length := by
  have hsub : L ⊆ h.map Prod.fst := by
    intro a ha
    obtain ⟨_, o, ho⟩ := hc.alloc a ha
    exact Heap.get_mem ho
  have := (List.Nodup.subperm hc.nodup hsub).length_le
  simpa using this

/-! ## The sweep phase -/

theorem isMarked_eq_true {h : Heap} {a : Ptr} :
    isMarked h a = true ↔ ∃ o, h.get a = some o ∧ o.marked ≠ 0 := by
  unfold isMarked
  cases hg : h.get a with
  | none => simp
  | some o => simp

theorem isMarked_congr {h h' : Heap} {a : Ptr} (e : h'.get a = h.get a) :
    isMarked h' a = isMarked h a := by
  unfold isMarked; rw [e]

theorem filter_isMarked_congr {h h' : Heap} {L : List Ptr}
    (e : ∀ a ∈ L, h'.get a = h.get a) :
    L.filter (isMarked h') = L.filter (isMarked h) :=
  List.filter_congr (fun a ha => isMarked_congr (e a ha))

/-- Effect of `*object = q` when `*object` can be read. -/
theorem writeLoc_spec {vm : VM} {loc : Loc} {p : Ptr} (q : Ptr)
    (hread : readLoc vm loc = some p) :
    ∃ vm1, writeLoc vm loc q = .ok vm1 ∧ readLoc vm1 loc = some q ∧
      (∀ a, loc ≠ .next a → vm1.heap.get a = vm.heap.get a) ∧
      (∀ b, loc = .next b → ∀ o, vm.heap.get b = some o →
        vm1.heap.get b = some { o with next := q }) ∧
      vm1.heap.length = vm.heap.length ∧
      vm1.numObjects = vm.numObjects ∧ vm1.stack = vm.stack ∧
      vm1.stackSize = vm.stackSize ∧ vm1.maxObjects = vm.maxObjects ∧ vm1.out = vm.out ∧
      (loc ≠ .first → vm1.firstObject = vm.firstObject) := by
  cases loc with
  | first =>
    refine ⟨{ vm with firstObject := q }, rfl, rfl, fun _ _ => rfl, ?_, rfl, rfl, rfl, rfl,
      rfl, rfl, fun hne => absurd rfl hne⟩
    intro b hb; cases hb
  | next b =>
    simp only [readLoc] at hread
    cases hg : vm.heap.get b with
    | none => rw [hg] at hread; cases hread
    | some ob =>
      refine ⟨{ vm with heap := vm.heap.set b { ob with next := q } }, ?_, ?_, ?_, ?_, ?_,
        rfl, rfl, rfl, rfl, rfl, fun _ => rfl⟩
      · simp only [writeLoc, Heap.modify, hg]
      · simp only [readLoc]
        rw [Heap.get_set_self _ hg]; rfl
      · intro a ha
        have : a ≠ b := fun e => ha (by rw [e])
        exact Heap.get_set_ne _ _ this
      · intro b' hb' o ho
        cases hb'
        rw [hg] at ho; cases ho
        exact Heap.get_set_self _ hg
      · exact Heap.length_set _ _ _

theorem sweepLoop_null {fuel : Nat} {vm : VM} {loc : Loc}
    (hread : readLoc vm loc = some NULL) : sweepLoop (fuel + 1) vm loc = .ok vm := by
  rw [sweepLoop]
  simp only [hread, if_true]

theorem sweepLoop_unmarked {fuel : Nat} {vm vm1 : VM} {loc : Loc} {p : Ptr} {o : Object}
    (hread : readLoc vm loc = some p) (hp : p ≠ NULL) (hg : vm.heap.get p = some o)
    (hm : o.marked = 0) (hw : writeLoc vm loc o.next = .ok vm1) :
    sweepLoop (fuel + 1) vm loc =
      sweepLoop fuel
        { vm1 with heap := vm1.heap.free p, numObjects := vm1.numObjects - 1 } loc := by
  rw [sweepLoop]
  simp only [hread, hp, if_false, hg, hm, if_true, hw]

theorem sweepLoop_marked {fuel : Nat} {vm : VM} {loc : Loc} {p : Ptr} {o : Object}
    (hread : readLoc vm loc = some p) (hp : p ≠ NULL) (hg : vm.heap.get p = some o)
    (hm : o.marked ≠ 0) :
    sweepLoop (fuel + 1) vm loc =
      sweepLoop fuel { vm with heap := vm.heap.set p { o with marked := 0 } } (.next p) := by
  rw [sweepLoop]
  simp only [hread, hp, if_false, hg, hm]

theorem sweepLoop_spec : ∀ (L : List Ptr) (fuel : Nat) (vm : VM) (loc : Loc) (p : Ptr),
    readLoc vm loc = some p → Chain vm.heap p L → (∀ a ∈ L, loc ≠ .next a) →
    L.length < fuel →
    ∃ vm', sweepLoop fuel vm loc = .ok vm' ∧ SweepPost vm loc L vm' := by
  intro L
  induction L with
  | nil =>
    intro fuel vm loc p hread hc _ hfuel
    obtain ⟨fuel, rfl⟩ : ∃ f, fuel = f + 1 := ⟨fuel - 1, by simp at hfuel; omega⟩
    simp only [Chain] at hc
    subst hc
    refine ⟨vm, sweepLoop_null hread, ?_⟩
    exact
      { chain := ⟨NULL, hread, by simp [Chain]⟩
        freed := by intro a ha; simp at ha
        kept := by intro a ha; simp at ha
        other := fun _ _ _ => rfl
        owner := fun b _ o ho => ⟨o, ho, rfl, rfl, rfl, rfl, rfl⟩
        count := by simp
        stack := rfl
        stackSize := rfl
        maxObjects := rfl
        out := rfl
        first := fun _ => rfl }
  | cons a L ih =>
    intro fuel vm loc p hread hc hown hfuel
    obtain ⟨fuel, rfl⟩ : ∃ f, fuel = f + 1 := ⟨fuel - 1, by simp at hfuel; omega⟩
    have hfuel' : L.length < fuel := by simp at hfuel; omega
    have hnd := hc.nodup
    have haL : a ∉ L := (List.nodup_cons.mp hnd).1
    simp only [Chain] at hc
    obtain ⟨rfl, hp, o, hg, hc'⟩ := hc
    have hlocp : loc ≠ .next p := hown p (List.mem_cons_self _ _)
    by_cases hm : o.marked = 0
    · -- the object is unreached: unlink and free it
      obtain ⟨vm1, hw, hread1, hoth1, hown1, _, hnum1, hst1, hss1, hmax1, hout1, hfirst1⟩ :=
        writeLoc_spec o.next hread
      have hnm : isMarked vm.heap p = false := by
        simp [isMarked, hg, hm]
      let vm2 : VM := { vm1 with heap := vm1.heap.free p, numObjects := vm1.numObjects - 1 }
      have hget2 : ∀ b, b ≠ p → loc ≠ .next b → vm2.heap.get b = vm.heap.get b := by
        intro b hb hlb
        show (vm1.heap.free p).get b = _
        rw [Heap.get_free, if_neg hb, hoth1 b hlb]
      have hread2 : readLoc vm2 loc = some o.next := by
        cases loc with
        | first => exact hread1
        | next b =>
          have hbp : b ≠ p := fun e => hlocp (by rw [e])
          simp only [readLoc] at hread1 ⊢
          show Option.map Object.next ((vm1.heap.free p).get b) = _
          rw [Heap.get_free, if_neg hbp]; exact hread1
      have hLget : ∀ b ∈ L, vm2.heap.get b = vm.heap.get b := by
        intro b hb
        exact hget2 b (fun e => haL (e ▸ hb)) (hown b (List.mem_cons_of_mem _ hb))
      have hc2 : Chain vm2.heap o.next L :=
        hc'.congr (fun b hb ob hob => ⟨ob, by rw [hLget b hb]; exact hob, rfl⟩)
      obtain ⟨vm', hk, post⟩ := ih fuel vm2 loc o.next hread2 hc2
        (fun b hb => hown b (List.mem_cons_of_mem _ hb)) hfuel'
      have hfilt : (p :: L).filter (isMarked vm.heap) = L.filter (isMarked vm2.heap) := by
        rw [List.filter_cons, hnm]
        simp only [Bool.false_eq_true, if_false]
        exact (filter_isMarked_congr hLget).symm
      refine ⟨vm', by rw [sweepLoop_unmarked hread hp hg hm hw]; exact hk, ?_⟩
      exact
        { chain := by rw [hfilt]; exact post.chain
          freed := by
            intro b hb hbm
            rcases List.mem_cons.mp hb with rfl | hb
            · rw [post.other b haL hlocp]
              show (vm1.heap.free b).get b = none
              rw [Heap.get_free, if_pos rfl]
            · exact post.freed b hb (by rw [isMarked_congr (hLget b hb)]; exact hbm)
          kept := by
            intro b hb ob hob hmb
            rcases List.mem_cons.mp hb with rfl | hb
            · rw [hg] at hob; cases hob; exact absurd hm hmb
            · exact post.kept b hb ob (by rw [hLget b hb]; exact hob) hmb
          other := by
            intro b hb hlb
            have hbp : b ≠ p := fun e => hb (e ▸ List.mem_cons_self _ _)
            have hbL : b ∉ L := fun h => hb (List.mem_cons_of_mem _ h)
            rw [post.other b hbL hlb, hget2 b hbp hlb]
          owner := by
            intro b hb ob hob
            have hbp : b ≠ p := fun e => hlocp (by rw [hb, e])
            have h2 : vm2.heap.get b = some { ob with next := o.next } := by
              show (vm1.heap.free p).get b = _
              rw [Heap.get_free, if_neg hbp]; exact hown1 b hb ob hob
            obtain ⟨o', ho', hm', hd'⟩ := post.owner b hb _ h2
            exact ⟨o', ho', hm', hd'⟩
          count := by
            rw [post.count, hfilt]
            show vm1.numObjects - 1 - _ = _
            rw [hnum1]
            simp only [List.length_cons]
            push_cast
            ring
          stack := by rw [post.stack]; exact hst1
          stackSize := by rw [post.stackSize]; exact hss1
          maxObjects := by rw [post.maxObjects]; exact hmax1
          out := by rw [post.out]; exact hout1
          first := by
            intro hne
            rw [post.first hne]; exact hfirst1 hne }
    · -- the object was reached: clear its mark and move on
      let vm1 : VM := { vm with heap := vm.heap.set p { o with marked := 0 } }
      have hmk : isMarked vm.heap p = true := isMarked_eq_true.mpr ⟨o, hg, hm⟩
      have hgp1 : vm1.heap.get p = some { o with marked := 0 } := Heap.get_set_self _ hg
      have hget1 : ∀ b, b ≠ p → vm1.heap.get b = vm.heap.get b :=
        fun b hb => Heap.get_set_ne _ _ hb
      have hread1 : readLoc vm1 (.next p) = some o.next := by
        simp only [readLoc]; rw [hgp1]; rfl
      have hLget : ∀ b ∈ L, vm1.heap.get b = vm.heap.get b :=
        fun b hb => hget1 b (fun e => haL (e ▸ hb))
      have hc1 : Chain vm1.heap o.next L :=
        hc'.congr (fun b hb ob hob => ⟨ob, by rw [hLget b hb]; exact hob, rfl⟩)
      obtain ⟨vm', hk, post⟩ := ih fuel vm1 (.next p) o.next hread1 hc1
        (fun b hb e => haL (by cases e; exact hb)) hfuel'
      have hfilt : (p :: L).filter (isMarked vm.heap) = p :: L.filter (isMarked vm1.heap) := by
        rw [List.filter_cons, hmk]
        simp only [if_true]
        rw [filter_isMarked_congr hLget]
      obtain ⟨op, hop, hopm, hopd⟩ := post.owner p rfl _ hgp1
      obtain ⟨p', hread', hchain'⟩ := post.chain
      have hop_next : op.next = p' := by
        simp only [readLoc] at hread'
        rw [hop] at hread'
        simpa using hread'
      have hreadloc : readLoc vm' loc = some p := by
        cases loc with
        | first =>
          simp only [readLoc]
          rw [post.first (by simp)]
          exact hread
        | next b =>
          have hbp : b ≠ p := fun e => hlocp (by rw [e])
          have hbL : b ∉ L := fun h =>
            hown b (List.mem_cons_of_mem _ h) rfl
          simp only [readLoc] at hread ⊢
          rw [post.other b hbL (fun e => hbp (by cases e; rfl)), hget1 b hbp]
          exact hread
      refine ⟨vm', by rw [sweepLoop_marked hread hp hg hm]; exact hk, ?_⟩
      exact
        { chain := by
            rw [hfilt]
            refine ⟨p, hreadloc, ?_⟩
            simp only [Chain]
            exact ⟨trivial, hp, op, hop, by rw [hop_next]; exact hchain'⟩
          freed := by
            intro b hb hbm
            rcases List.mem_cons.mp hb with rfl | hb
            · rw [hmk] at hbm; cases hbm
            · exact post.freed b hb (by rw [isMarked_congr (hLget b hb)]; exact hbm)
          kept := by
            intro b hb ob hob hmb
            rcases List.mem_cons.mp hb with rfl | hb
            · rw [hg] at hob; cases hob
              exact ⟨op, hop, hopm, hopd⟩
            · exact post.kept b hb ob (by rw [hLget b hb]; exact hob) hmb
          other := by
            intro b hb hlb
            have hbp : b ≠ p := fun e => hb (e ▸ List.mem_cons_self _ _)
            have hbL : b ∉ L := fun h => hb (List.mem_cons_of_mem _ h)
            rw [post.other b hbL (fun e => hbp (by cases e; rfl)), hget1 b hbp]
          owner := by
            intro b hb ob hob
            have hbp : b ≠ p := fun e => hlocp (by rw [hb, e])
            have hbL : b ∉ L := fun h => hown b (List.mem_cons_of_mem _ h) hb
            refine ⟨ob, ?_, rfl, rfl, rfl, rfl, rfl⟩
            rw [post.other b hbL (fun e => hbp (by cases e; rfl)), hget1 b hbp]
            exact hob
          count := by
            rw [post.count, hfilt]
            simp only [List.length_cons]
            push_cast
            show vm.numObjects - _ = _
            ring
          stack := post.stack
          stackSize := post.stackSize
          maxObjects := post.maxObjects
          out := post.out
          first := fun _ => post.first (by simp) }

/-! ## One collection cycle -/

theorem SameData.same (o : Object) : SameData o o := ⟨rfl, rfl, rfl, rfl⟩

theorem SameData.chain {o1 o2 o3 : Object} (h12 : SameData o1 o2) (h23 : SameData o2 o3) :
    SameData o1 o3 := by
  obtain ⟨a1, a2, a3, a4⟩ := h12
  obtain ⟨b1, b2, b3, b4⟩ := h23
  exact ⟨by rw [b1, a1], by rw [b2, a2], by rw [b3, a3], by rw [b4, a4]⟩

theorem sweep_spec {vm : VM} {L : List Ptr} (hc : Registry vm L) :
    ∃ vm', sweep vm = .ok vm' ∧ SweepPost vm .first L vm' := by
  have hlen := Chain.length_le hc
  exact sweepLoop_spec L _ vm .first vm.firstObject rfl hc (fun _ _ h => by cases h) (by omega)

/-- The state `gc` returns, given the states after marking and sweeping. -/
theorem gc_eq {vm vm1 vm2 : VM} (h1 : markAll vm = .ok vm1) (h2 : sweep vm1 = .ok vm2) :
    gc vm = .ok { vm2 with
      maxObjects := if vm2.numObjects = 0 then GC_THRESHOLD else wrapInt (vm2.numObjects * 2)
      out := vm2.out ++
        [Output.collected (vm.numObjects - vm2.numObjects), Output.remaining vm2.numObjects] } := by
  simp only [gc, h1, h2]

/-- Main lemma on `gc`: on a state whose registry is a proper list of
unmarked objects containing everything reachable from the stack, `gc`
returns, and the registry afterwards consists of the reachable objects. -/
theorem gc_spec {vm : VM} {L : List Ptr} (hreg : Registry vm L)
    (hun : ∀ a ∈ L, ∀ o, vm.heap.get a = some o → o.marked = 0)
    (hroot : ∀ p, StackReach vm p → p ∈ L) :
    ∃ vm' K, gc vm = .ok vm' ∧ GcPost vm L K vm' := by
  have halloc : ∀ a, StackReach vm a → vm.heap.get a ≠ none := by
    intro a ha hn
    obtain ⟨_, o, ho⟩ := Chain.alloc hreg a (hroot a ha)
    rw [hn] at ho; cases ho
  have hunm : ∀ a, a ∈ L → ¬ Marked vm.heap a := by
    rintro a ha ⟨o, ho, hm⟩
    exact hm (hun a ha o ho)
  obtain ⟨h1, hk1, hr, hmarks, hmarked⟩ :=
    markAll_spec halloc (fun a ha => hunm a (hroot a ha))
  have hreg1 : Registry { vm with heap := h1 } L := by
    refine Chain.congr hreg ?_
    intro a _ o ho
    obtain ⟨o', ho', _, hn, _⟩ := hr.get_some ho
    exact ⟨o', ho', hn⟩
  obtain ⟨vm2, hk2, post⟩ := sweep_spec hreg1
  have hK : ∀ a, a ∈ L.filter (isMarked h1) ↔ StackReach vm a := by
    intro a
    rw [List.mem_filter, isMarked_eq_true]
    constructor
    · rintro ⟨haL, hM⟩
      rcases hmarked a hM with h | h
      · exact absurd h (hunm a haL)
      · exact h
    · intro ha
      exact ⟨hroot a ha, hmarks a ha⟩
  refine ⟨_, L.filter (isMarked h1), gc_eq hk1 hk2, ?_⟩
  exact
    { registry := by
        obtain ⟨p', hp', hch⟩ := post.chain
        simp only [readLoc] at hp'
        cases hp'
        exact hch
      sub := List.filter_sublist _
      mem := hK
      kept := by
        intro a ha o ho
        obtain ⟨haL, hM⟩ := List.mem_filter.mp ha
        obtain ⟨o1, ho1, hm1⟩ := isMarked_eq_true.mp hM
        obtain ⟨o1', ho1', t1, _, t3, t4, t5, _⟩ := hr.get_some ho
        rw [ho1] at ho1'; cases ho1'
        obtain ⟨o', ho', hm', hd'⟩ := post.kept a haL o1 ho1 hm1
        exact ⟨o', ho', hm', SameData.chain ⟨t1, t3, t4, t5⟩ hd'⟩
      freed := by
        intro a haL haK
        refine post.freed a haL ?_
        cases hb : isMarked h1 a with
        | false => rfl
        | true => exact absurd (List.mem_filter.mpr ⟨haL, hb⟩) haK
      other := by
        intro a haL
        have e1 : vm2.heap.get a = h1.get a := post.other a haL (by simp)
        show vm2.heap.get a = _
        rw [e1]
        rcases hr.get a with h | ⟨o, ho, hm, ho'⟩
        · exact h
        · have hM : Marked h1 a := ⟨_, ho', by simp⟩
          rcases hmarked a hM with h | h
          · obtain ⟨o2, ho2, hm2⟩ := h
            rw [ho] at ho2; cases ho2
            exact absurd hm hm2
          · exact absurd (hroot a h) haL
      count := post.count
      maxObjects := rfl
      stack := post.stack
      stackSize := post.stackSize
      out := by
        show vm2.out ++ _ = _
        rw [post.out] }

/-! ## Allocation and the stack operations, unfolded -/

theorem newObject_eq (vm : VM) (type : ObjectType) :
    newObject vm type =
      match collectIfFull vm with
      | .error e => .error e
      | .ok vm1 => .ok (allocate vm1 type) := rfl

theorem pushInt_eq {vm vm1 : VM} (v : Int) (h1 : collectIfFull vm = .ok vm1) :
    pushInt vm v =
      push { vm1 with
        heap := (vm1.heap.fresh,
          { marked := 0, type := .OBJ_INT, next := vm1.firstObject, value := v,
            head := NULL, tail := NULL }) :: vm1.heap
        firstObject := vm1.heap.fresh
        numObjects := vm1.numObjects + 1 } vm1.heap.fresh := by
  simp only [pushInt, newObject_eq, h1, allocate, Heap.modify, Heap.get, if_true, Heap.set]

theorem pushPair_eq {vm vm1 : VM} (h1 : collectIfFull vm = .ok vm1)
    (h2 : 2 ≤ vm1.stackSize) (h3 : vm1.stackSize ≤ STACK_MAX) :
    pushPair vm = .ok
      ({ vm1 with
          heap := (vm1.heap.fresh,
            { marked := 0, type := .OBJ_PAIR, next := vm1.firstObject, value := 0,
              head := vm1.stack (vm1.stackSize - 2),
              tail := vm1.stack (vm1.stackSize - 1) }) :: vm1.heap
          firstObject := vm1.heap.fresh
          numObjects := vm1.numObjects + 1
          stack := fun i => if i = vm1.stackSize - 2 then vm1.heap.fresh else vm1.stack i
          stackSize := vm1.stackSize - 1 }, vm1.heap.fresh) := by
  have e1 : vm1.stackSize > 0 := by omega
  have e2 : vm1.stackSize - 1 > 0 := by omega
  have e3 : vm1.stackSize - 2 < STACK_MAX := by omega
  have e4 : vm1.stackSize - 1 - 1 = vm1.stackSize - 2 := by omega
  have e5 : vm1.stackSize - 2 + 1 = vm1.stackSize - 1 := by omega
  simp only [pushPair, newObject_eq, h1, allocate, pop, e1, e2, if_true, Heap.modify, Heap.get,
    Heap.set, push, e3, e4, e5]

/-! ## The invariant of the reachable states -/

theorem Inv.closedReach {vm : VM} {L : List Ptr} (hI : Inv vm L) {p q : Ptr}
    (hp : p ∈ L) (hre : Reach vm.heap p q) : q ∈ L := by
  induction hre with
  | refl => exact hp
  | head _ hg ht ih => exact (hI.closed _ ih _ hg ht).1
  | tail _ hg ht ih => exact (hI.closed _ ih _ hg ht).2

theorem Inv.rooted {vm : VM} {L : List Ptr} (hI : Inv vm L) :
    ∀ p, StackReach vm p → p ∈ L := by
  rintro p ⟨i, hi, hre⟩
  exact hI.closedReach (hI.stackOk i hi) hre

theorem Inv.wellFormed {vm : VM} {L : List Ptr} (hI : Inv vm L) : WellFormed vm L :=
  { registry := hI.registry
    unmarked := hI.unmarked
    count := hI.count
    rooted := hI.rooted }

theorem inv_newVM : Inv newVM [] :=
  { registry := rfl
    unmarked := by intro a ha; simp at ha
    count := rfl
    stackOk := by intro i hi; simp [newVM] at hi
    closed := by intro a ha; simp at ha }

/-- After `gc` on a well-formed state the invariant holds. -/
theorem gc_wf {vm : VM} {L : List Ptr} (hI : WellFormed vm L) :
    ∃ vm' K, gc vm = .ok vm' ∧ GcPost vm L K vm' ∧ Inv vm' K := by
  obtain ⟨vm', K, hk, post⟩ := gc_spec hI.registry hI.unmarked hI.rooted
  refine ⟨vm', K, hk, post, ?_⟩
  have hKL : ∀ a, a ∈ K → a ∈ L := fun a ha => post.sub.subset ha
  have hback : ∀ a ∈ K, ∀ o', vm'.heap.get a = some o' →
      ∃ o, vm.heap.get a = some o ∧ o'.marked = 0 ∧ SameData o o' := by
    intro a ha o' ho'
    obtain ⟨_, o, ho⟩ := Chain.alloc hI.registry a (hKL a ha)
    obtain ⟨o'', ho'', hm, hd⟩ := post.kept a ha o ho
    rw [ho'] at ho''; cases ho''
    exact ⟨o, ho, hm, hd⟩
  exact
    { registry := post.registry
      unmarked := by
        intro a ha o' ho'
        obtain ⟨_, _, hm, _⟩ := hback a ha o' ho'
        exact hm
      count := by
        rw [post.count, hI.count]; ring
      stackOk := by
        intro i hi
        rw [post.stackSize] at hi
        rw [post.stack]
        exact (post.mem _).mpr ⟨i, hi, Reach.refl _⟩
      closed := by
        intro a ha o' ho' ht
        obtain ⟨o, ho, _, t1, _, t3, t4⟩ := hback a ha o' ho'
        obtain ⟨i, hi, hre⟩ := (post.mem a).mp ha
        have ht0 : o.type = .OBJ_PAIR := by rw [← t1]; exact ht
        rw [t3, t4]
        exact ⟨(post.mem _).mpr ⟨i, hi, Reach.head hre ho ht0⟩,
          (post.mem _).mpr ⟨i, hi, Reach.tail hre ho ht0⟩⟩ }

theorem gc_inv {vm : VM} {L : List Ptr} (hI : Inv vm L) :
    ∃ vm' K, gc vm = .ok vm' ∧ GcPost vm L K vm' ∧ Inv vm' K :=
  gc_wf hI.wellFormed

/-- The state in which `newObject` allocates: the invariant holds, the stack
is as at entry, and what was reachable from the stack is still registered
with the same contents. -/
theorem collectIfFull_inv {vm : VM} {L : List Ptr} (hI : Inv vm L) :
    ∃ vm1 K, collectIfFull vm = .ok vm1 ∧ Inv vm1 K ∧ vm1.stack = vm.stack ∧
      vm1.stackSize = vm.stackSize ∧ K.Sublist L ∧ (∀ a, StackReach vm a → a ∈ K) ∧
      (∀ a ∈ K, ∀ o, vm.heap.get a = some o →
        ∃ o', vm1.heap.get a = some o' ∧ o'.marked = 0 ∧ SameData o o') := by
  by_cases hfull : vm.numObjects = vm.maxObjects
  · obtain ⟨vm', K, hk, post, hI'⟩ := gc_inv hI
    refine ⟨vm', K, by simp only [collectIfFull, hfull, if_true, hk], hI', post.stack,
      post.stackSize, post.sub, fun a ha => (post.mem a).mpr ha, post.kept⟩
  · refine ⟨vm, L, by simp only [collectIfFull, hfull, if_false], hI, rfl, rfl,
      List.Sublist.refl _, hI.rooted, ?_⟩
    intro a ha o ho
    exact ⟨o, ho, hI.unmarked a ha o ho, SameData.same o⟩

/-- Linking a freshly allocated object in front of the registry. -/
theorem Chain.cons_fresh {h : Heap} {p : Ptr} {K : List Ptr} (hc : Chain h p K)
    (o : Object) (hn : o.next = p) :
    Chain ((h.fresh, o) :: h) h.fresh (h.fresh :: K) := by
  simp only [Chain]
  refine ⟨trivial, Heap.fresh_ne_null h, o, by simp [Heap.get], ?_⟩
  rw [hn]
  refine hc.congr ?_
  intro a ha oa hoa
  have hne : h.fresh ≠ a := by
    intro e
    rw [← e, Heap.get_fresh] at hoa
    cases hoa
  exact ⟨oa, by simp [Heap.get, hne, hoa], rfl⟩

theorem Heap.get_cons_fresh {h : Heap} (o : Object) {a : Ptr} {oa : Object}
    (ha : h.get a = some oa) : Heap.get ((h.fresh, o) :: h) a = some oa := by
  have hne : h.fresh ≠ a := by
    intro e
    rw [← e, Heap.get_fresh] at ha
    cases ha
  simp [Heap.get, hne, ha]

theorem Heap.get_cons_of_mem {h : Heap} (o : Object) {p : Ptr} {K : List Ptr}
    (hc : Chain h p K) {a : Ptr} (ha : a ∈ K) :
    Heap.get ((h.fresh, o) :: h) a = h.get a := by
  obtain ⟨_, oa, hoa⟩ := hc.alloc a ha
  rw [Heap.get_cons_fresh o hoa, hoa]

theorem fresh_not_mem {h : Heap} {p : Ptr} {K : List Ptr} (hc : Chain h p K) :
    h.fresh ∉ K := by
  intro hm
  obtain ⟨_, o, ho⟩ := hc.alloc _ hm
  rw [Heap.get_fresh] at ho
  cases ho

/-- The invariant after linking a new object whose children are registered
and pushing it in place of the top `k` stack entries. -/
theorem inv_alloc_push {vm1 : VM} {K : List Ptr} (hI : Inv vm1 K) (o : Object)
    (hm : o.marked = 0) (hn : o.next = vm1.firstObject)
    (hch : o.type = .OBJ_PAIR → o.head ∈ K ∧ o.tail ∈ K)
    (n : Nat) (hn1 : n ≤ vm1.stackSize) :
    Inv { vm1 with
        heap := (vm1.heap.fresh, o) :: vm1.heap
        firstObject := vm1.heap.fresh
        numObjects := vm1.numObjects + 1
        stack := fun i => if i = n then vm1.heap.fresh else vm1.stack i
        stackSize := n + 1 } (vm1.heap.fresh :: K) :=
  { registry := Chain.cons_fresh hI.registry o hn
    unmarked := by
      intro a ha oa hoa
      rcases List.mem_cons.mp ha with rfl | ha
      · simp [Heap.get] at hoa
        rw [← hoa]; exact hm
      · have e : Heap.get ((vm1.heap.fresh, o) :: vm1.heap) a = vm1.heap.get a :=
          Heap.get_cons_of_mem o hI.registry ha
        exact hI.unmarked a ha oa (by rw [← e]; exact hoa)
    count := by
      show vm1.numObjects + 1 = _
      rw [hI.count]; simp
    stackOk := by
      intro i hi
      show (if i = n then vm1.heap.fresh else vm1.stack i) ∈ _
      by_cases hin : i = n
      · rw [if_pos hin]; exact List.mem_cons_self _ _
      · rw [if_neg hin]
        have hi' : i < n + 1 := hi
        exact List.mem_cons_of_mem _ (hI.stackOk i (by omega))
    closed := by
      intro a ha oa hoa ht
      rcases List.mem_cons.mp ha with rfl | ha
      · simp [Heap.get] at hoa
        subst hoa
        obtain ⟨c1, c2⟩ := hch ht
        exact ⟨List.mem_cons_of_mem _ c1, List.mem_cons_of_mem _ c2⟩
      · have e : Heap.get ((vm1.heap.fresh, o) :: vm1.heap) a = vm1.heap.get a :=
          Heap.get_cons_of_mem o hI.registry ha
        obtain ⟨c1, c2⟩ := hI.closed a ha oa (by rw [← e]; exact hoa) ht
        exact ⟨List.mem_cons_of_mem _ c1, List.mem_cons_of_mem _ c2⟩ }

theorem push_eq {vm : VM} (value : Ptr) (h : vm.stackSize < STACK_MAX) :
    push vm value = .ok { vm with
      stack := fun i => if i = vm.stackSize then value else vm.stack i
      stackSize := vm.stackSize + 1 } := by
  simp only [push, h, if_true]

theorem push_overflow {vm : VM} (value : Ptr) (h : ¬ vm.stackSize < STACK_MAX) :
    push vm value = .error .stackOverflow := by
  simp only [push, h, if_false]

theorem pushInt_inv {vm vm' : VM} {L : List Ptr} {v : Int} (hI : Inv vm L)
    (hk : pushInt vm v = .ok vm') : ∃ L', Inv vm' L' ∧ vm'.stackSize ≤ STACK_MAX := by
  obtain ⟨vm1, K, h1, hI1, _⟩ := collectIfFull_inv hI
  rw [pushInt_eq v h1] at hk
  by_cases hlt : vm1.stackSize < STACK_MAX
  · simp only [push, hlt, if_true] at hk
    cases hk
    exact ⟨_, inv_alloc_push hI1 _ rfl rfl (fun h => by cases h) vm1.stackSize (le_refl _),
      hlt⟩
  · simp only [push, hlt, if_false] at hk
    cases hk

theorem pushPair_underflow {vm vm1 : VM} (h1 : collectIfFull vm = .ok vm1)
    (h2 : vm1.stackSize < 2) : pushPair vm = .error .stackUnderflow := by
  by_cases h0 : vm1.stackSize > 0
  · have e2 : ¬ (vm1.stackSize - 1 > 0) := by omega
    simp only [pushPair, newObject_eq, h1, allocate, pop, h0, e2, if_true, if_false,
      Heap.modify, Heap.get, Heap.set]
  · simp only [pushPair, newObject_eq, h1, allocate, pop, h0, if_false]

theorem pushPair_inv {vm vm' : VM} {L : List Ptr} {r : Ptr} (hI : Inv vm L)
    (hb : vm.stackSize ≤ STACK_MAX)
    (hk : pushPair vm = .ok (vm', r)) : ∃ L', Inv vm' L' ∧ vm'.stackSize ≤ STACK_MAX := by
  obtain ⟨vm1, K, h1, hI1, _, hss, _⟩ := collectIfFull_inv hI
  rw [← hss] at hb
  by_cases h2 : 2 ≤ vm1.stackSize
  · rw [pushPair_eq h1 h2 hb] at hk
    cases hk
    have e : vm1.stackSize - 1 = (vm1.stackSize - 2) + 1 := by omega
    rw [e]
    refine ⟨_, inv_alloc_push hI1 _ rfl rfl ?_ (vm1.stackSize - 2) (by omega), ?_⟩
    · intro _
      refine ⟨hI1.stackOk _ (by omega), ?_⟩
      exact hI1.stackOk (vm1.stackSize - 2 + 1) (by omega)
    · show vm1.stackSize - 2 + 1 ≤ STACK_MAX
      omega
  · rw [pushPair_underflow h1 (by omega)] at hk
    cases hk

theorem pop_inv {vm vm' : VM} {L : List Ptr} {r : Ptr} (hI : Inv vm L)
    (hk : pop vm = .ok (vm', r)) : Inv vm' L := by
  by_cases h0 : vm.stackSize > 0
  · simp only [pop, h0, if_true] at hk
    cases hk
    exact
      { registry := hI.registry
        unmarked := hI.unmarked
        count := hI.count
        stackOk := by
          intro i hi
          have hi' : i < vm.stackSize - 1 := hi
          exact hI.stackOk i (by omega)
        closed := hI.closed }
  · simp only [pop, h0, if_false] at hk
    cases hk

theorem pop_stackSize {vm vm' : VM} {r : Ptr} (hk : pop vm = .ok (vm', r)) :
    vm'.stackSize = vm.stackSize - 1 ∧ 0 < vm.stackSize := by
  by_cases h0 : vm.stackSize > 0
  · simp only [pop, h0, if_true] at hk
    cases hk
    exact ⟨rfl, h0⟩
  · simp only [pop, h0, if_false] at hk
    cases hk

theorem step_inv {vm vm' : VM} {L : List Ptr} {op : Op} (hI : Inv vm L)
    (hb : vm.stackSize ≤ STACK_MAX)
    (hk : step vm op = .ok vm') : ∃ L', Inv vm' L' ∧ vm'.stackSize ≤ STACK_MAX := by
  cases op with
  | pushInt v => exact pushInt_inv hI hk
  | pushPair =>
    simp only [step] at hk
    cases hp : pushPair vm with
    | error e => rw [hp] at hk; cases hk
    | ok r =>
      obtain ⟨vm2, r⟩ := r
      rw [hp] at hk
      cases hk
      exact pushPair_inv hI hb hp
  | pop =>
    simp only [step] at hk
    cases hp : pop vm with
    | error e => rw [hp] at hk; cases hk
    | ok r =>
      obtain ⟨vm2, r⟩ := r
      rw [hp] at hk
      cases hk
      exact ⟨L, pop_inv hI hp, by rw [(pop_stackSize hp).1]; omega⟩
  | gc =>
    obtain ⟨vm2, K, hk2, post, hI2⟩ := gc_inv hI
    simp only [step] at hk
    rw [hk2] at hk
    cases hk
    exact ⟨K, hI2, by rw [post.stackSize]; exact hb⟩

theorem reachable_inv {vm : VM} (hr : Reachable vm) :
    ∃ L, Inv vm L ∧ vm.stackSize ≤ STACK_MAX := by
  induction hr with
  | init => exact ⟨[], inv_newVM, by simp [newVM]⟩
  | step op _ hk ih =>
    obtain ⟨L, hI, hb⟩ := ih
    exact step_inv hI hb hk

theorem reachable_run {vm : VM} (hr : Reachable vm) :
    ∀ (ops : List Op) {vm' : VM}, run vm ops = .ok vm' → Reachable vm' := by
  intro ops
  induction ops generalizing vm with
  | nil =>
    intro vm' hk
    simp only [run] at hk
    cases hk
    exact hr
  | cons op ops ih =>
    intro vm' hk
    simp only [run] at hk
    cases hs : step vm op with
    | error e => rw [hs] at hk; cases hk
    | ok vm1 =>
      rw [hs] at hk
      exact ih (Reachable.step op hr hs) hk

theorem reachable_stateAfter (ops : List Op) : Reachable (stateAfter ops) := by
  unfold stateAfter
  cases h : run newVM ops with
  | error e => exact Reachable.init
  | ok vm => exact reachable_run Reachable.init ops h

/-- The call sequences used as examples all return, in the states expected. -/
theorem stateAfter_examples :
    (∃ vm, run newVM [.pushInt 1, .pushInt 2, .pushPair] = .ok vm ∧
      vm.numObjects = 3 ∧ vm.stackSize = 1) ∧
    (∃ vm, run newVM [.pushInt 1, .pushInt 2, .pushPair, .gc] = .ok vm ∧
      vm.numObjects = 3 ∧ vm.stackSize = 1) ∧
    (∃ vm, run newVM [.pushInt 1, .pushInt 2, .pushPair, .pop] = .ok vm ∧
      vm.numObjects = 3 ∧ vm.stackSize = 0) ∧
    (∃ vm, run newVM [.pushInt 1, .pushInt 2, .pop] = .ok vm ∧
      vm.numObjects = 2 ∧ vm.stackSize = 1) ∧
    (∃ vm, run newVM [.pushInt 1, .pushInt 2, .gc] = .ok vm ∧
      vm.numObjects = 2 ∧ vm.maxObjects = 4) ∧
    (∃ vm, run newVM fullOps = .ok vm ∧ vm.numObjects = 10 ∧ vm.stackSize = 2) :=
  ⟨⟨_, rfl, rfl, rfl⟩, ⟨_, rfl, rfl, rfl⟩, ⟨_, rfl, rfl, rfl⟩, ⟨_, rfl, rfl, rfl⟩,
    ⟨_, rfl, rfl, rfl⟩, ⟨_, rfl, rfl, rfl⟩⟩

/-- The hand-built state with a reference cycle is well formed. -/
theorem cyclicVM_wellFormed : WellFormed cyclicVM [3, 2, 1] :=
  { registry := ⟨rfl, by decide, _, rfl, rfl, by decide, _, rfl, rfl, by decide, _, rfl, rfl⟩
    unmarked := by
      intro a ha o ho
      simp only [List.mem_cons, List.mem_singleton, List.not_mem_nil, or_false] at ha
      rcases ha with rfl | rfl | rfl <;> simp [cyclicVM, Heap.get] at ho <;> rw [← ho]
    count := rfl
    rooted := by
      rintro p ⟨i, _, hre⟩
      have h1 : p = 1 := by
        induction hre with
        | refl => rfl
        | head _ hg ht ih =>
          subst ih
          simp [cyclicVM, Heap.get] at hg
          rw [← hg] at ht; cases ht
        | tail _ hg ht ih =>
          subst ih
          simp [cyclicVM, Heap.get] at hg
          rw [← hg] at ht; cases ht
      rw [h1]; simp }

/-! ## Claims -/

/-- C1 (reachability preservation): in every state reachable from `newVM` by
`pushInt`, `pushPair`, `pop` and `gc`, a call of `gc` returns, and every
object reachable from a stack entry through `head`/`tail` edges when `gc` is
called is in the registry list afterwards, with the same type, the same
value and the same head and tail. -/
theorem C1_reachability_preservation (vm : VM) (hr : Reachable vm) :
    ∃ vm' K, gc vm = .ok vm' ∧ Registry vm' K ∧
      ∀ a, StackReach vm a →
        a ∈ K ∧ ∃ o o', vm.heap.get a = some o ∧ vm'.heap.get a = some o' ∧
          o'.type = o.type ∧ o'.value = o.value ∧ o'.head = o.head ∧ o'.tail = o.tail := by
  obtain ⟨L, hI, _⟩ := reachable_inv hr
  obtain ⟨vm', K, hk, post, _⟩ := gc_inv hI
  refine ⟨vm', K, hk, post.registry, ?_⟩
  intro a ha
  have haK : a ∈ K := (post.mem a).mpr ha
  obtain ⟨_, o, ho⟩ := Chain.alloc hI.registry a (hI.rooted a ha)
  obtain ⟨o', ho', _, hd⟩ := post.kept a haK o ho
  exact ⟨haK, o, o', ho, ho', hd⟩

/-- Instance of C1 at the state after `pushInt 1; pushInt 2; pushPair`. -/
theorem C1_reachability_preservation_witness :
    ∃ vm' K, gc (stateAfter [.pushInt 1, .pushInt 2, .pushPair]) = .ok vm' ∧ Registry vm' K ∧
      ∀ a, StackReach (stateAfter [.pushInt 1, .pushInt 2, .pushPair]) a →
        a ∈ K ∧ ∃ o o',
          (stateAfter [.pushInt 1, .pushInt 2, .pushPair]).heap.get a = some o ∧
          vm'.heap.get a = some o' ∧
          o'.type = o.type ∧ o'.value = o.value ∧ o'.head = o.head ∧ o'.tail = o.tail :=
  C1_reachability_preservation (stateAfter [.pushInt 1, .pushInt 2, .pushPair])
    (reachable_stateAfter _)

/-- C2 (unreachable reclamation): on every well-formed state, whatever the
shape of the heap graph, `gc` returns; afterwards the registry list holds
exactly the objects that were reachable from the stack, each once; every
other object that was registered has been freed and unlinked; and
`numObjects` is the number of distinct reachable objects. -/
theorem C2_unreachable_reclamation (vm : VM) (L : List Ptr) (hwf : WellFormed vm L) :
    ∃ vm' K, gc vm = .ok vm' ∧ Registry vm' K ∧ K.Nodup ∧
      (∀ a, a ∈ K ↔ StackReach vm a) ∧
      (∀ a ∈ L, ¬ StackReach vm a → a ∉ K ∧ vm'.heap.get a = none) ∧
      vm'.numObjects = (K.length : Int) ∧
      vm'.numObjects = (Set.ncard {a | StackReach vm a} : Int) := by
  obtain ⟨vm', K, hk, post⟩ := gc_spec hwf.registry hwf.unmarked hwf.rooted
  have hnd : K.Nodup := Chain.nodup post.registry
  have hlen : vm'.numObjects = (K.length : Int) := by
    rw [post.count, hwf.count]; ring
  refine ⟨vm', K, hk, post.registry, hnd, post.mem, ?_, hlen, ?_⟩
  · intro a haL hna
    have haK : a ∉ K := fun h => hna ((post.mem a).mp h)
    exact ⟨haK, post.freed a haL haK⟩
  · have hset : {a | StackReach vm a} = (↑K.toFinset : Set Ptr) := by
      ext a
      simp only [Set.mem_setOf_eq, Finset.mem_coe, List.mem_toFinset]
      exact (post.mem a).symm
    rw [hlen, hset, Set.ncard_coe_Finset, List.toFinset_card_of_nodup hnd]

/-- Instance of C2 at a state with an unreachable reference cycle. -/
theorem C2_unreachable_reclamation_witness :
    ∃ vm' K, gc cyclicVM = .ok vm' ∧ Registry vm' K ∧ K.Nodup ∧
      (∀ a, a ∈ K ↔ StackReach cyclicVM a) ∧
      (∀ a ∈ [3, 2, 1], ¬ StackReach cyclicVM a → a ∉ K ∧ vm'.heap.get a = none) ∧
      vm'.numObjects = (K.length : Int) ∧
      vm'.numObjects = (Set.ncard {a | StackReach cyclicVM a} : Int) :=
  C2_unreachable_reclamation cyclicVM [3, 2, 1] cyclicVM_wellFormed

/-- C3 (no dangling references): in every state reachable from `newVM` by
`pushInt`, `pushPair`, `pop` and `gc`, the registry is a proper list of
allocated objects, every entry `stack[0..stackSize)` is in it, and the head
and the tail of every registered pair are in it. -/
theorem C3_no_dangling_references (vm : VM) (hr : Reachable vm) :
    ∃ L, Registry vm L ∧ (∀ a ∈ L, a ≠ NULL ∧ ∃ o, vm.heap.get a = some o) ∧
      (∀ i, i < vm.stackSize → vm.stack i ∈ L) ∧
      ∀ a ∈ L, ∀ o, vm.heap.get a = some o → o.type = .OBJ_PAIR →
        o.head ∈ L ∧ o.tail ∈ L := by
  obtain ⟨L, hI, _⟩ := reachable_inv hr
  exact ⟨L, hI.registry, Chain.alloc hI.registry, hI.stackOk, hI.closed⟩

/-- Instance of C3 at the state after `pushInt 1; pushInt 2; pushPair; gc`. -/
theorem C3_no_dangling_references_witness :
    ∃ L, Registry (stateAfter [.pushInt 1, .pushInt 2, .pushPair, .gc]) L ∧
      (∀ a ∈ L, a ≠ NULL ∧
        ∃ o, (stateAfter [.pushInt 1, .pushInt 2, .pushPair, .gc]).heap.get a = some o) ∧
      (∀ i, i < (stateAfter [.pushInt 1, .pushInt 2, .pushPair, .gc]).stackSize →
        (stateAfter [.pushInt 1, .pushInt 2, .pushPair, .gc]).stack i ∈ L) ∧
      ∀ a ∈ L, ∀ o, (stateAfter [.pushInt 1, .pushInt 2, .pushPair, .gc]).heap.get a = some o →
        o.type = .OBJ_PAIR → o.head ∈ L ∧ o.tail ∈ L :=
  C3_no_dangling_references (stateAfter [.pushInt 1, .pushInt 2, .pushPair, .gc])
    (reachable_stateAfter _)

/-- C4 (mark bits are scratch state): in every state reachable from `newVM`
by `pushInt`, `pushPair`, `pop` and `gc` every registered object has
`marked = 0`; and whenever every registered object is unmarked and every
object reachable from the stack is registered, `gc` returns a state in which
every registered object is unmarked. -/
theorem C4_mark_bits_scratch (vm : VM) :
    (Reachable vm →
      ∃ L, Registry vm L ∧ ∀ a ∈ L, ∀ o, vm.heap.get a = some o → o.marked = 0) ∧
    (∀ L, Registry vm L → (∀ a ∈ L, ∀ o, vm.heap.get a = some o → o.marked = 0) →
      (∀ p, StackReach vm p → p ∈ L) →
      ∃ vm' K, gc vm = .ok vm' ∧ Registry vm' K ∧
        ∀ a ∈ K, ∀ o, vm'.heap.get a = some o → o.marked = 0) := by
  constructor
  · intro hr
    obtain ⟨L, hI, _⟩ := reachable_inv hr
    exact ⟨L, hI.registry, hI.unmarked⟩
  · intro L hreg hun hroot
    obtain ⟨vm', K, hk, post⟩ := gc_spec hreg hun hroot
    refine ⟨vm', K, hk, post.registry, ?_⟩
    intro a ha o' ho'
    obtain ⟨_, o, ho⟩ := Chain.alloc hreg a (post.sub.subset ha)
    obtain ⟨o'', ho'', hm, _⟩ := post.kept a ha o ho
    rw [ho'] at ho''; cases ho''
    exact hm

/-- Instance of C4: the first part at the state after `pushInt 1; pushInt 2;
pop`, the second at a state with an unreachable reference cycle. -/
theorem C4_mark_bits_scratch_witness :
    (∃ L, Registry (stateAfter [.pushInt 1, .pushInt 2, .pop]) L ∧
      ∀ a ∈ L, ∀ o, (stateAfter [.pushInt 1, .pushInt 2, .pop]).heap.get a = some o →
        o.marked = 0) ∧
    (∃ vm' K, gc cyclicVM = .ok vm' ∧ Registry vm' K ∧
        ∀ a ∈ K, ∀ o, vm'.heap.get a = some o → o.marked = 0) :=
  ⟨(C4_mark_bits_scratch (stateAfter [.pushInt 1, .pushInt 2, .pop])).1 (reachable_stateAfter _),
   (C4_mark_bits_scratch cyclicVM).2 [3, 2, 1] cyclicVM_wellFormed.registry
      cyclicVM_wellFormed.unmarked cyclicVM_wellFormed.rooted⟩

/-! ## Collecting twice -/

theorem Chain.start_eq {h : Heap} {p : Ptr} {K : List Ptr} (hc : Chain h p K) :
    p = K.headD NULL := by
  cases K with
  | nil => exact hc
  | cons a K => exact hc.1

theorem Chain.next_eq {h h' : Heap} : ∀ {K : List Ptr} {p p' : Ptr},
    Chain h p K → Chain h' p' K →
    ∀ a ∈ K, ∀ o o', h.get a = some o → h'.get a = some o' → o'.next = o.next := by
  intro K
  induction K with
  | nil => intro p p' _ _ a ha; simp at ha
  | cons b K ih =>
    intro p p' hc hc' a ha o o' ho ho'
    obtain ⟨_, _, ob, hob, hcn⟩ := hc
    obtain ⟨_, _, ob', hob', hcn'⟩ := hc'
    by_cases hab : a = b
    · subst hab
      rw [ho] at hob; cases hob
      rw [ho'] at hob'; cases hob'
      rw [hcn.start_eq, hcn'.start_eq]
    · have ha' : a ∈ K := by
        rcases List.mem_cons.mp ha with h1 | h1
        · exact absurd h1 hab
        · exact h1
      exact ih hcn hcn' a ha' o o' ho ho'

theorem Object.eq_of_fields {o o' : Object} (h1 : o'.marked = o.marked) (h2 : o'.next = o.next)
    (h3 : SameData o o') : o' = o := by
  obtain ⟨t1, t2, t3, t4⟩ := h3
  cases o
  cases o'
  simp only at h1 h2 t1 t2 t3 t4
  subst h1 h2 t1 t2 t3 t4
  rfl

/-- Reachability from the stack is unchanged by a collection. -/
theorem GcPost.stackReach {vm vm' : VM} {L K : List Ptr} (post : GcPost vm L K vm')
    {a : Ptr} (ha : StackReach vm a) : StackReach vm' a := by
  obtain ⟨i, hi, hre⟩ := ha
  refine ⟨i, by rw [post.stackSize]; exact hi, ?_⟩
  rw [post.stack]
  induction hre with
  | refl => exact Reach.refl _
  | @head q o hq hg ht ih =>
    have hqK : q ∈ K := (post.mem q).mpr ⟨i, hi, hq⟩
    obtain ⟨o', ho', _, t1, _, t3, _⟩ := post.kept q hqK o hg
    rw [← t3]
    exact Reach.head ih ho' (by rw [t1]; exact ht)
  | @tail q o hq hg ht ih =>
    have hqK : q ∈ K := (post.mem q).mpr ⟨i, hi, hq⟩
    obtain ⟨o', ho', _, t1, _, _, t4⟩ := post.kept q hqK o hg
    rw [← t4]
    exact Reach.tail ih ho' (by rw [t1]; exact ht)

/-- C5 (idempotence of collection): on every well-formed state a second
`gc` directly after a first one returns a state with the same `numObjects`,
prints that it collected `0` objects, and leaves the registry list, every
memory cell, the stack and `maxObjects` as the first `gc` left them. -/
theorem C5_gc_idempotent (vm : VM) (L : List Ptr) (hwf : WellFormed vm L) :
    ∃ vm1 vm2 K, gc vm = .ok vm1 ∧ gc vm1 = .ok vm2 ∧
      vm2.numObjects = vm1.numObjects ∧
      Registry vm1 K ∧ Registry vm2 K ∧
      vm2.firstObject = vm1.firstObject ∧
      (∀ a, vm2.heap.get a = vm1.heap.get a) ∧
      vm2.stack = vm1.stack ∧ vm2.stackSize = vm1.stackSize ∧
      vm2.maxObjects = vm1.maxObjects ∧
      vm2.out = vm1.out ++ [Output.collected 0, Output.remaining vm1.numObjects] := by
  obtain ⟨vm1, K, hk1, post1, hI1⟩ := gc_wf hwf
  obtain ⟨vm2, K2, hk2, post2, hI2⟩ := gc_inv hI1
  have hsub : K ⊆ K2 := by
    intro a ha
    exact (post2.mem a).mpr (post1.stackReach ((post1.mem a).mp ha))
  have hK : K2 = K :=
    post2.sub.eq_of_length_le (List.Nodup.subperm (Chain.nodup post1.registry) hsub).length_le
  subst hK
  have hnum : vm2.numObjects = vm1.numObjects := by
    rw [post2.count]; ring
  refine ⟨vm1, vm2, K2, hk1, hk2, hnum, post1.registry, post2.registry, ?_, ?_, post2.stack,
    post2.stackSize, ?_, ?_⟩
  · have e1 := Chain.start_eq post1.registry
    have e2 := Chain.start_eq post2.registry
    rw [e1, e2]
  · intro a
    by_cases ha : a ∈ K2
    · obtain ⟨_, o1, ho1⟩ := Chain.alloc post1.registry a ha
      obtain ⟨o2, ho2, hm2, hd⟩ := post2.kept a ha o1 ho1
      have hm1 : o1.marked = 0 := hI1.unmarked a ha o1 ho1
      have hn := Chain.next_eq post1.registry post2.registry a ha o1 o2 ho1 ho2
      rw [ho1, ho2, Object.eq_of_fields (by rw [hm1, hm2]) hn hd]
    · exact post2.other a ha
  · rw [post2.maxObjects, post1.maxObjects, hnum]
  · rw [post2.out, hnum]
    simp

/-- Instance of C5 at a state with an unreachable reference cycle. -/
theorem C5_gc_idempotent_witness :
    ∃ vm1 vm2 K, gc cyclicVM = .ok vm1 ∧ gc vm1 = .ok vm2 ∧
      vm2.numObjects = vm1.numObjects ∧
      Registry vm1 K ∧ Registry vm2 K ∧
      vm2.firstObject = vm1.firstObject ∧
      (∀ a, vm2.heap.get a = vm1.heap.get a) ∧
      vm2.stack = vm1.stack ∧ vm2.stackSize = vm1.stackSize ∧
      vm2.maxObjects = vm1.maxObjects ∧
      vm2.out = vm1.out ++ [Output.collected 0, Output.remaining vm1.numObjects] :=
  C5_gc_idempotent cyclicVM [3, 2, 1] cyclicVM_wellFormed

/-- The threshold `gc` sets. -/
theorem gc_threshold (vm vm' : VM) (hk : gc vm = .ok vm') :
    vm'.maxObjects =
      if vm'.numObjects = 0 then GC_THRESHOLD else wrapInt (vm'.numObjects * 2) := by
  cases h1 : markAll vm with
  | error e => simp only [gc, h1] at hk; cases hk
  | ok vm1 =>
    cases h2 : sweep vm1 with
    | error e => simp only [gc, h1, h2] at hk; cases hk
    | ok vm2 =>
      rw [gc_eq h1 h2] at hk
      cases hk
      rfl

/-! ## The automatic trigger -/

theorem Inv.clearStack {vm : VM} {L : List Ptr} (hI : Inv vm L) :
    Inv { vm with stackSize := 0 } L :=
  { registry := hI.registry
    unmarked := hI.unmarked
    count := hI.count
    stackOk := by
      intro i hi
      exact absurd hi (Nat.not_lt_zero i)
    closed := hI.closed }

theorem gc_empty_stack {vm : VM} {L : List Ptr} (hI : Inv vm L) (h0 : vm.stackSize = 0) :
    ∃ vm', gc vm = .ok vm' ∧ vm'.numObjects = 0 ∧ vm'.firstObject = NULL ∧
      vm'.maxObjects = 10 ∧ ∀ a ∈ L, vm'.heap.get a = none := by
  obtain ⟨vm', K, hk, post, _⟩ := gc_inv hI
  have hK : K = [] := by
    apply List.eq_nil_iff_forall_not_mem.mpr
    intro a ha
    obtain ⟨i, hi, _⟩ := (post.mem a).mp ha
    rw [h0] at hi
    exact absurd hi (Nat.not_lt_zero i)
  subst hK
  have hnum : vm'.numObjects = 0 := by
    rw [post.count, hI.count]; simp
  refine ⟨vm', hk, hnum, post.registry, ?_, ?_⟩
  · rw [post.maxObjects, if_pos hnum]; rfl
  · intro a ha
    exact post.freed a ha (by simp)

/-- C8 (empty root set): in every state reachable from `newVM` by `pushInt`,
`pushPair`, `pop` and `gc`, a `gc` with `stackSize = 0`, and the `gc` that
`freeVM` runs after setting `stackSize` to `0`, return with
`numObjects = 0`, `firstObject = NULL`, `maxObjects = 10` and every
registered object freed. The two scenarios `pushInt 1; pushInt 2; pop; pop;
gc` and `pushInt 1; pushInt 2; pushPair; pop; gc` end with `numObjects = 0`. -/
theorem C8_empty_root_set (vm : VM) (hr : Reachable vm) :
    (vm.stackSize = 0 →
      ∃ vm', gc vm = .ok vm' ∧ vm'.numObjects = 0 ∧ vm'.firstObject = NULL ∧
        vm'.maxObjects = 10) ∧
    (∃ vm' L, freeVM vm = .ok vm' ∧ vm'.numObjects = 0 ∧ vm'.firstObject = NULL ∧
        vm'.maxObjects = 10 ∧ Registry vm L ∧ ∀ a ∈ L, vm'.heap.get a = none) ∧
    (∃ vm', run newVM [.pushInt 1, .pushInt 2, .pop, .pop, .gc] = .ok vm' ∧
        vm'.numObjects = 0) ∧
    (∃ vm', run newVM [.pushInt 1, .pushInt 2, .pushPair, .pop, .gc] = .ok vm' ∧
        vm'.numObjects = 0) := by
  obtain ⟨L, hI, _⟩ := reachable_inv hr
  refine ⟨?_, ?_, ⟨_, rfl, rfl⟩, ⟨_, rfl, rfl⟩⟩
  · intro h0
    obtain ⟨vm', hk, h1, h2, h3, _⟩ := gc_empty_stack hI h0
    exact ⟨vm', hk, h1, h2, h3⟩
  · obtain ⟨vm', hk, h1, h2, h3, h4⟩ := gc_empty_stack hI.clearStack rfl
    exact ⟨vm', L, hk, h1, h2, h3, hI.registry, h4⟩

/-- Instance of C8 at the state after `pushInt 1; pushInt 2; pushPair; pop`,
whose registry holds a pair and its two children. -/
theorem C8_empty_root_set_witness :
    (∃ vm', gc (stateAfter [.pushInt 1, .pushInt 2, .pushPair, .pop]) = .ok vm' ∧
        vm'.numObjects = 0 ∧ vm'.firstObject = NULL ∧ vm'.maxObjects = 10) ∧
    (∃ vm' L, freeVM (stateAfter [.pushInt 1, .pushInt 2, .pushPair]) = .ok vm' ∧
        vm'.numObjects = 0 ∧ vm'.firstObject = NULL ∧ vm'.maxObjects = 10 ∧
        Registry (stateAfter [.pushInt 1, .pushInt 2, .pushPair]) L ∧
        ∀ a ∈ L, vm'.heap.get a = none) :=
  ⟨(C8_empty_root_set (stateAfter [.pushInt 1, .pushInt 2, .pushPair, .pop])
      (reachable_stateAfter _)).1 rfl,
   (C8_empty_root_set (stateAfter [.pushInt 1, .pushInt 2, .pushPair])
      (reachable_stateAfter _)).2.1⟩

/-! ## Pushing integers -/

theorem roots_push (vm : VM) (x : Ptr) (vm' : VM)
    (hs : vm'.stack = fun i => if i = vm.stackSize then x else vm.stack i)
    (hn : vm'.stackSize = vm.stackSize + 1) : roots vm' = roots vm ++ [x] := by
  unfold roots
  rw [hn, List.range_succ, List.map_append, hs]
  simp only [List.map_cons, List.map_nil, if_true]
  congr 1
  apply List.map_congr_left
  intro i hi
  have : i ≠ vm.stackSize := Nat.ne_of_lt (List.mem_range.mp hi)
  simp only [this, if_false]

theorem roots_congr {vm vm' : VM} (hs : vm'.stack = vm.stack)
    (hn : vm'.stackSize = vm.stackSize) : roots vm' = roots vm := by
  unfold roots
  rw [hs, hn]

theorem mem_reverse_roots {vm : VM} {i : Nat}
    (hi : i < vm.stackSize) : vm.stack i ∈ (roots vm).reverse :=
  List.mem_reverse.mpr (mem_roots.mpr ⟨i, hi, rfl⟩)

theorem intStack_newVM : IntStack newVM [] :=
  { inv := inv_newVM
    size := rfl
    vals := by intro i v h; simp at h }

theorem intStack_gc {vm : VM} {ws : List Int} (h : IntStack vm ws) :
    ∃ vm', gc vm = .ok vm' ∧ IntStack vm' ws ∧ vm'.numObjects = (ws.length : Int) := by
  obtain ⟨vm', K, hk, post, hI'⟩ := gc_inv h.inv
  have hsub : (roots vm).reverse ⊆ K := by
    intro a ha
    obtain ⟨i, hi, rfl⟩ := mem_roots.mp (List.mem_reverse.mp ha)
    exact (post.mem _).mpr ⟨i, hi, Reach.refl _⟩
  have hK : K = (roots vm).reverse :=
    post.sub.eq_of_length_le
      (List.Nodup.subperm (Chain.nodup h.inv.registry) hsub).length_le
  have hr : roots vm' = roots vm := roots_congr post.stack post.stackSize
  refine ⟨vm', hk, ?_, ?_⟩
  · exact
      { inv := by rw [hr, ← hK]; exact hI'
        size := by rw [post.stackSize]; exact h.size
        vals := by
          intro i v hv
          obtain ⟨o, ho, ht, hval⟩ := h.vals i v hv
          have hi : i < vm.stackSize := by
            rw [h.size]
            exact (List.getElem?_eq_some_iff.mp hv).1
          have hmem : vm.stack i ∈ K := by rw [hK]; exact mem_reverse_roots hi
          obtain ⟨o', ho', _, t1, t2, _⟩ := post.kept _ hmem o ho
          rw [post.stack]
          exact ⟨o', ho', by rw [t1]; exact ht, by rw [t2]; exact hval⟩ }
  · rw [hI'.count, hK]
    simp only [List.length_reverse, roots, List.length_map, List.length_range]
    rw [h.size]

theorem intStack_collect {vm : VM} {ws : List Int} (h : IntStack vm ws) :
    ∃ vm1, collectIfFull vm = .ok vm1 ∧ IntStack vm1 ws := by
  by_cases hfull : vm.numObjects = vm.maxObjects
  · obtain ⟨vm', hk, h', _⟩ := intStack_gc h
    exact ⟨vm', by simp only [collectIfFull, hfull, if_true, hk], h'⟩
  · exact ⟨vm, by simp only [collectIfFull, hfull, if_false], h⟩

theorem pushInt_ok {vm vm1 : VM} (v : Int) (h1 : collectIfFull vm = .ok vm1)
    (hlt : vm1.stackSize < STACK_MAX) :
    pushInt vm v = .ok
      { vm1 with
        heap := (vm1.heap.fresh,
          { marked := 0, type := .OBJ_INT, next := vm1.firstObject, value := v,
            head := NULL, tail := NULL }) :: vm1.heap
        firstObject := vm1.heap.fresh
        numObjects := vm1.numObjects + 1
        stack := fun i => if i = vm1.stackSize then vm1.heap.fresh else vm1.stack i
        stackSize := vm1.stackSize + 1 } := by
  rw [pushInt_eq v h1]
  simp only [push, hlt, if_true]

theorem intStack_pushInt {vm : VM} {ws : List Int} (h : IntStack vm ws) (v : Int)
    (hlen : ws.length < STACK_MAX) :
    ∃ vm', pushInt vm v = .ok vm' ∧ IntStack vm' (ws ++ [v]) := by
  obtain ⟨vm1, h1, hs1⟩ := intStack_collect h
  have hlt : vm1.stackSize < STACK_MAX := by rw [hs1.size]; exact hlen
  refine ⟨_, pushInt_ok v h1 hlt, ?_⟩
  have hI := inv_alloc_push hs1.inv
    { marked := 0, type := .OBJ_INT, next := vm1.firstObject, value := v,
      head := NULL, tail := NULL } rfl rfl (fun h => by cases h) vm1.stackSize (le_refl _)
  exact
    { inv := by
        rw [roots_push vm1 vm1.heap.fresh _ rfl rfl, List.reverse_append]
        exact hI
      size := by
        show vm1.stackSize + 1 = (ws ++ [v]).length
        rw [hs1.size]; simp
      vals := by
        intro i x hx
        show ∃ o, Heap.get ((vm1.heap.fresh, _) :: vm1.heap)
          (if i = vm1.stackSize then vm1.heap.fresh else vm1.stack i) = some o ∧ _
        by_cases hi : i < ws.length
        · rw [List.getElem?_append_left hi] at hx
          obtain ⟨o, ho, ht, hval⟩ := hs1.vals i x hx
          have hne : i ≠ vm1.stackSize := by rw [hs1.size]; exact Nat.ne_of_lt hi
          rw [if_neg hne]
          exact ⟨o, Heap.get_cons_fresh _ ho, ht, hval⟩
        · have hi' : i = ws.length := by
            have := (List.getElem?_eq_some_iff.mp hx).1
            simp at this
            omega
          subst hi'
          simp at hx
          subst hx
          rw [if_pos hs1.size.symm]
          simp only [Heap.get, if_true]
          exact ⟨_, rfl, rfl, rfl⟩ }

theorem intStack_run : ∀ (vs : List Int) (vm : VM) (ws : List Int), IntStack vm ws →
    ws.length + vs.length ≤ STACK_MAX →
    ∃ vm', run vm (vs.map Op.pushInt ++ [Op.gc]) = .ok vm' ∧ IntStack vm' (ws ++ vs) ∧
      vm'.numObjects = ((ws ++ vs).length : Int) := by
  intro vs
  induction vs with
  | nil =>
    intro vm ws h _
    obtain ⟨vm', hk, h', hn⟩ := intStack_gc h
    refine ⟨vm', ?_, by simpa using h', by simpa using hn⟩
    simp only [List.map_nil, List.nil_append, run, step, hk]
  | cons v vs ih =>
    intro vm ws h hlen
    simp only [List.length_cons] at hlen
    obtain ⟨vm1, hk1, h1⟩ := intStack_pushInt h v (by omega)
    obtain ⟨vm', hk, h', hn⟩ := ih vm1 (ws ++ [v]) h1 (by simp; omega)
    refine ⟨vm', ?_, by simpa using h', by simpa using hn⟩
    simp only [List.map_cons, List.cons_append, run, step, hk1]
    exact hk

/-- C9 (objects on the stack are preserved): for every list of at most 256
integers, calling `pushInt` on each of them in turn from `newVM` and then
`gc` returns; afterwards `numObjects` and `stackSize` equal the number of
integers pushed and `stack[i]` is an integer object holding the `i`-th
value. In particular `pushInt 1; pushInt 2; gc` gives `numObjects = 2`. -/
theorem C9_stack_objects_preserved (vs : List Int) (hn : vs.length ≤ 256) :
    (∃ vm, run newVM (vs.map Op.pushInt ++ [Op.gc]) = .ok vm ∧
      vm.numObjects = (vs.length : Int) ∧ vm.stackSize = vs.length ∧
      ∀ i v, vs[i]? = some v →
        ∃ o, vm.heap.get (vm.stack i) = some o ∧ o.type = .OBJ_INT ∧ o.value = v) ∧
    (∃ vm, run newVM [.pushInt 1, .pushInt 2, .gc] = .ok vm ∧ vm.numObjects = 2) := by
  obtain ⟨vm, hk, h, hnum⟩ := intStack_run vs newVM [] intStack_newVM (by simpa [STACK_MAX] using hn)
  refine ⟨⟨vm, hk, by simpa using hnum, by simpa using h.size, ?_⟩, ⟨_, rfl, rfl⟩⟩
  intro i v hv
  exact h.vals i v (by simpa using hv)

/-- Instance of C9 for twelve integers, where the eleventh `pushInt`
triggers a collection. -/
theorem C9_stack_objects_preserved_witness :
    ∃ vm, run newVM (([5, 3, 8, 1, 9, 2, 7, 4, 6, 0, 11, 10] : List Int).map Op.pushInt ++
        [Op.gc]) = .ok vm ∧
      vm.numObjects = (([5, 3, 8, 1, 9, 2, 7, 4, 6, 0, 11, 10] : List Int).length : Int) ∧
      vm.stackSize = ([5, 3, 8, 1, 9, 2, 7, 4, 6, 0, 11, 10] : List Int).length ∧
      ∀ i v, ([5, 3, 8, 1, 9, 2, 7, 4, 6, 0, 11, 10] : List Int)[i]? = some v →
        ∃ o, vm.heap.get (vm.stack i) = some o ∧ o.type = .OBJ_INT ∧ o.value = v :=
  (C9_stack_objects_preserved [5, 3, 8, 1, 9, 2, 7, 4, 6, 0, 11, 10] (by decide)).1

/-! ## Forming a pair -/

/-- C10 (operand order of `pushPair`): in every state reachable from `newVM`
by `pushInt`, `pushPair`, `pop` and `gc` with `stackSize ≥ 2`, where
`a = stack[stackSize-2]` and `b = stack[stackSize-1]`, `pushPair` returns a
pointer `r` to a newly registered object (the head of the registry, in
front of a sub-list `K` of the old registry that does not contain `r`) of
type `OBJ_PAIR` with `head = a` and `tail = b`; the stack has size
`stackSize - 1` with `r` on top and the entries below index `stackSize-2`
unchanged; `a` and `b` are still registered, with the same mark bit, type,
value, head and tail as before the call, whether or not a collection ran. -/
theorem C10_pushPair_operand_order (vm : VM) (hr : Reachable vm) (h2 : 2 ≤ vm.stackSize) :
    ∃ vm' r L K o, pushPair vm = .ok (vm', r) ∧
      Registry vm L ∧ Registry vm' (r :: K) ∧ K.Sublist L ∧ r ∉ K ∧ vm'.firstObject = r ∧
      vm'.heap.get r = some o ∧ o.type = .OBJ_PAIR ∧
      o.head = vm.stack (vm.stackSize - 2) ∧ o.tail = vm.stack (vm.stackSize - 1) ∧
      vm'.stackSize = vm.stackSize - 1 ∧ vm'.stack (vm.stackSize - 2) = r ∧
      (∀ i, i < vm.stackSize - 2 → vm'.stack i = vm.stack i) ∧
      ∀ x, x = vm.stack (vm.stackSize - 2) ∨ x = vm.stack (vm.stackSize - 1) →
        x ∈ K ∧ ∃ ox ox', vm.heap.get x = some ox ∧ vm'.heap.get x = some ox' ∧
          ox'.marked = ox.marked ∧ ox'.type = ox.type ∧ ox'.value = ox.value ∧
          ox'.head = ox.head ∧ ox'.tail = ox.tail := by
  obtain ⟨L, hI, hb⟩ := reachable_inv hr
  obtain ⟨vm1, K, h1, hI1, hst, hss, hsub, hroot, hkept⟩ := collectIfFull_inv hI
  have h2' : 2 ≤ vm1.stackSize := by rw [hss]; exact h2
  have hb' : vm1.stackSize ≤ STACK_MAX := by rw [hss]; exact hb
  have hk := pushPair_eq h1 h2' hb'
  have e : vm1.stackSize - 1 = (vm1.stackSize - 2) + 1 := by omega
  have hI' := inv_alloc_push hI1
    { marked := 0, type := .OBJ_PAIR, next := vm1.firstObject, value := 0,
      head := vm1.stack (vm1.stackSize - 2), tail := vm1.stack (vm1.stackSize - 1) }
    rfl rfl (fun _ => ⟨hI1.stackOk _ (by omega), hI1.stackOk _ (by omega)⟩)
    (vm1.stackSize - 2) (by omega)
  have hget : Heap.get
      ((vm1.heap.fresh,
        ({ marked := 0, type := .OBJ_PAIR, next := vm1.firstObject, value := 0,
           head := vm1.stack (vm1.stackSize - 2),
           tail := vm1.stack (vm1.stackSize - 1) } : Object)) :: vm1.heap) vm1.heap.fresh =
      some { marked := 0, type := .OBJ_PAIR, next := vm1.firstObject, value := 0,
             head := vm1.stack (vm1.stackSize - 2),
             tail := vm1.stack (vm1.stackSize - 1) } := by
    simp only [Heap.get, if_true]
  refine ⟨_, _, L, K, _, hk, hI.registry, hI'.registry, hsub, fresh_not_mem hI1.registry, rfl,
    hget, rfl, ?_, ?_, ?_, ?_, ?_, ?_⟩
  · show vm1.stack (vm1.stackSize - 2) = _
    rw [hst, hss]
  · show vm1.stack (vm1.stackSize - 1) = _
    rw [hst, hss]
  · show vm1.stackSize - 1 = _
    rw [hss]
  · show (if vm.stackSize - 2 = vm1.stackSize - 2 then vm1.heap.fresh
      else vm1.stack (vm.stackSize - 2)) = _
    rw [hss, if_pos rfl]
  · intro i hi
    show (if i = vm1.stackSize - 2 then vm1.heap.fresh else vm1.stack i) = _
    rw [hss, if_neg (Nat.ne_of_lt hi), hst]
  · intro x hx
    have hxr : StackReach vm x := by
      rcases hx with rfl | rfl
      · exact ⟨_, by omega, Reach.refl _⟩
      · exact ⟨_, by omega, Reach.refl _⟩
    have hxK : x ∈ K := hroot x hxr
    obtain ⟨_, ox, hox⟩ := Chain.alloc hI.registry x (hsub.subset hxK)
    obtain ⟨ox', hox', hm', hd⟩ := hkept x hxK ox hox
    have hm : ox.marked = 0 := hI.unmarked x (hsub.subset hxK) ox hox
    exact ⟨hxK, ox, ox', hox, Heap.get_cons_fresh _ hox', by rw [hm, hm'], hd⟩

/-- Instance of C10 at a state in which the allocation inside `pushPair`
triggers a collection: eight integers pushed and popped, then two pushed. -/
theorem C10_pushPair_operand_order_witness :
    ∃ vm' r L K o, pushPair (stateAfter fullOps) = .ok (vm', r) ∧
      Registry (stateAfter fullOps) L ∧ Registry vm' (r :: K) ∧ K.Sublist L ∧ r ∉ K ∧
      vm'.firstObject = r ∧
      vm'.heap.get r = some o ∧ o.type = .OBJ_PAIR ∧
      o.head = (stateAfter fullOps).stack ((stateAfter fullOps).stackSize - 2) ∧
      o.tail = (stateAfter fullOps).stack ((stateAfter fullOps).stackSize - 1) ∧
      vm'.stackSize = (stateAfter fullOps).stackSize - 1 ∧
      vm'.stack ((stateAfter fullOps).stackSize - 2) = r ∧
      (∀ i, i < (stateAfter fullOps).stackSize - 2 →
        vm'.stack i = (stateAfter fullOps).stack i) ∧
      ∀ x, x = (stateAfter fullOps).stack ((stateAfter fullOps).stackSize - 2) ∨
          x = (stateAfter fullOps).stack ((stateAfter fullOps).stackSize - 1) →
        x ∈ K ∧ ∃ ox ox', (stateAfter fullOps).heap.get x = some ox ∧
          vm'.heap.get x = some ox' ∧
          ox'.marked = ox.marked ∧ ox'.type = ox.type ∧ ox'.value = ox.value ∧
          ox'.head = ox.head ∧ ox'.tail = ox.tail :=
  C10_pushPair_operand_order (stateAfter fullOps) (reachable_stateAfter _) (by decide)

/-- The example state for C10 is at the collection threshold, so the
allocation inside `pushPair` collects; the eight popped integers are freed
and the pair is built from the two survivors. -/
theorem fullOps_collects :
    (stateAfter fullOps).numObjects = (stateAfter fullOps).maxObjects ∧
    (stateAfter fullOps).stackSize = 2 ∧
    ((pushPair (stateAfter fullOps)).map (fun r => (r.1.numObjects, r.1.out))) =
      .ok (3, [Output.collected 8, Output.remaining 2]) := by
  refine ⟨by decide, by decide, rfl⟩

/-! ## Allocation -/

theorem markAll_inv {vm vm1 : VM} (h : markAll vm = .ok vm1) :
    ∃ h1, vm1 = { vm with heap := h1 } ∧ MarkRel vm.heap h1 := by
  unfold markAll at h
  cases hk : markList (roots vm) vm.heap with
  | error e => rw [hk] at h; cases h
  | ok h1 =>
    rw [hk] at h
    cases h
    exact ⟨h1, rfl, (markList_spec _ _ _ hk).1⟩

/-- The registry after any `gc` that returns, whatever the stack holds. -/
theorem gc_registry {vm vm' : VM} {L : List Ptr} (hreg : Registry vm L)
    (hk : gc vm = .ok vm') :
    ∃ K, Registry vm' K ∧ K.Sublist L ∧
      vm'.numObjects = vm.numObjects - ((L.length : Int) - (K.length : Int)) ∧
      vm'.maxObjects =
        (if vm'.numObjects = 0 then GC_THRESHOLD else wrapInt (vm'.numObjects * 2)) ∧
      vm'.stack = vm.stack ∧ vm'.stackSize = vm.stackSize := by
  cases h1 : markAll vm with
  | error e => simp only [gc, h1] at hk; cases hk
  | ok vm1 =>
    obtain ⟨hp, rfl, hr⟩ := markAll_inv h1
    have hreg1 : Registry { vm with heap := hp } L := by
      refine Chain.congr hreg ?_
      intro a _ o ho
      obtain ⟨o', ho', _, hn, _⟩ := hr.get_some ho
      exact ⟨o', ho', hn⟩
    obtain ⟨vm2, h2, post⟩ := sweep_spec hreg1
    rw [gc_eq h1 h2] at hk
    cases hk
    refine ⟨L.filter (isMarked hp), ?_, List.filter_sublist _, post.count, rfl, post.stack,
      post.stackSize⟩
    obtain ⟨p', hp', hch⟩ := post.chain
    simp only [readLoc] at hp'
    cases hp'
    exact hch

theorem countInv_newVM : CountInv newVM [] :=
  { registry := rfl
    count := rfl
    stackBound := by decide }

theorem countInv_gc {vm vm' : VM} {L : List Ptr} (hI : CountInv vm L)
    (hk : gc vm = .ok vm') :
    ∃ K, CountInv vm' K ∧ vm'.stackSize = vm.stackSize := by
  obtain ⟨K, hreg, hsub, hcount, hmax, _, hss⟩ := gc_registry hI.registry hk
  have hn : vm'.numObjects = (K.length : Int) := by
    rw [hcount, hI.count]; ring
  exact ⟨K,
    { registry := hreg
      count := hn
      stackBound := by rw [hss]; exact hI.stackBound }, hss⟩

theorem countInv_collect {vm vm1 : VM} {L : List Ptr} (hI : CountInv vm L)
    (hk : collectIfFull vm = .ok vm1) :
    ∃ K, CountInv vm1 K ∧ vm1.stackSize = vm.stackSize := by
  by_cases hfull : vm.numObjects = vm.maxObjects
  · simp only [collectIfFull, hfull, if_true] at hk
    exact countInv_gc hI hk
  · simp only [collectIfFull, hfull, if_false] at hk
    cases hk
    exact ⟨L, hI, rfl⟩

/-- The invariant after linking one new object in front of the registry. -/
theorem countInv_link {vm1 : VM} {K : List Ptr} (hI : CountInv vm1 K) (o : Object) (hn : o.next = vm1.firstObject)
    (st : Nat → Ptr) (n : Nat) (hb : n ≤ STACK_MAX) :
    CountInv { vm1 with
        heap := (vm1.heap.fresh, o) :: vm1.heap
        firstObject := vm1.heap.fresh
        numObjects := vm1.numObjects + 1
        stack := st
        stackSize := n } (vm1.heap.fresh :: K) :=
  { registry := Chain.cons_fresh hI.registry o hn
    count := by
      show vm1.numObjects + 1 = _
      rw [hI.count]; simp
    stackBound := hb }

theorem pushInt_collect {vm vm' : VM} {v : Int} (hk : pushInt vm v = .ok vm') :
    ∃ vm1, collectIfFull vm = .ok vm1 := by
  cases h1 : collectIfFull vm with
  | error e =>
    simp only [pushInt, newObject_eq, h1] at hk
    cases hk
  | ok vm1 => exact ⟨vm1, rfl⟩

theorem pushPair_collect {vm vm' : VM} {r : Ptr} (hk : pushPair vm = .ok (vm', r)) :
    ∃ vm1, collectIfFull vm = .ok vm1 := by
  cases h1 : collectIfFull vm with
  | error e =>
    simp only [pushPair, newObject_eq, h1] at hk
    cases hk
  | ok vm1 => exact ⟨vm1, rfl⟩

theorem countInv_pushInt {vm vm' : VM} {L : List Ptr} {v : Int} (hI : CountInv vm L)
    (hk : pushInt vm v = .ok vm') : ∃ L', CountInv vm' L' := by
  obtain ⟨vm1, h1⟩ := pushInt_collect hk
  obtain ⟨K, hI1, _⟩ := countInv_collect hI h1
  by_cases hs : vm1.stackSize < STACK_MAX
  · rw [pushInt_ok v h1 hs] at hk
    cases hk
    exact ⟨_, countInv_link hI1 _ rfl _ _ hs⟩
  · rw [pushInt_eq v h1] at hk
    simp only [push, hs, if_false] at hk
    cases hk

theorem countInv_pushPair {vm vm' : VM} {L : List Ptr} {r : Ptr} (hI : CountInv vm L)
    (hk : pushPair vm = .ok (vm', r)) : ∃ L', CountInv vm' L' := by
  obtain ⟨vm1, h1⟩ := pushPair_collect hk
  obtain ⟨K, hI1, hss⟩ := countInv_collect hI h1
  have hb := hI1.stackBound
  by_cases h2 : 2 ≤ vm1.stackSize
  · rw [pushPair_eq h1 h2 hb] at hk
    cases hk
    exact ⟨_, countInv_link hI1 _ rfl _ _ (by omega)⟩
  · rw [pushPair_underflow h1 (by omega)] at hk
    cases hk

theorem countInv_push {vm vm' : VM} {L : List Ptr} {r : Ptr} (hI : CountInv vm L)
    (hk : push vm r = .ok vm') : CountInv vm' L := by
  by_cases hs : vm.stackSize < STACK_MAX
  · rw [push_eq r hs] at hk
    cases hk
    exact
      { registry := hI.registry
        count := hI.count
        stackBound := hs }
  · rw [push_overflow r hs] at hk
    cases hk

theorem countInv_pop {vm vm' : VM} {L : List Ptr} {r : Ptr} (hI : CountInv vm L)
    (hk : pop vm = .ok (vm', r)) : CountInv vm' L := by
  by_cases h0 : vm.stackSize > 0
  · simp only [pop, h0, if_true] at hk
    cases hk
    exact
      { registry := hI.registry
        count := hI.count
        stackBound := by
          show vm.stackSize - 1 ≤ STACK_MAX
          have := hI.stackBound
          omega }
  · simp only [pop, h0, if_false] at hk
    cases hk

theorem countInv_call {vm vm' : VM} {L : List Ptr} {c : Call} (hI : CountInv vm L)
    (hk : call vm c = .ok vm') : ∃ L', CountInv vm' L' := by
  cases c with
  | push r => exact ⟨L, countInv_push hI hk⟩
  | pop =>
    simp only [call] at hk
    cases hp : pop vm with
    | error e => rw [hp] at hk; cases hk
    | ok x =>
      obtain ⟨vm2, r⟩ := x
      rw [hp] at hk
      cases hk
      exact ⟨L, countInv_pop hI hp⟩
  | pushInt v => exact countInv_pushInt hI hk
  | pushPair =>
    simp only [call] at hk
    cases hp : pushPair vm with
    | error e => rw [hp] at hk; cases hk
    | ok x =>
      obtain ⟨vm2, r⟩ := x
      rw [hp] at hk
      cases hk
      exact countInv_pushPair hI hp
  | gc =>
    obtain ⟨K, hK, _⟩ := countInv_gc hI hk
    exact ⟨K, hK⟩

theorem callReachable_countInv {vm : VM} (hr : CallReachable vm) : ∃ L, CountInv vm L := by
  induction hr with
  | init => exact ⟨[], countInv_newVM⟩
  | step c _ hk ih =>
    obtain ⟨L, hI⟩ := ih
    exact countInv_call hI hk

theorem callReachable_runCalls {vm : VM} (hr : CallReachable vm) :
    ∀ (cs : List Call) {vm' : VM}, runCalls vm cs = .ok vm' → CallReachable vm' := by
  intro cs
  induction cs generalizing vm with
  | nil =>
    intro vm' hk
    simp only [runCalls] at hk
    cases hk
    exact hr
  | cons c cs ih =>
    intro vm' hk
    simp only [runCalls] at hk
    cases hs : call vm c with
    | error e => rw [hs] at hk; cases hk
    | ok vm1 =>
      rw [hs] at hk
      exact ih (CallReachable.step c hr hs) hk

theorem callReachable_stateAfterCalls (cs : List Call) : CallReachable (stateAfterCalls cs) := by
  unfold stateAfterCalls
  cases h : runCalls newVM cs with
  | error e => exact CallReachable.init
  | ok vm => exact callReachable_runCalls CallReachable.init cs h

/-- C13 (stack round trip): on every VM with `stackSize < 256`, `push r`
followed by `pop` returns `r` and leaves `stackSize` and the entries
`stack[0..stackSize)` as they were; and no `push` and no `pop` changes
`firstObject`, `numObjects`, `maxObjects` or the memory holding the objects. -/
theorem C13_stack_round_trip (vm : VM) (r : Ptr) (h : vm.stackSize < 256) :
    (∃ vm1 vm2, push vm r = .ok vm1 ∧ pop vm1 = .ok (vm2, r) ∧
      vm2.stackSize = vm.stackSize ∧ (∀ i, i < vm.stackSize → vm2.stack i = vm.stack i) ∧
      vm2.firstObject = vm.firstObject ∧ vm2.numObjects = vm.numObjects ∧
      vm2.maxObjects = vm.maxObjects ∧ vm2.heap = vm.heap) ∧
    (∀ s s' x, push s x = .ok s' →
      s'.firstObject = s.firstObject ∧ s'.numObjects = s.numObjects ∧
      s'.maxObjects = s.maxObjects ∧ s'.heap = s.heap) ∧
    (∀ s s' x, pop s = .ok (s', x) →
      s'.firstObject = s.firstObject ∧ s'.numObjects = s.numObjects ∧
      s'.maxObjects = s.maxObjects ∧ s'.heap = s.heap) := by
  have hs : vm.stackSize < STACK_MAX := h
  have hp : pop { vm with
        stack := fun i => if i = vm.stackSize then r else vm.stack i
        stackSize := vm.stackSize + 1 } =
      .ok ({ vm with
        stack := fun i => if i = vm.stackSize then r else vm.stack i
        stackSize := vm.stackSize }, r) := by
    simp only [pop, gt_iff_lt, Nat.zero_lt_succ, if_true, Nat.add_sub_cancel]
  refine ⟨⟨_, _, push_eq r hs, hp, rfl, ?_, rfl, rfl, rfl, rfl⟩, ?_, ?_⟩
  · intro i hi
    show (if i = vm.stackSize then r else vm.stack i) = _
    rw [if_neg (Nat.ne_of_lt hi)]
  · intro s s' x hk
    by_cases hlt : s.stackSize < STACK_MAX
    · rw [push_eq x hlt] at hk
      cases hk
      exact ⟨rfl, rfl, rfl, rfl⟩
    · rw [push_overflow x hlt] at hk
      cases hk
  · intro s s' x hk
    by_cases h0 : s.stackSize > 0
    · simp only [pop, h0, if_true] at hk
      cases hk
      exact ⟨rfl, rfl, rfl, rfl⟩
    · simp only [pop, h0, if_false] at hk
      cases hk

/-- Instance of C13 at the state after `pushInt 1; pushInt 2; pushPair`,
pushing the pointer `2`. -/
theorem C13_stack_round_trip_witness :
    ∃ vm1 vm2, push (stateAfter [.pushInt 1, .pushInt 2, .pushPair]) 2 = .ok vm1 ∧
      pop vm1 = .ok (vm2, 2) ∧
      vm2.stackSize = (stateAfter [.pushInt 1, .pushInt 2, .pushPair]).stackSize ∧
      (∀ i, i < (stateAfter [.pushInt 1, .pushInt 2, .pushPair]).stackSize →
        vm2.stack i = (stateAfter [.pushInt 1, .pushInt 2, .pushPair]).stack i) ∧
      vm2.firstObject = (stateAfter [.pushInt 1, .pushInt 2, .pushPair]).firstObject ∧
      vm2.numObjects = (stateAfter [.pushInt 1, .pushInt 2, .pushPair]).numObjects ∧
      vm2.maxObjects = (stateAfter [.pushInt 1, .pushInt 2, .pushPair]).maxObjects ∧
      vm2.heap = (stateAfter [.pushInt 1, .pushInt 2, .pushPair]).heap :=
  (C13_stack_round_trip (stateAfter [.pushInt 1, .pushInt 2, .pushPair]) 2 (by decide)).1

/-- On any VM record `push` stops the process exactly when `stackSize` is not
below `STACK_MAX`, and then with the overflow message. -/
theorem push_error_iff (vm : VM) (r : Ptr) (e : Err) :
    push vm r = .error e ↔ STACK_MAX ≤ vm.stackSize ∧ e = .stackOverflow := by
  by_cases hlt : vm.stackSize < STACK_MAX
  · rw [push_eq r hlt]
    constructor
    · intro h; cases h
    · rintro ⟨h, _⟩; omega
  · rw [push_overflow r hlt]
    constructor
    · intro h; cases h; exact ⟨by omega, rfl⟩
    · rintro ⟨_, rfl⟩; rfl

/-- On any VM record `pop` stops the process exactly when `stackSize` is `0`,
and then with the underflow message. -/
theorem pop_error_iff (vm : VM) (e : Err) :
    pop vm = .error e ↔ vm.stackSize = 0 ∧ e = .stackUnderflow := by
  by_cases h0 : vm.stackSize > 0
  · simp only [pop, h0, if_true]
    constructor
    · intro h; cases h
    · rintro ⟨h, _⟩; omega
  · simp only [pop, h0, if_false]
    constructor
    · intro h; cases h; exact ⟨by omega, rfl⟩
    · rintro ⟨_, rfl⟩; rfl

/-- In every state reachable through the whole interface the stack size is
within the capacity. -/
theorem callReachable_stackBound {vm : VM} (hr : CallReachable vm) :
    vm.stackSize ≤ STACK_MAX := by
  obtain ⟨L, hI⟩ := callReachable_countInv hr
  exact hI.stackBound

/-- C14 (stack failure conditions): in every state reachable from `newVM` by
`push`, `pop`, `pushInt`, `pushPair` and `gc`, `push` stops the process
(with "Stack overflow") if and only if `stackSize = STACK_MAX = 256`, and
otherwise stores the reference at index `stackSize`, leaves the other slots
alone and adds 1 to `stackSize`; `pop` stops the process (with "Stack
underflow") if and only if `stackSize = 0`, and otherwise subtracts 1 from
`stackSize` and returns `stack[stackSize - 1]`. -/
theorem C14_stack_failure_conditions (vm : VM) (hr : CallReachable vm) (r : Ptr) :
    STACK_MAX = 256 ∧
    ((∃ e, push vm r = .error e) ↔ vm.stackSize = 256) ∧
    (push vm r = .error .stackOverflow ↔ vm.stackSize = 256) ∧
    (vm.stackSize ≠ 256 →
      ∃ vm', push vm r = .ok vm' ∧ vm'.stack vm.stackSize = r ∧
        (∀ i, i ≠ vm.stackSize → vm'.stack i = vm.stack i) ∧
        vm'.stackSize = vm.stackSize + 1) ∧
    ((∃ e, pop vm = .error e) ↔ vm.stackSize = 0) ∧
    (pop vm = .error .stackUnderflow ↔ vm.stackSize = 0) ∧
    (vm.stackSize ≠ 0 →
      ∃ vm', pop vm = .ok (vm', vm.stack (vm.stackSize - 1)) ∧
        vm'.stackSize = vm.stackSize - 1 ∧ vm'.stack = vm.stack) := by
  have hb : vm.stackSize ≤ 256 := callReachable_stackBound hr
  refine ⟨rfl, ?_, ?_, ?_, ?_, ?_, ?_⟩
  · constructor
    · rintro ⟨e, he⟩
      have := ((push_error_iff vm r e).mp he).1
      simp only [STACK_MAX] at this
      omega
    · intro h
      exact ⟨.stackOverflow, (push_error_iff vm r _).mpr ⟨by simp only [STACK_MAX]; omega, rfl⟩⟩
  · constructor
    · intro he
      have := ((push_error_iff vm r _).mp he).1
      simp only [STACK_MAX] at this
      omega
    · intro h
      exact (push_error_iff vm r _).mpr ⟨by simp only [STACK_MAX]; omega, rfl⟩
  · intro hne
    have hlt : vm.stackSize < STACK_MAX := by simp only [STACK_MAX]; omega
    refine ⟨_, push_eq r hlt, ?_, ?_, rfl⟩
    · show (if vm.stackSize = vm.stackSize then r else vm.stack vm.stackSize) = r
      rw [if_pos rfl]
    · intro i hi
      show (if i = vm.stackSize then r else vm.stack i) = _
      rw [if_neg hi]
  · constructor
    · rintro ⟨e, he⟩
      exact ((pop_error_iff vm e).mp he).1
    · intro h
      exact ⟨.stackUnderflow, (pop_error_iff vm _).mpr ⟨h, rfl⟩⟩
  · constructor
    · intro he
      exact ((pop_error_iff vm _).mp he).1
    · intro h
      exact (pop_error_iff vm _).mpr ⟨h, rfl⟩
  · intro hne
    have h0 : vm.stackSize > 0 := Nat.pos_of_ne_zero hne
    have hp : pop vm =
        .ok ({ vm with stackSize := vm.stackSize - 1 }, vm.stack (vm.stackSize - 1)) := by
      simp only [pop, h0, if_true]
    exact ⟨_, hp, rfl, rfl⟩

set_option maxRecDepth 100000 in
/-- Instance of C14 at the state after 256 calls of `push`: the stack is
full, `push` stops the process and `pop` returns the top entry. -/
theorem C14_stack_failure_conditions_witness :
    (stateAfterCalls (List.replicate 256 (Call.push 0))).stackSize = 256 ∧
    push (stateAfterCalls (List.replicate 256 (Call.push 0))) 7 = .error .stackOverflow ∧
    (∃ vm', pop (stateAfterCalls (List.replicate 256 (Call.push 0))) =
        .ok (vm', (stateAfterCalls (List.replicate 256 (Call.push 0))).stack
          ((stateAfterCalls (List.replicate 256 (Call.push 0))).stackSize - 1)) ∧
      vm'.stackSize = (stateAfterCalls (List.replicate 256 (Call.push 0))).stackSize - 1 ∧
      vm'.stack = (stateAfterCalls (List.replicate 256 (Call.push 0))).stack) :=
  ⟨by decide,
   (C14_stack_failure_conditions (stateAfterCalls (List.replicate 256 (Call.push 0)))
      (callReachable_stateAfterCalls _) 7).2.2.1.mpr (by decide),
   (C14_stack_failure_conditions (stateAfterCalls (List.replicate 256 (Call.push 0)))
      (callReachable_stateAfterCalls _) 7).2.2.2.2.2.2 (by decide)⟩

/-- The call sequence used as example for C12 returns: three objects
are registered and the pair built from the pushed pointer is on the stack. -/
theorem stateAfterCalls_examples :
    (∃ vm, runCalls newVM [.pushInt 1, .pop, .push 1, .pushInt 2, .pushPair, .gc] = .ok vm ∧
      vm.numObjects = 3 ∧ vm.stackSize = 1 ∧ vm.maxObjects = 6) :=
  ⟨_, rfl, rfl, rfl, rfl⟩

/-! ## Termination of the mark phase -/

/-- A recursion budget that suffices gives the same result when enlarged. -/
theorem markAux_stable (fuel : Nat) : ∀ (h : Heap) (p : Ptr),
    markAux fuel h p ≠ .error .fuel → markAux (fuel + 1) h p = markAux fuel h p := by
  induction fuel with
  | zero => intro h p hne; exact absurd rfl hne
  | succ fuel ih =>
    intro h p hne
    cases hg : h.get p with
    | none => rw [markAux_succ_none hg, markAux_succ_none hg]
    | some o =>
      by_cases hm : o.marked = 0
      · rw [markAux_succ_unmarked hg hm] at hne ⊢
        rw [markAux_succ_unmarked hg hm]
        by_cases ht : o.type = .OBJ_PAIR
        · rw [if_pos ht] at hne ⊢
          rw [if_pos ht]
          cases hk1 : markAux fuel (h.set p { o with marked := 1 }) o.head with
          | error e =>
            rw [hk1] at hne
            have he : e ≠ .fuel := fun h => hne (by rw [h])
            rw [ih _ _ (by rw [hk1]; intro h; cases h; exact he rfl), hk1]
          | ok h2 =>
            rw [hk1] at hne
            rw [ih _ _ (by rw [hk1]; intro h; cases h), hk1]
            simp only at hne ⊢
            cases hg2 : h2.get p with
            | none => rfl
            | some o2 =>
              rw [hg2] at hne
              simp only at hne ⊢
              exact ih _ _ hne
        · rw [if_neg ht, if_neg ht]
      · rw [markAux_succ_marked hg hm, markAux_succ_marked hg hm]

theorem markAux_eq_of_le {f f' : Nat} (hle : f ≤ f') (h : Heap) (p : Ptr)
    (hne : markAux f h p ≠ .error .fuel) : markAux f' h p = markAux f h p := by
  induction f', hle using Nat.le_induction with
  | base => rfl
  | succ n _ ih => rw [markAux_stable n h p (by rw [ih]; exact hne), ih]

/-- The result of `mark` does not depend on the budget. -/
theorem markAux_eq_mark {fuel : Nat} {h : Heap} (p : Ptr) (hlt : unmarkedCount h < fuel) :
    markAux fuel h p = mark h p := by
  have h1 := markAux_no_fuel fuel h p hlt
  have h2 := mark_no_fuel h p
  rcases Nat.le_total fuel (h.length + 1) with hle | hle
  · exact (markAux_eq_of_le hle h p h1).symm
  · exact markAux_eq_of_le hle h p h2

theorem markAll_no_fuel (vm : VM) : markAll vm ≠ .error .fuel := by
  unfold markAll
  cases hk : markList (roots vm) vm.heap with
  | error e =>
    simp only
    intro he
    cases he
    exact markList_no_fuel _ _ hk
  | ok h => simp

/-- In a heap whose pair fields point to objects of the heap, everything
reachable from an object of the heap is an object of the heap. -/
theorem reach_allocated {h : Heap}
    (hcl : ∀ a o, h.get a = some o → o.type = .OBJ_PAIR →
      h.get o.head ≠ none ∧ h.get o.tail ≠ none)
    {p q : Ptr} (hp : h.get p ≠ none) (hre : Reach h p q) : h.get q ≠ none := by
  induction hre with
  | refl => exact hp
  | head _ hg ht _ => exact (hcl _ _ hg ht).1
  | tail _ hg ht _ => exact (hcl _ _ hg ht).2

/-- C15 (cycle safety of marking): on every heap, cyclic or not, `mark`
never exhausts its recursion budget, its result is the same for every
budget above the number of unmarked cells, and each call that recurses first
lowers that number by marking the object; `markAll` never exhausts the
budget either, whatever the stack holds. When the pair fields of the heap
point to objects of the heap, `mark` returns on every object of the heap and
`markAll` returns on every stack whose entries are objects of the heap. -/
theorem C15_mark_terminates (vm : VM) :
    (∀ p, mark vm.heap p ≠ .error .fuel) ∧
    (∀ p fuel, unmarkedCount vm.heap < fuel → markAux fuel vm.heap p = mark vm.heap p) ∧
    (∀ p o, vm.heap.get p = some o → o.marked = 0 →
      unmarkedCount (vm.heap.set p { o with marked := 1 }) < unmarkedCount vm.heap) ∧
    markAll vm ≠ .error .fuel ∧
    ((∀ a o, vm.heap.get a = some o → o.type = .OBJ_PAIR →
        vm.heap.get o.head ≠ none ∧ vm.heap.get o.tail ≠ none) →
      (∀ p, vm.heap.get p ≠ none → ∃ h', mark vm.heap p = .ok h') ∧
      ((∀ i, i < vm.stackSize → vm.heap.get (vm.stack i) ≠ none) →
        ∃ vm', markAll vm = .ok vm')) := by
  refine ⟨mark_no_fuel vm.heap, fun p fuel h => markAux_eq_mark p h,
    fun p o hg hm => (MarkRel.set_marked hg hm).2, markAll_no_fuel vm, ?_⟩
  intro hcl
  refine ⟨fun p hp => mark_ok (fun a hre => reach_allocated hcl hp hre), ?_⟩
  intro hst
  obtain ⟨h', hk⟩ := markList_ok (roots vm) vm.heap (by
    intro r hr a hre
    obtain ⟨i, hi, rfl⟩ := mem_roots.mp hr
    exact reach_allocated hcl (hst i hi) hre)
  exact ⟨{ vm with heap := h' }, by simp only [markAll, hk]⟩

/-- In the hand-built cyclic state every pair field points to an object. -/
theorem cyclicVM_closed : ∀ a o, cyclicVM.heap.get a = some o → o.type = .OBJ_PAIR →
    cyclicVM.heap.get o.head ≠ none ∧ cyclicVM.heap.get o.tail ≠ none := by
  intro a o ho ht
  simp only [cyclicVM, Heap.get] at ho
  split at ho
  · cases ho; exact ⟨by decide, by decide⟩
  · split at ho
    · cases ho; exact ⟨by decide, by decide⟩
    · split at ho
      · cases ho; cases ht
      · cases ho

/-- Instance of C15 on a heap in which the pairs `2` and `3` reach
themselves: `mark` returns on the pair `3` and `markAll` returns. -/
theorem C15_mark_terminates_witness :
    (∃ h', mark cyclicVM.heap 3 = .ok h') ∧ (∃ vm', markAll cyclicVM = .ok vm') :=
  ⟨((C15_mark_terminates cyclicVM).2.2.2.2 cyclicVM_closed).1 3 (by decide),
   ((C15_mark_terminates cyclicVM).2.2.2.2 cyclicVM_closed).2 (by
      intro i _
      show cyclicVM.heap.get 1 ≠ none
      decide)⟩

/-- Marking the pair `3` of the cyclic heap marks the three objects it
reaches and nothing else changes. -/
theorem mark_cyclic_example :
    mark cyclicVM.heap 3 = .ok
      [(3, { marked := 1, type := .OBJ_PAIR, next := 2, value := 0, head := 2, tail := 3 }),
       (2, { marked := 1, type := .OBJ_PAIR, next := 1, value := 0, head := 3, tail := 1 }),
       (1, { marked := 1, type := .OBJ_INT, next := NULL, value := 7, head := NULL,
             tail := NULL })] := rfl

/-! ## The mark phase computes reachability -/

/-- From the facts every marking traversal establishes, the marked set is
the set reachable from the roots, provided nothing was marked before. -/
theorem marked_iff_reach {ps : List Ptr} {h h' : Heap}
    (hun : ∀ a o, h.get a = some o → o.marked = 0)
    (hr : MarkRel h h') (hroots : ∀ r ∈ ps, Marked h' r)
    (hnew : ∀ a, Marked h' a → ¬ Marked h a →
      (∃ r ∈ ps, Reach h r a) ∧
        ∀ o, h'.get a = some o → o.type = .OBJ_PAIR → Marked h' o.head ∧ Marked h' o.tail) :
    ∀ a, Marked h' a ↔ ∃ r ∈ ps, Reach h r a := by
  have hnm : ∀ a, ¬ Marked h a := by
    rintro a ⟨o, ho, hm⟩
    exact hm (hun a o ho)
  intro a
  constructor
  · intro hM
    exact (hnew a hM (hnm a)).1
  · rintro ⟨r, hrm, hre⟩
    induction hre with
    | refl => exact hroots r hrm
    | @head q o _ hg ht ih =>
      obtain ⟨o', ho', t1, _, _, h4, _, _⟩ := hr.get_some hg
      have := ((hnew q ih (hnm q)).2 o' ho' (by rw [t1]; exact ht)).1
      rw [h4] at this; exact this
    | @tail q o _ hg ht ih =>
      obtain ⟨o', ho', t1, _, _, _, h5, _⟩ := hr.get_some hg
      have := ((hnew q ih (hnm q)).2 o' ho' (by rw [t1]; exact ht)).2
      rw [h5] at this; exact this

/-- The cells after marking, given which objects end up marked. -/
theorem cells_of_marked {h h' : Heap} {R : Ptr → Prop}
    (hun : ∀ a o, h.get a = some o → o.marked = 0)
    (hr : MarkRel h h') (hM : ∀ a, Marked h' a ↔ R a) :
    (∀ a o, h.get a = some o → R a → h'.get a = some { o with marked := 1 }) ∧
    (∀ a, ¬ R a → h'.get a = h.get a) := by
  constructor
  · intro a o ho hRa
    obtain ⟨o', ho', hm'⟩ := (hM a).mpr hRa
    rcases hr.get a with h1 | ⟨o1, h1, _, h2⟩
    · rw [h1, ho] at ho'
      cases ho'
      exact absurd (hun a o ho) hm'
    · rw [ho] at h1; cases h1
      exact h2
  · intro a hRa
    rcases hr.get a with h1 | ⟨o1, _, _, h2⟩
    · exact h1
    · exact absurd ((hM a).mp ⟨_, h2, by simp⟩) hRa

theorem worklistAux_none {fuel : Nat} {h : Heap} {p : Ptr} {wl : List Ptr}
    (hg : h.get p = none) : worklistAux (fuel + 1) (p :: wl) h = .error .segfault := by
  rw [worklistAux]
  simp only [hg]

theorem worklistAux_marked {fuel : Nat} {h : Heap} {p : Ptr} {wl : List Ptr} {o : Object}
    (hg : h.get p = some o) (hm : o.marked ≠ 0) :
    worklistAux (fuel + 1) (p :: wl) h = worklistAux fuel wl h := by
  rw [worklistAux]
  simp only [hg, hm, ne_eq, not_false_eq_true, if_true]

theorem worklistAux_pair {fuel : Nat} {h : Heap} {p : Ptr} {wl : List Ptr} {o : Object}
    (hg : h.get p = some o) (hm : o.marked = 0) (ht : o.type = .OBJ_PAIR) :
    worklistAux (fuel + 1) (p :: wl) h =
      worklistAux fuel (o.head :: o.tail :: wl) (h.set p { o with marked := 1 }) := by
  rw [worklistAux]
  simp only [hg, hm, ne_eq, not_true_eq_false, if_false]
  rw [if_pos ht]

theorem worklistAux_other {fuel : Nat} {h : Heap} {p : Ptr} {wl : List Ptr} {o : Object}
    (hg : h.get p = some o) (hm : o.marked = 0) (ht : o.type ≠ .OBJ_PAIR) :
    worklistAux (fuel + 1) (p :: wl) h =
      worklistAux fuel wl (h.set p { o with marked := 1 }) := by
  rw [worklistAux]
  simp only [hg, hm, ne_eq, not_true_eq_false, if_false]
  rw [if_neg ht]

theorem worklistAux_spec (fuel : Nat) : ∀ (wl : List Ptr) (h h' : Heap),
    worklistAux fuel wl h = .ok h' →
    MarkRel h h' ∧ (∀ r ∈ wl, Marked h' r) ∧
      ∀ a, Marked h' a → ¬ Marked h a →
        (∃ r ∈ wl, Reach h r a) ∧
          ∀ o, h'.get a = some o → o.type = .OBJ_PAIR → Marked h' o.head ∧ Marked h' o.tail := by
  induction fuel with
  | zero => intro wl h h' hk; simp [worklistAux] at hk
  | succ fuel ih =>
    intro wl h h' hk
    cases wl with
    | nil =>
      simp only [worklistAux] at hk
      cases hk
      exact ⟨MarkRel.markRefl h, by simp, fun a hMa hn => absurd hMa hn⟩
    | cons p wl =>
      cases hg : h.get p with
      | none => rw [worklistAux_none hg] at hk; cases hk
      | some o =>
        by_cases hm : o.marked = 0
        · obtain ⟨hr1, _⟩ := MarkRel.set_marked hg hm
          have hg1 : (h.set p { o with marked := 1 }).get p = some { o with marked := 1 } :=
            Heap.get_set_self _ hg
          have hM1 : Marked (h.set p { o with marked := 1 }) p := ⟨_, hg1, by simp⟩
          have hother : ∀ a, a ≠ p → Marked (h.set p { o with marked := 1 }) a →
              Marked h a := by
            intro a ha ⟨oa, hoa, hma⟩
            rw [Heap.get_set_ne _ _ ha] at hoa
            exact ⟨oa, hoa, hma⟩
          by_cases ht : o.type = .OBJ_PAIR
          · rw [worklistAux_pair hg hm ht] at hk
            obtain ⟨hr2, hM2, hnew2⟩ := ih _ _ _ hk
            have hr : MarkRel h h' := hr1.markTrans hr2
            refine ⟨hr, ?_, ?_⟩
            · intro r hrm
              rcases List.mem_cons.mp hrm with rfl | hrm
              · exact hr2.marked_mono hM1
              · exact hM2 r (List.mem_cons_of_mem _ (List.mem_cons_of_mem _ hrm))
            · intro a hMa hnMa
              by_cases hap : a = p
              · subst hap
                refine ⟨⟨a, List.mem_cons_self _ _, Reach.refl _⟩, ?_⟩
                intro o' ho' _
                obtain ⟨o0, ho0, _, _, _, h4, h5, _⟩ := hr.get_some_inv ho'
                rw [hg] at ho0; cases ho0
                rw [h4, h5]
                exact ⟨hM2 _ (List.mem_cons_self _ _),
                  hM2 _ (List.mem_cons_of_mem _ (List.mem_cons_self _ _))⟩
              · have hn1 : ¬ Marked (h.set p { o with marked := 1 }) a :=
                  fun hx => hnMa (hother a hap hx)
                obtain ⟨⟨r, hrm, hre⟩, hc⟩ := hnew2 a hMa hn1
                refine ⟨?_, hc⟩
                have hre' := hr1.reachBefore hre
                rcases List.mem_cons.mp hrm with rfl | hrm
                · exact ⟨p, List.mem_cons_self _ _,
                    (Reach.head (Reach.refl p) hg ht).append hre'⟩
                · rcases List.mem_cons.mp hrm with rfl | hrm
                  · exact ⟨p, List.mem_cons_self _ _,
                      (Reach.tail (Reach.refl p) hg ht).append hre'⟩
                  · exact ⟨r, List.mem_cons_of_mem _ hrm, hre'⟩
          · rw [worklistAux_other hg hm ht] at hk
            obtain ⟨hr2, hM2, hnew2⟩ := ih _ _ _ hk
            have hr : MarkRel h h' := hr1.markTrans hr2
            refine ⟨hr, ?_, ?_⟩
            · intro r hrm
              rcases List.mem_cons.mp hrm with rfl | hrm
              · exact hr2.marked_mono hM1
              · exact hM2 r hrm
            · intro a hMa hnMa
              by_cases hap : a = p
              · subst hap
                refine ⟨⟨a, List.mem_cons_self _ _, Reach.refl _⟩, ?_⟩
                intro o' ho' ht'
                obtain ⟨o0, ho0, t1, _⟩ := hr.get_some_inv ho'
                rw [hg] at ho0; cases ho0
                exact absurd (by rw [← t1]; exact ht') ht
              · have hn1 : ¬ Marked (h.set p { o with marked := 1 }) a :=
                  fun hx => hnMa (hother a hap hx)
                obtain ⟨⟨r, hrm, hre⟩, hc⟩ := hnew2 a hMa hn1
                exact ⟨⟨r, List.mem_cons_of_mem _ hrm, hr1.reachBefore hre⟩, hc⟩
        · rw [worklistAux_marked hg hm] at hk
          obtain ⟨hr2, hM2, hnew2⟩ := ih _ _ _ hk
          refine ⟨hr2, ?_, ?_⟩
          · intro r hrm
            rcases List.mem_cons.mp hrm with rfl | hrm
            · exact hr2.marked_mono ⟨o, hg, hm⟩
            · exact hM2 r hrm
          · intro a hMa hnMa
            obtain ⟨⟨r, hrm, hre⟩, hc⟩ := hnew2 a hMa hnMa
            exact ⟨⟨r, List.mem_cons_of_mem _ hrm, hre⟩, hc⟩

theorem worklistAux_ok (fuel : Nat) : ∀ (wl : List Ptr) (h : Heap),
    2 * unmarkedCount h + wl.length < fuel →
    (∀ r ∈ wl, ∀ a, Reach h r a → h.get a ≠ none) →
    ∃ h', worklistAux fuel wl h = .ok h' := by
  induction fuel with
  | zero => intro wl h hlt; omega
  | succ fuel ih =>
    intro wl h hlt hall
    cases wl with
    | nil => exact ⟨h, by simp only [worklistAux]⟩
    | cons p wl =>
      simp only [List.length_cons] at hlt
      cases hg : h.get p with
      | none => exact absurd hg (hall p (List.mem_cons_self _ _) p (Reach.refl p))
      | some o =>
        have hwl : ∀ r ∈ wl, ∀ a, Reach h r a → h.get a ≠ none :=
          fun r hr => hall r (List.mem_cons_of_mem _ hr)
        by_cases hm : o.marked = 0
        · obtain ⟨hr1, hlt1⟩ := MarkRel.set_marked hg hm
          have hne : ∀ a, h.get a ≠ none → (h.set p { o with marked := 1 }).get a ≠ none := by
            intro a ha hn
            cases hga : h.get a with
            | none => exact ha hga
            | some oa =>
              obtain ⟨o', ho', _⟩ := hr1.get_some hga
              rw [hn] at ho'; cases ho'
          have hfrom : ∀ r a, Reach h p r → Reach (h.set p { o with marked := 1 }) r a →
              (h.set p { o with marked := 1 }).get a ≠ none := by
            intro r a hpr hre
            exact hne a (hall p (List.mem_cons_self _ _) a (hpr.append (hr1.reachBefore hre)))
          have hwl1 : ∀ r ∈ wl, ∀ a, Reach (h.set p { o with marked := 1 }) r a →
              (h.set p { o with marked := 1 }).get a ≠ none :=
            fun r hr a hre => hne a (hwl r hr a (hr1.reachBefore hre))
          by_cases ht : o.type = .OBJ_PAIR
          · rw [worklistAux_pair hg hm ht]
            refine ih _ _ (by simp only [List.length_cons]; omega) ?_
            intro r hrm a hre
            rcases List.mem_cons.mp hrm with rfl | hrm
            · exact hfrom _ a (Reach.head (Reach.refl p) hg ht) hre
            · rcases List.mem_cons.mp hrm with rfl | hrm
              · exact hfrom _ a (Reach.tail (Reach.refl p) hg ht) hre
              · exact hwl1 r hrm a hre
          · rw [worklistAux_other hg hm ht]
            exact ih _ _ (by omega) hwl1
        · rw [worklistAux_marked hg hm]
          exact ih _ _ (by omega) hwl

theorem markAll_ok_iff {vm vm1 : VM} :
    markAll vm = .ok vm1 ↔
      ∃ h1, markList (roots vm) vm.heap = .ok h1 ∧ vm1 = { vm with heap := h1 } := by
  unfold markAll
  cases hk : markList (roots vm) vm.heap with
  | error e =>
    constructor
    · intro h; cases h
    · rintro ⟨h1, h, _⟩; cases h
  | ok h1 =>
    constructor
    · intro h; cases h; exact ⟨h1, rfl, rfl⟩
    · rintro ⟨h2, h, rfl⟩; cases h; rfl

theorem length_roots (vm : VM) : (roots vm).length = vm.stackSize := by
  simp [roots]

/-- C16 (the mark phase computes reachability): on a heap in which every
object is unmarked, `markAll` returns exactly when everything reachable from
`stack[0..stackSize)` is an object of the heap; when it returns, the marked
objects are exactly the objects reachable from the stack by zero or more
`head`/`tail` edges, each of them differs from before only in `marked = 1`,
every other cell and every field of the VM record is unchanged, and the
work-list traversal of the same state returns the same heap. -/
theorem C16_mark_computes_reachability (vm : VM)
    (hun : ∀ a o, vm.heap.get a = some o → o.marked = 0) :
    ((∃ vm1, markAll vm = .ok vm1) ↔ ∀ a, StackReach vm a → vm.heap.get a ≠ none) ∧
    (∀ vm1, markAll vm = .ok vm1 →
      (∀ a, Marked vm1.heap a ↔ StackReach vm a) ∧
      (∀ a o, vm.heap.get a = some o → StackReach vm a →
        vm1.heap.get a = some { o with marked := 1 }) ∧
      (∀ a, ¬ StackReach vm a → vm1.heap.get a = vm.heap.get a) ∧
      vm1.stack = vm.stack ∧ vm1.stackSize = vm.stackSize ∧
      vm1.firstObject = vm.firstObject ∧ vm1.numObjects = vm.numObjects ∧
      vm1.maxObjects = vm.maxObjects ∧ vm1.out = vm.out ∧
      ∃ vm2, markAllWorklist vm = .ok vm2 ∧ (∀ a, vm2.heap.get a = vm1.heap.get a) ∧
        (∀ a, Marked vm2.heap a ↔ Marked vm1.heap a)) := by
  have hspec : ∀ vm1, markAll vm = .ok vm1 →
      ∃ h1, vm1 = { vm with heap := h1 } ∧ MarkRel vm.heap h1 ∧
        ∀ a, Marked h1 a ↔ StackReach vm a := by
    intro vm1 hk
    obtain ⟨h1, hk1, rfl⟩ := markAll_ok_iff.mp hk
    obtain ⟨hr, hroots, hnew⟩ := markList_spec _ _ _ hk1
    refine ⟨h1, rfl, hr, fun a => ?_⟩
    rw [marked_iff_reach hun hr hroots hnew a, stackReach_iff]
  have hvalid : ∀ vm1, markAll vm = .ok vm1 →
      ∀ a, StackReach vm a → vm.heap.get a ≠ none := by
    intro vm1 hk a ha hn
    obtain ⟨h1, _, hr, hM⟩ := hspec vm1 hk
    obtain ⟨o', ho', _⟩ := (hM a).mpr ha
    obtain ⟨o, ho, _⟩ := hr.get_some_inv ho'
    rw [hn] at ho; cases ho
  refine ⟨⟨fun ⟨vm1, hk⟩ => hvalid vm1 hk, ?_⟩, ?_⟩
  · intro hall
    obtain ⟨h', hk, _⟩ := markAll_spec hall (by
      rintro a _ ⟨o, ho, hm⟩
      exact hm (hun a o ho))
    exact ⟨_, hk⟩
  · intro vm1 hk
    obtain ⟨h1, rfl, hr, hM⟩ := hspec _ hk
    obtain ⟨c1, c2⟩ := cells_of_marked hun hr hM
    refine ⟨hM, c1, c2, rfl, rfl, rfl, rfl, rfl, rfl, ?_⟩
    have hall := hvalid _ hk
    obtain ⟨h2, hk2⟩ := worklistAux_ok (2 * vm.heap.length + vm.stackSize + 1) (roots vm)
      vm.heap (by
        have := unmarkedCount_le_length vm.heap
        rw [length_roots]; omega)
      (fun r hr a hre => hall a (stackReach_iff.mpr ⟨r, hr, hre⟩))
    obtain ⟨hr2, hroots2, hnew2⟩ := worklistAux_spec _ _ _ _ hk2
    have hM2 : ∀ a, Marked h2 a ↔ StackReach vm a := by
      intro a
      rw [marked_iff_reach hun hr2 hroots2 hnew2 a, stackReach_iff]
    obtain ⟨d1, d2⟩ := cells_of_marked hun hr2 hM2
    refine ⟨{ vm with heap := h2 }, by simp only [markAllWorklist, hk2], ?_, ?_⟩
    · intro a
      show h2.get a = h1.get a
      by_cases hR : StackReach vm a
      · cases hg : vm.heap.get a with
        | none => rw [hr.get_none hg, hr2.get_none hg]
        | some o => rw [c1 a o hg hR, d1 a o hg hR]
      · rw [c2 a hR, d2 a hR]
    · intro a
      show Marked h2 a ↔ Marked h1 a
      rw [hM2 a, hM a]

/-- A hand-built state with unmarked objects only satisfies the hypothesis
of C16: the cyclic example. -/
theorem cyclicVM_unmarked : ∀ a o, cyclicVM.heap.get a = some o → o.marked = 0 := by
  intro a o ho
  simp only [cyclicVM, Heap.get] at ho
  split at ho
  · cases ho; rfl
  · split at ho
    · cases ho; rfl
    · split at ho
      · cases ho; rfl
      · cases ho

/-- Instance of C16 on the cyclic example, whose stack holds the integer `1`. -/
theorem C16_mark_computes_reachability_witness :
    ((∃ vm1, markAll cyclicVM = .ok vm1) ↔
      ∀ a, StackReach cyclicVM a → cyclicVM.heap.get a ≠ none) ∧
    (∀ vm1, markAll cyclicVM = .ok vm1 →
      (∀ a, Marked vm1.heap a ↔ StackReach cyclicVM a) ∧
      (∀ a o, cyclicVM.heap.get a = some o → StackReach cyclicVM a →
        vm1.heap.get a = some { o with marked := 1 }) ∧
      (∀ a, ¬ StackReach cyclicVM a → vm1.heap.get a = cyclicVM.heap.get a) ∧
      vm1.stack = cyclicVM.stack ∧ vm1.stackSize = cyclicVM.stackSize ∧
      vm1.firstObject = cyclicVM.firstObject ∧ vm1.numObjects = cyclicVM.numObjects ∧
      vm1.maxObjects = cyclicVM.maxObjects ∧ vm1.out = cyclicVM.out ∧
      ∃ vm2, markAllWorklist cyclicVM = .ok vm2 ∧ (∀ a, vm2.heap.get a = vm1.heap.get a) ∧
        (∀ a, Marked vm2.heap a ↔ Marked vm1.heap a)) :=
  C16_mark_computes_reachability cyclicVM cyclicVM_unmarked

/-- On the state after `pushInt 1; pushInt 2; pushPair; pushInt 3; pop` the
recursive and the work-list mark phase both return, with the same heap: the
pair and its two children marked, the popped integer not. -/
theorem markAll_example :
    (markAll (stateAfter [.pushInt 1, .pushInt 2, .pushPair, .pushInt 3, .pop])).map
        (fun vm => vm.heap) =
      .ok
        [(4, { marked := 0, type := .OBJ_INT, next := 3, value := 3, head := 0, tail := 0 }),
         (3, { marked := 1, type := .OBJ_PAIR, next := 2, value := 0, head := 1, tail := 2 }),
         (2, { marked := 1, type := .OBJ_INT, next := 1, value := 2, head := 0, tail := 0 }),
         (1, { marked := 1, type := .OBJ_INT, next := 0, value := 1, head := 0, tail := 0 })] ∧
    (markAllWorklist (stateAfter [.pushInt 1, .pushInt 2, .pushPair, .pushInt 3, .pop])).map
        (fun vm => vm.heap) =
      (markAll (stateAfter [.pushInt 1, .pushInt 2, .pushPair, .pushInt 3, .pop])).map
        (fun vm => vm.heap) :=
  ⟨rfl, rfl⟩

/-! ## The sweep phase is a filter -/

/-- On the example state `sweep` keeps `4` and `2` in this order, relinks
`4` to `2` and `2` to `NULL`, clears their mark bits and counts two objects. -/
theorem sweep_example :
    (sweep markedVM).map (fun vm => (vm.firstObject, vm.numObjects, vm.heap)) =
      .ok (4, 2,
        [(4, { marked := 0, type := .OBJ_PAIR, next := 2, value := 0, head := 2, tail := 2 }),
         (2, { marked := 0, type := .OBJ_INT, next := 0, value := 20, head := 0, tail := 0 })]) ∧
    [4, 3, 2, 1].filter (isMarked markedVM.heap) = [4, 2] :=
  ⟨rfl, rfl⟩

/-! ## Heaps built through the facade are acyclic -/

theorem Older.closed {h : Heap} : ∀ {L : List Ptr}, Older h L →
    ∀ a ∈ L, ∀ o, h.get a = some o → o.type = .OBJ_PAIR → o.head ∈ L ∧ o.tail ∈ L := by
  intro L
  induction L with
  | nil => intro _ a ha; simp at ha
  | cons b L ih =>
    intro hO a ha o ho ht
    obtain ⟨hb, hL⟩ := hO
    rcases List.mem_cons.mp ha with rfl | ha
    · obtain ⟨c1, c2⟩ := hb o ho ht
      exact ⟨List.mem_cons_of_mem _ c1, List.mem_cons_of_mem _ c2⟩
    · obtain ⟨c1, c2⟩ := ih hL a ha o ho ht
      exact ⟨List.mem_cons_of_mem _ c1, List.mem_cons_of_mem _ c2⟩

theorem Older.transfer {h h' : Heap} : ∀ {L : List Ptr},
    (∀ a ∈ L, ∀ o', h'.get a = some o' → ∃ o, h.get a = some o ∧ SameData o o') →
    Older h L → Older h' L := by
  intro L
  induction L with
  | nil => intro _ _; trivial
  | cons b L ih =>
    intro hsame hO
    obtain ⟨hb, hL⟩ := hO
    refine ⟨?_, ih (fun a ha => hsame a (List.mem_cons_of_mem _ ha)) hL⟩
    intro o' ho' ht
    obtain ⟨o, ho, t1, _, t3, t4⟩ := hsame b (List.mem_cons_self _ _) o' ho'
    rw [t3, t4]
    exact hb o ho (by rw [← t1]; exact ht)

theorem Older.dropPrefix {h : Heap} : ∀ {L1 L2 : List Ptr}, Older h (L1 ++ L2) → Older h L2 := by
  intro L1
  induction L1 with
  | nil => intro L2 hO; exact hO
  | cons b L1 ih => intro L2 hO; exact ih hO.2

theorem Older.sublist {h : Heap} {K L : List Ptr} (hsub : K.Sublist L) :
    L.Nodup → Older h L →
    (∀ x ∈ K, ∀ o, h.get x = some o → o.type = .OBJ_PAIR → o.head ∈ K ∧ o.tail ∈ K) →
    Older h K := by
  induction hsub with
  | slnil => intro _ _ _; trivial
  | cons b _ ih =>
    intro hnd hO hcl
    exact ih (List.nodup_cons.mp hnd).2 hO.2 hcl
  | @cons₂ K L b hKL ih =>
    intro hnd hO hcl
    obtain ⟨hbL, hndL⟩ := List.nodup_cons.mp hnd
    obtain ⟨hb, hL⟩ := hO
    have hne : ∀ x, x ∈ L → x ≠ b := fun x hx e => hbL (e ▸ hx)
    refine ⟨?_, ih hndL hL ?_⟩
    · intro o ho ht
      obtain ⟨c1, c2⟩ := hb o ho ht
      obtain ⟨d1, d2⟩ := hcl b (List.mem_cons_self _ _) o ho ht
      constructor
      · rcases List.mem_cons.mp d1 with e | e
        · exact absurd e (hne _ c1)
        · exact e
      · rcases List.mem_cons.mp d2 with e | e
        · exact absurd e (hne _ c2)
        · exact e
    · intro x hx o ho ht
      obtain ⟨c1, c2⟩ := hL.closed x (hKL.subset hx) o ho ht
      obtain ⟨d1, d2⟩ := hcl x (List.mem_cons_of_mem _ hx) o ho ht
      constructor
      · rcases List.mem_cons.mp d1 with e | e
        · exact absurd e (hne _ c1)
        · exact e
      · rcases List.mem_cons.mp d2 with e | e
        · exact absurd e (hne _ c2)
        · exact e

theorem Older.reach {h : Heap} {L : List Ptr} (hO : Older h L) {p q : Ptr} (hp : p ∈ L)
    (hre : Reach h p q) : q ∈ L := by
  induction hre with
  | refl => exact hp
  | head _ hg ht ih => exact (hO.closed _ ih _ hg ht).1
  | tail _ hg ht ih => exact (hO.closed _ ih _ hg ht).2

/-- A collection keeps the order of the registry. -/
theorem gc_older {vm vm' : VM} {L : List Ptr} (hI : Inv vm L) (hO : Older vm.heap L)
    (hk : gc vm = .ok vm') : ∃ K, Inv vm' K ∧ Older vm'.heap K := by
  obtain ⟨vm2, K, hk2, post, hI'⟩ := gc_inv hI
  rw [hk] at hk2
  cases hk2
  refine ⟨K, hI', ?_⟩
  have hback : ∀ a ∈ K, ∀ o', vm'.heap.get a = some o' →
      ∃ o, vm.heap.get a = some o ∧ SameData o o' := by
    intro a ha o' ho'
    obtain ⟨_, o, ho⟩ := Chain.alloc hI.registry a (post.sub.subset ha)
    obtain ⟨o'', ho'', _, hd⟩ := post.kept a ha o ho
    rw [ho'] at ho''; cases ho''
    exact ⟨o, ho, hd⟩
  refine Older.transfer hback (Older.sublist post.sub (Chain.nodup hI.registry) hO ?_)
  intro x hx o ho ht
  obtain ⟨o', ho', _, t1, _, t3, t4⟩ := post.kept x hx o ho
  have := hI'.closed x hx o' ho' (by rw [t1]; exact ht)
  rw [t3, t4] at this
  exact this

theorem collectIfFull_older {vm vm1 : VM} {L : List Ptr} (hI : Inv vm L)
    (hO : Older vm.heap L) (hk : collectIfFull vm = .ok vm1) :
    ∃ K, Inv vm1 K ∧ Older vm1.heap K ∧ vm1.stackSize = vm.stackSize := by
  by_cases hfull : vm.numObjects = vm.maxObjects
  · simp only [collectIfFull, hfull, if_true] at hk
    obtain ⟨K, h1, h2⟩ := gc_older hI hO hk
    obtain ⟨_, _, hk', post, _⟩ := gc_inv hI
    rw [hk] at hk'
    cases hk'
    exact ⟨K, h1, h2, post.stackSize⟩
  · simp only [collectIfFull, hfull, if_false] at hk
    cases hk
    exact ⟨L, hI, hO, rfl⟩

/-- The order after linking a new object whose children are registered. -/
theorem older_link {vm1 : VM} {K : List Ptr} (hI : Inv vm1 K) (hO : Older vm1.heap K)
    (o : Object) (hch : o.type = .OBJ_PAIR → o.head ∈ K ∧ o.tail ∈ K) :
    Older ((vm1.heap.fresh, o) :: vm1.heap) (vm1.heap.fresh :: K) := by
  refine ⟨?_, Older.transfer ?_ hO⟩
  · intro o' ho' ht
    simp only [Heap.get, if_true] at ho'
    cases ho'
    exact hch ht
  · intro a ha o' ho'
    rw [Heap.get_cons_of_mem o hI.registry ha] at ho'
    exact ⟨o', ho', SameData.same o'⟩

theorem step_older {vm vm' : VM} {L : List Ptr} {op : Op} (hI : Inv vm L)
    (hb : vm.stackSize ≤ STACK_MAX) (hO : Older vm.heap L) (hk : step vm op = .ok vm') :
    ∃ L', Inv vm' L' ∧ Older vm'.heap L' := by
  cases op with
  | pushInt v =>
    have hk' : pushInt vm v = .ok vm' := hk
    obtain ⟨vm1, h1⟩ := pushInt_collect hk'
    obtain ⟨K, hI1, hO1, _⟩ := collectIfFull_older hI hO h1
    by_cases hs : vm1.stackSize < STACK_MAX
    · rw [pushInt_ok v h1 hs] at hk'
      cases hk'
      exact ⟨_, inv_alloc_push hI1 _ rfl rfl (fun h => by cases h) vm1.stackSize (le_refl _),
        older_link hI1 hO1 _ (fun h => by cases h)⟩
    · rw [pushInt_eq v h1] at hk'
      simp only [push, hs, if_false] at hk'
      cases hk'
  | pushPair =>
    simp only [step] at hk
    cases hp : pushPair vm with
    | error e => rw [hp] at hk; cases hk
    | ok x =>
      obtain ⟨vm2, r⟩ := x
      rw [hp] at hk
      cases hk
      obtain ⟨vm1, h1⟩ := pushPair_collect hp
      obtain ⟨K, hI1, hO1, hss⟩ := collectIfFull_older hI hO h1
      have hb1 : vm1.stackSize ≤ STACK_MAX := by rw [hss]; exact hb
      by_cases h2 : 2 ≤ vm1.stackSize
      · rw [pushPair_eq h1 h2 hb1] at hp
        cases hp
        have e : vm1.stackSize - 1 = (vm1.stackSize - 2) + 1 := by omega
        have hch : vm1.stack (vm1.stackSize - 2) ∈ K ∧
            vm1.stack (vm1.stackSize - 2 + 1) ∈ K :=
          ⟨hI1.stackOk _ (by omega), hI1.stackOk _ (by omega)⟩
        rw [e]
        exact ⟨_, inv_alloc_push hI1 _ rfl rfl (fun _ => hch) (vm1.stackSize - 2) (by omega),
          older_link hI1 hO1 _ (fun _ => hch)⟩
      · rw [pushPair_underflow h1 (by omega)] at hp
        cases hp
  | pop =>
    simp only [step] at hk
    cases hp : pop vm with
    | error e => rw [hp] at hk; cases hk
    | ok x =>
      obtain ⟨vm2, r⟩ := x
      rw [hp] at hk
      cases hk
      have hI' := pop_inv hI hp
      by_cases h0 : vm.stackSize > 0
      · simp only [pop, h0, if_true] at hp
        cases hp
        exact ⟨L, hI', hO⟩
      · simp only [pop, h0, if_false] at hp
        cases hp
  | gc => exact gc_older hI hO hk

theorem reachable_older {vm : VM} (hr : Reachable vm) :
    ∃ L, Inv vm L ∧ Older vm.heap L := by
  induction hr with
  | init => exact ⟨[], inv_newVM, trivial⟩
  | @step vm vm' op hprev hk ih =>
    obtain ⟨L, hI, hO⟩ := ih
    obtain ⟨_, _, hb⟩ := reachable_inv hprev
    exact step_older hI hb hO hk

/-- With the children of every pair later in the list, a recursion budget of
the length of the list is enough for `mark`. -/
theorem markAux_depth : ∀ (L : List Ptr) (h : Heap), Older h L →
    (∀ a ∈ L, h.get a ≠ none) → ∀ p ∈ L, ∀ fuel, L.length ≤ fuel →
    ∃ h', markAux fuel h p = .ok h' := by
  intro L
  induction L with
  | nil => intro h _ _ p hp; simp at hp
  | cons a L ih =>
    intro h hO hall p hp fuel hfuel
    obtain ⟨ha, hL⟩ := hO
    have hallL : ∀ x ∈ L, h.get x ≠ none := fun x hx => hall x (List.mem_cons_of_mem _ hx)
    simp only [List.length_cons] at hfuel
    by_cases hpa : p = a
    · subst hpa
      obtain ⟨f, rfl⟩ : ∃ f, fuel = f + 1 := ⟨fuel - 1, by omega⟩
      have hf : L.length ≤ f := by omega
      cases hg : h.get p with
      | none => exact absurd hg (hall p (List.mem_cons_self _ _))
      | some o =>
        by_cases hm : o.marked = 0
        · rw [markAux_succ_unmarked hg hm]
          obtain ⟨hr1, _⟩ := MarkRel.set_marked hg hm
          have hg1 : (h.set p { o with marked := 1 }).get p = some { o with marked := 1 } :=
            Heap.get_set_self _ hg
          by_cases ht : o.type = .OBJ_PAIR
          · rw [if_pos ht]
            obtain ⟨c1, c2⟩ := ha o hg ht
            have keep : ∀ {h2 : Heap}, MarkRel h h2 →
                Older h2 L ∧ ∀ x ∈ L, h2.get x ≠ none := by
              intro h2 hr
              refine ⟨Older.transfer ?_ hL, ?_⟩
              · intro x _ o' ho'
                obtain ⟨o0, ho0, t1, _, t3, t4, t5, _⟩ := hr.get_some_inv ho'
                exact ⟨o0, ho0, t1, t3, t4, t5⟩
              · intro x hx hn
                cases hgx : h.get x with
                | none => exact hallL x hx hgx
                | some ox =>
                  obtain ⟨o', ho', _⟩ := hr.get_some hgx
                  rw [hn] at ho'; cases ho'
            obtain ⟨hO1, hall1⟩ := keep hr1
            obtain ⟨h2, hk1⟩ := ih _ hO1 hall1 o.head c1 f hf
            rw [hk1]
            simp only
            obtain ⟨hr2, _, _⟩ := markAux_spec f _ _ _ hk1
            obtain ⟨o2, hg2, _, _, _, _, tl2, _, _⟩ := hr2.get_some hg1
            rw [hg2]
            simp only
            rw [tl2]
            obtain ⟨hO2, hall2⟩ := keep (hr1.markTrans hr2)
            exact ih _ hO2 hall2 o.tail c2 f hf
          · rw [if_neg ht]
            exact ⟨_, rfl⟩
        · rw [markAux_succ_marked hg hm]
          exact ⟨_, rfl⟩
    · have hpL : p ∈ L := by
        rcases List.mem_cons.mp hp with e | e
        · exact absurd e hpa
        · exact e
      exact ih h hL hallL p hpL fuel (by omega)

/-- C19 (heaps built through the facade are acyclic): in every state
reachable from `newVM` by `pushInt`, `pushPair`, `pop` and `gc` the registry
is a list `L` without repetition in which the head and the tail of every
pair stand strictly after the pair; no registered pair is reachable from its
own head or tail; and in every heap that differs from this one only by mark
bits set during a mark phase, `mark` returns on every registered object with
a recursion budget of the length of `L`. -/
theorem C19_facade_heaps_acyclic (vm : VM) (hr : Reachable vm) :
    ∃ L, Registry vm L ∧ L.Nodup ∧
      (∀ L1 a L2 o, L = L1 ++ a :: L2 → vm.heap.get a = some o → o.type = .OBJ_PAIR →
        o.head ∈ L2 ∧ o.tail ∈ L2 ∧ o.head ∉ L1 ++ [a] ∧ o.tail ∉ L1 ++ [a]) ∧
      (∀ a ∈ L, ∀ o, vm.heap.get a = some o → o.type = .OBJ_PAIR →
        ¬ Reach vm.heap o.head a ∧ ¬ Reach vm.heap o.tail a) ∧
      (∀ h, MarkRel vm.heap h → ∀ p ∈ L,
        ∃ h', markAux L.length h p = .ok h' ∧ mark h p = .ok h') := by
  obtain ⟨L, hI, hO⟩ := reachable_older hr
  have hnd := Chain.nodup hI.registry
  have hlater : ∀ L1 a L2 o, L = L1 ++ a :: L2 → vm.heap.get a = some o →
      o.type = .OBJ_PAIR → o.head ∈ L2 ∧ o.tail ∈ L2 := by
    intro L1 a L2 o hL ho ht
    rw [hL] at hO
    exact (Older.dropPrefix hO).1 o ho ht
  have hdisj : ∀ L1 a L2 x, L = L1 ++ a :: L2 → x ∈ L2 → x ∉ L1 ++ [a] := by
    intro L1 a L2 x hL hx hx'
    rw [hL, show L1 ++ a :: L2 = (L1 ++ [a]) ++ L2 by simp] at hnd
    exact (List.nodup_append.mp hnd).2.2 hx' hx
  refine ⟨L, hI.registry, hnd, ?_, ?_, ?_⟩
  · intro L1 a L2 o hL ho ht
    obtain ⟨c1, c2⟩ := hlater L1 a L2 o hL ho ht
    exact ⟨c1, c2, hdisj L1 a L2 _ hL c1, hdisj L1 a L2 _ hL c2⟩
  · intro a ha o ho ht
    obtain ⟨L1, L2, hL⟩ := List.append_of_mem ha
    obtain ⟨c1, c2⟩ := hlater L1 a L2 o hL ho ht
    have hO2 : Older vm.heap L2 := by
      rw [hL] at hO
      exact (Older.dropPrefix hO).2
    have haL2 : a ∉ L2 := by
      intro h
      exact hdisj L1 a L2 a hL h (by simp)
    exact ⟨fun hre => haL2 (hO2.reach c1 hre), fun hre => haL2 (hO2.reach c2 hre)⟩
  · intro h hr p hp
    have hOh : Older h L := by
      refine Older.transfer ?_ hO
      intro x _ o' ho'
      obtain ⟨o0, ho0, t1, _, t3, t4, t5, _⟩ := hr.get_some_inv ho'
      exact ⟨o0, ho0, t1, t3, t4, t5⟩
    have hall : ∀ a ∈ L, h.get a ≠ none := by
      intro a ha hn
      obtain ⟨_, o, ho⟩ := Chain.alloc hI.registry a ha
      obtain ⟨o', ho', _⟩ := hr.get_some ho
      rw [hn] at ho'; cases ho'
    obtain ⟨h', hk⟩ := markAux_depth L h hOh hall p hp L.length (le_refl _)
    refine ⟨h', hk, ?_⟩
    have hlen : L.length ≤ h.length + 1 := by
      have := Chain.length_le hI.registry
      rw [hr.length_eq]; omega
    have := markAux_eq_of_le hlen h p (by rw [hk]; intro e; cases e)
    rw [hk] at this
    exact this

/-- Instance of C19 at the state after `pushInt 1; pushInt 2; pushPair;
pushInt 3; pushPair; gc`, whose registry holds a pair of a pair. -/
theorem C19_facade_heaps_acyclic_witness :
    ∃ L, Registry (stateAfter
          [.pushInt 1, .pushInt 2, .pushPair, .pushInt 3, .pushPair, .gc]) L ∧ L.Nodup ∧
      (∀ L1 a L2 o, L = L1 ++ a :: L2 →
        (stateAfter [.pushInt 1, .pushInt 2, .pushPair, .pushInt 3, .pushPair, .gc]).heap.get a =
          some o → o.type = .OBJ_PAIR →
        o.head ∈ L2 ∧ o.tail ∈ L2 ∧ o.head ∉ L1 ++ [a] ∧ o.tail ∉ L1 ++ [a]) ∧
      (∀ a ∈ L, ∀ o,
        (stateAfter [.pushInt 1, .pushInt 2, .pushPair, .pushInt 3, .pushPair, .gc]).heap.get a =
          some o → o.type = .OBJ_PAIR →
        ¬ Reach (stateAfter
            [.pushInt 1, .pushInt 2, .pushPair, .pushInt 3, .pushPair, .gc]).heap o.head a ∧
        ¬ Reach (stateAfter
            [.pushInt 1, .pushInt 2, .pushPair, .pushInt 3, .pushPair, .gc]).heap o.tail a) ∧
      (∀ h, MarkRel (stateAfter
            [.pushInt 1, .pushInt 2, .pushPair, .pushInt 3, .pushPair, .gc]).heap h →
        ∀ p ∈ L, ∃ h', markAux L.length h p = .ok h' ∧ mark h p = .ok h') :=
  C19_facade_heaps_acyclic
    (stateAfter [.pushInt 1, .pushInt 2, .pushPair, .pushInt 3, .pushPair, .gc])
    (reachable_stateAfter _)

/-- The example state for C19: five objects, the registry in allocation
order newest first, a budget of five suffices for the top pair and a budget
of two does not. -/
theorem facade_example :
    (∃ vm, run newVM [.pushInt 1, .pushInt 2, .pushPair, .pushInt 3, .pushPair, .gc] = .ok vm ∧
      vm.numObjects = 5 ∧ vm.firstObject = 5 ∧ Registry vm [5, 4, 3, 2, 1]) ∧
    (markAux 2 (stateAfter
        [.pushInt 1, .pushInt 2, .pushPair, .pushInt 3, .pushPair, .gc]).heap 5 =
      .error .fuel) :=
  ⟨⟨_, rfl, rfl, rfl, rfl, by decide, _, rfl, rfl, by decide, _, rfl, rfl, by decide, _, rfl,
    rfl, by decide, _, rfl, rfl, by decide, _, rfl, rfl⟩, rfl⟩

/-! ## Failures of the facade -/

theorem wrapInt_of_range {x : Int} (h0 : -2147483648 ≤ x) (h1 : x < 2147483648) :
    wrapInt x = x := by
  unfold wrapInt
  omega

theorem wrapInt_double_high {n : Int} (h0 : 1073741824 ≤ n) (h1 : n < 2147483648) :
    wrapInt (n * 2) = n * 2 - 4294967296 := by
  unfold wrapInt
  omega

/-- Below `2^30` survivors the threshold `gc` sets is twice their number. -/
theorem gc_threshold_low {vm vm' : VM} (hk : gc vm = .ok vm') (h0 : 0 < vm'.numObjects)
    (h1 : vm'.numObjects < 1073741824) : vm'.maxObjects = 2 * vm'.numObjects := by
  rw [gc_threshold vm vm' hk, if_neg (by omega), wrapInt_of_range (by omega) (by omega)]
  ring

theorem gc_threshold_zero {vm vm' : VM} (hk : gc vm = .ok vm') (h0 : vm'.numObjects = 0) :
    vm'.maxObjects = GC_THRESHOLD := by
  rw [gc_threshold vm vm' hk, if_pos h0]

/-- From `2^30` survivors on the product leaves the range of `int` and the
threshold `gc` sets is negative. -/
theorem gc_threshold_high {vm vm' : VM} (hk : gc vm = .ok vm')
    (h0 : 1073741824 ≤ vm'.numObjects) (h1 : vm'.numObjects < 2147483648) :
    vm'.maxObjects = 2 * vm'.numObjects - 4294967296 ∧ vm'.maxObjects < 0 := by
  have h : vm'.maxObjects = 2 * vm'.numObjects - 4294967296 := by
    rw [gc_threshold vm vm' hk, if_neg (by omega), wrapInt_double_high h0 h1]
    ring
  exact ⟨h, by omega⟩

/-! ## States in which every object is live -/

theorem run_append {vm vm1 vm2 : VM} : ∀ (xs : List Op) (ys : List Op),
    run vm xs = .ok vm1 → run vm1 ys = .ok vm2 → run vm (xs ++ ys) = .ok vm2 := by
  intro xs
  induction xs generalizing vm with
  | nil =>
    intro ys h1 h2
    simp only [run] at h1
    cases h1
    exact h2
  | cons op xs ih =>
    intro ys h1 h2
    simp only [List.cons_append, run] at h1 ⊢
    cases hs : step vm op with
    | error e =>
      try rw [hs] at h1
      cases h1
    | ok vm0 =>
      try rw [hs] at h1
      try rw [hs]
      exact ih ys h1 h2

theorem reach_cons_fresh {h : Heap} (o : Object) {p q : Ptr} (hre : Reach h p q) :
    Reach ((h.fresh, o) :: h) p q := by
  induction hre with
  | refl => exact Reach.refl _
  | head _ hg ht ih => exact Reach.head ih (Heap.get_cons_fresh o hg) ht
  | tail _ hg ht ih => exact Reach.tail ih (Heap.get_cons_fresh o hg) ht

theorem allLive_newVM : AllLive newVM [] :=
  { inv := inv_newVM
    live := by intro a ha; simp at ha }

/-- A collection in a state without garbage frees nothing. -/
theorem allLive_gc {vm : VM} {L : List Ptr} (hA : AllLive vm L) :
    ∃ vm', gc vm = .ok vm' ∧ AllLive vm' L ∧ vm'.stackSize = vm.stackSize ∧
      vm'.numObjects = (L.length : Int) := by
  obtain ⟨vm', K, hk, post, hI'⟩ := gc_inv hA.inv
  have hsub : L ⊆ K := fun a ha => (post.mem a).mpr (hA.live a ha)
  have hK : K = L :=
    post.sub.eq_of_length_le
      (List.Nodup.subperm (Chain.nodup hA.inv.registry) hsub).length_le
  subst hK
  exact ⟨vm', hk, ⟨hI', fun a ha => post.stackReach (hA.live a ha)⟩, post.stackSize,
    hI'.count⟩

theorem allLive_collect {vm : VM} {L : List Ptr} (hA : AllLive vm L) :
    ∃ vm1, collectIfFull vm = .ok vm1 ∧ AllLive vm1 L ∧ vm1.stackSize = vm.stackSize := by
  by_cases hfull : vm.numObjects = vm.maxObjects
  · obtain ⟨vm', hk, hA', hss, _⟩ := allLive_gc hA
    exact ⟨vm', by simp only [collectIfFull, hfull, if_true, hk], hA', hss⟩
  · exact ⟨vm, by simp only [collectIfFull, hfull, if_false], hA, rfl⟩

theorem allLive_pushInt {vm : VM} {L : List Ptr} (v : Int) (hA : AllLive vm L)
    (hs : vm.stackSize < STACK_MAX) :
    ∃ vm' L', pushInt vm v = .ok vm' ∧ AllLive vm' L' ∧ L'.length = L.length + 1 ∧
      vm'.stackSize = vm.stackSize + 1 := by
  obtain ⟨vm1, h1, hA1, hss⟩ := allLive_collect hA
  have hs1 : vm1.stackSize < STACK_MAX := by rw [hss]; exact hs
  refine ⟨_, vm1.heap.fresh :: L, pushInt_ok v h1 hs1, ⟨?_, ?_⟩, by simp, ?_⟩
  · exact inv_alloc_push hA1.inv _ rfl rfl (fun h => by cases h) vm1.stackSize (le_refl _)
  · intro a ha
    rcases List.mem_cons.mp ha with rfl | ha
    · refine ⟨vm1.stackSize, Nat.lt_succ_self _, ?_⟩
      show Reach _ (if vm1.stackSize = vm1.stackSize then vm1.heap.fresh else _) _
      rw [if_pos rfl]
      exact Reach.refl _
    · obtain ⟨i, hi, hre⟩ := hA1.live a ha
      refine ⟨i, Nat.lt_succ_of_lt hi, ?_⟩
      show Reach _ (if i = vm1.stackSize then vm1.heap.fresh else vm1.stack i) a
      rw [if_neg (by omega)]
      exact reach_cons_fresh _ hre
  · show vm1.stackSize + 1 = vm.stackSize + 1
    rw [hss]

theorem allLive_pushPair {vm : VM} {L : List Ptr} (hA : AllLive vm L)
    (h2 : 2 ≤ vm.stackSize) (hb : vm.stackSize ≤ STACK_MAX) :
    ∃ vm' r L', pushPair vm = .ok (vm', r) ∧ AllLive vm' L' ∧ L'.length = L.length + 1 ∧
      vm'.stackSize + 1 = vm.stackSize := by
  obtain ⟨vm1, h1, hA1, hss⟩ := allLive_collect hA
  rw [← hss] at h2 hb
  have hI1 := hA1.inv
  have hInv := inv_alloc_push hI1
    ⟨0, .OBJ_PAIR, vm1.firstObject, 0, vm1.stack (vm1.stackSize - 2),
      vm1.stack (vm1.stackSize - 1)⟩ rfl rfl
    (fun _ => ⟨hI1.stackOk _ (by omega), hI1.stackOk _ (by omega)⟩)
    (vm1.stackSize - 2) (by omega)
  have e : vm1.stackSize - 2 + 1 = vm1.stackSize - 1 := by omega
  rw [e] at hInv
  refine ⟨_, _, vm1.heap.fresh :: L, pushPair_eq h1 h2 hb, ⟨hInv, ?_⟩, by simp, ?_⟩
  · intro a ha
    have hget : Heap.get ((vm1.heap.fresh,
        (⟨0, .OBJ_PAIR, vm1.firstObject, 0, vm1.stack (vm1.stackSize - 2),
          vm1.stack (vm1.stackSize - 1)⟩ : Object)) :: vm1.heap) vm1.heap.fresh =
        some ⟨0, .OBJ_PAIR, vm1.firstObject, 0, vm1.stack (vm1.stackSize - 2),
          vm1.stack (vm1.stackSize - 1)⟩ := by
      simp [Heap.get]
    have htop : (if vm1.stackSize - 2 = vm1.stackSize - 2 then vm1.heap.fresh
        else vm1.stack (vm1.stackSize - 2)) = vm1.heap.fresh := if_pos rfl
    rcases List.mem_cons.mp ha with rfl | ha
    · refine ⟨vm1.stackSize - 2, by show vm1.stackSize - 2 < vm1.stackSize - 1; omega, ?_⟩
      show Reach _ (if vm1.stackSize - 2 = vm1.stackSize - 2 then vm1.heap.fresh else _) _
      rw [htop]
      exact Reach.refl _
    · obtain ⟨i, hi, hre⟩ := hA1.live a ha
      have hre' := reach_cons_fresh
        (⟨0, .OBJ_PAIR, vm1.firstObject, 0, vm1.stack (vm1.stackSize - 2),
          vm1.stack (vm1.stackSize - 1)⟩ : Object) hre
      by_cases hi2 : i < vm1.stackSize - 2
      · refine ⟨i, by show i < vm1.stackSize - 1; omega, ?_⟩
        show Reach _ (if i = vm1.stackSize - 2 then vm1.heap.fresh else vm1.stack i) a
        rw [if_neg (by omega)]
        exact hre'
      · refine ⟨vm1.stackSize - 2, by show vm1.stackSize - 2 < vm1.stackSize - 1; omega, ?_⟩
        show Reach _ (if vm1.stackSize - 2 = vm1.stackSize - 2 then vm1.heap.fresh else _) _
        rw [htop]
        have hi3 : i = vm1.stackSize - 2 ∨ i = vm1.stackSize - 1 := by omega
        rcases hi3 with rfl | rfl
        · exact Reach.append (Reach.head (Reach.refl _) hget rfl) hre'
        · exact Reach.append (Reach.tail (Reach.refl _) hget rfl) hre'
  · show vm1.stackSize - 1 + 1 = vm.stackSize
    omega

/-- The calls of `treeOps d` return and add `2 ^ (d + 1) - 1` objects, all of
them live, and one stack entry. -/
theorem allLive_tree : ∀ (d : Nat) (vm : VM) (L : List Ptr), AllLive vm L →
    vm.stackSize + d + 1 ≤ STACK_MAX →
    ∃ vm' L', run vm (treeOps d) = .ok vm' ∧ AllLive vm' L' ∧
      L'.length + 1 = L.length + 2 ^ (d + 1) ∧ vm'.stackSize = vm.stackSize + 1 := by
  intro d
  induction d with
  | zero =>
    intro vm L hA hs
    obtain ⟨vm', L', hk, hA', hlen, hss⟩ := allLive_pushInt 0 hA (by omega)
    refine ⟨vm', L', ?_, hA', by rw [hlen]; rfl, hss⟩
    simp only [treeOps, run, step, hk]
  | succ d ih =>
    intro vm L hA hs
    obtain ⟨vm1, L1, hk1, hA1, hlen1, hss1⟩ := ih vm L hA (by omega)
    obtain ⟨vm2, L2, hk2, hA2, hlen2, hss2⟩ := ih vm1 L1 hA1 (by omega)
    obtain ⟨vm3, r, L3, hk3, hA3, hlen3, hss3⟩ :=
      allLive_pushPair hA2 (by omega) (by omega)
    have hk3' : run vm2 [.pushPair] = .ok vm3 := by
      simp only [run, step, hk3, Except.map]
    refine ⟨vm3, L3, ?_, hA3, ?_, by omega⟩
    · simp only [treeOps]
      exact run_append _ _ (run_append _ _ hk1 hk2) hk3'
    · have hp : 2 ^ (d + 1 + 1) = 2 ^ (d + 1) + 2 ^ (d + 1) := by
        rw [pow_succ]; ring
      omega

/-- The calls of `overflowOps` return a state with `2 ^ 30` objects, all of
them live. -/
theorem allLive_overflowOps :
    ∃ vm L, run newVM overflowOps = .ok vm ∧ AllLive vm L ∧ L.length = 1073741824 := by
  obtain ⟨vm1, L1, hk1, hA1, hlen1, hss1⟩ :=
    allLive_tree 29 newVM [] allLive_newVM (by decide)
  have hs1 : vm1.stackSize < STACK_MAX := by
    rw [hss1]
    decide
  obtain ⟨vm2, L2, hk2, hA2, hlen2, _⟩ := allLive_pushInt 0 hA1 hs1
  have hk2' : run vm1 [.pushInt 0] = .ok vm2 := by
    simp only [run, step, hk2]
  refine ⟨vm2, L2, run_append _ _ hk1 hk2', hA2, ?_⟩
  have hp : (2 : Nat) ^ (29 + 1) = 1073741824 := by norm_num
  rw [hp] at hlen1
  simp only [List.length_nil] at hlen1
  omega

/-- The collection that follows `overflowOps` keeps all `2 ^ 30` objects and
leaves the threshold `-2147483648`. -/
theorem gc_overflowOps :
    ∃ vm vm', run newVM overflowOps = .ok vm ∧ gc vm = .ok vm' ∧
      vm'.numObjects = 1073741824 ∧ vm'.maxObjects = -2147483648 := by
  obtain ⟨vm, L, hk, hA, hlen⟩ := allLive_overflowOps
  obtain ⟨vm', hg, _, _, hn⟩ := allLive_gc hA
  have hn' : vm'.numObjects = 1073741824 := by
    rw [hn, hlen]
    rfl
  obtain ⟨hm, _⟩ := gc_threshold_high hg (by omega) (by omega)
  exact ⟨vm, vm', hk, hg, hn', by omega⟩

/-! ## The threshold invariant below `2 ^ 30` objects -/

/-- C6 (threshold update, with the overflow of `numObjects * 2`): whenever
`gc` returns, `numObjects` is the counter as `sweep` left it; `maxObjects` is
`GC_THRESHOLD = 10` if `numObjects` is zero, and twice `numObjects` if
`numObjects` is positive and below `2 ^ 30`; from `2 ^ 30` up to the largest
`int`, `maxObjects` is `2 * numObjects - 2 ^ 32`, which is not twice
`numObjects`.  The calls `overflowOps` return a state on which `gc` leaves
`numObjects = 2 ^ 30` and `maxObjects = -2147483648`. -/
theorem C6_threshold_overflow :
    (∀ vm vm' : VM, gc vm = .ok vm' →
      (∃ vm1 vm2, markAll vm = .ok vm1 ∧ sweep vm1 = .ok vm2 ∧
        vm'.numObjects = vm2.numObjects) ∧
      (0 < vm'.numObjects → vm'.numObjects < 1073741824 →
        vm'.maxObjects = 2 * vm'.numObjects) ∧
      (vm'.numObjects = 0 → vm'.maxObjects = 10 ∧ vm'.maxObjects = GC_THRESHOLD) ∧
      (1073741824 ≤ vm'.numObjects → vm'.numObjects < 2147483648 →
        vm'.maxObjects = 2 * vm'.numObjects - 4294967296 ∧
        vm'.maxObjects ≠ 2 * vm'.numObjects)) ∧
    (∃ vm vm', run newVM overflowOps = .ok vm ∧ gc vm = .ok vm' ∧
      0 < vm'.numObjects ∧ vm'.numObjects = 1073741824 ∧
      vm'.maxObjects = -2147483648 ∧ vm'.maxObjects ≠ 2 * vm'.numObjects) := by
  refine ⟨?_, ?_⟩
  · intro vm vm' hk
    refine ⟨?_, fun h0 h1 => gc_threshold_low hk h0 h1, ?_, ?_⟩
    · cases h1 : markAll vm with
      | error e => simp only [gc, h1] at hk; cases hk
      | ok vm1 =>
        cases h2 : sweep vm1 with
        | error e => simp only [gc, h1, h2] at hk; cases hk
        | ok vm2 =>
          rw [gc_eq h1 h2] at hk
          cases hk
          exact ⟨vm1, vm2, rfl, h2, rfl⟩
    · intro hz
      have h := gc_threshold_zero hk hz
      exact ⟨h, h⟩
    · intro h0 h1
      obtain ⟨h, _⟩ := gc_threshold_high hk h0 h1
      exact ⟨h, by omega⟩
  · obtain ⟨vm, vm', hk, hg, hn, hm⟩ := gc_overflowOps
    exact ⟨vm, vm', hk, hg, by omega, hn, hm, by omega⟩

/-- Instances of C6: the collection that ends `pushInt 1; pushInt 2; gc`
leaves the threshold `2 * 2`, and `gc` on the empty VM leaves `10`. -/
theorem C6_threshold_overflow_witness :
    (stateAfter [.pushInt 1, .pushInt 2, .gc]).maxObjects =
      2 * (stateAfter [.pushInt 1, .pushInt 2, .gc]).numObjects ∧
    (stateAfter [.gc]).maxObjects = 10 :=
  ⟨(C6_threshold_overflow.1 (stateAfter [.pushInt 1, .pushInt 2])
      (stateAfter [.pushInt 1, .pushInt 2, .gc]) rfl).2.1 (by decide) (by decide),
   ((C6_threshold_overflow.1 newVM (stateAfter [.gc]) rfl).2.2.1 rfl).1⟩

end GC
